import Mathlib

/-!
# VAST bitmap index: embedding and verified properties

The facade `bitmap_index<T, Coder, Binner>` is embedded from
`libvast/vast/bitmap_index.hpp`.  Its policies (`vast/coder.hpp`,
`vast/binner.hpp`, `vast/detail/order.hpp`) are only included by that header;
they are modelled from the specification and marked as such.

Bit sequences are lists of booleans (row `i` is element `i`), keys are natural
numbers (the unsigned, order-transformed bin keys), mutating member functions
return the new state.

Further parts embedded from the sources: the polymorphic bitstream
(`bitstream_polymorphic.hpp`), the range map (`util/range_map.h`), the look-ahead
parser (`concept/parseable/core/and.hpp`), the variant (`variant.hpp`) and the
argument splitting of commands (`src/command.cpp`).  The BitVector
(`vast/bitvector.h`) is modelled from the specification and its unit test.
-/

namespace vast

/-! ## Data model -/

/-- The relational operators a coder can be asked to decode. -/
inductive relational_operator
  | equal
  | not_equal
  | less
  | less_equal
  | greater
  | greater_equal
  deriving DecidableEq, Repr

/-- A bit sequence: element `i` is the bit of row `i`, `size()` is the length. -/
abbrev bitstream := List Bool

/-- The recoverable conditions a coder can signal. -/
inductive coder_error
  | unsupported_operator
  deriving DecidableEq, Repr

deriving instance DecidableEq for Except

/-- The `Coder` policy as `bitmap_index` uses it: `encode(key, n, skip)`,
`decode(op, key)` and `size()`. -/
structure coder_policy (C : Type) where
  encode : C → Nat → Nat → Nat → C
  decode : C → relational_operator → Nat → Except coder_error bitstream
  size : C → Nat

/-- The binner families told apart by `detail::is_precision_binner` and
`detail::is_decimal_binner`. -/
inductive binner_kind
  | identity_binner
  | precision_binner
  | decimal_binner
  deriving DecidableEq, Repr

/-- Whether the shift `order(x) >> (52 - digits2)` of `bitmap_index::transform`
is defined for an ordered type of `width` bits: C++ defines the right shift of
an unsigned `width`-bit value only for a shift count that is neither negative
nor as large as `width`. -/
def shift_defined (width digits2 : Nat) : Prop :=
  digits2 ≤ 52 ∧ 52 - digits2 < width

instance shift_defined_decidable (width digits2 : Nat) :
    Decidable (shift_defined width digits2) := by
  unfold shift_defined
  exact inferInstance

/-- The `Binner` policy and the value-type facts `bitmap_index::transform`
depends on: `Binner::bin`, `Binner::digits2`, whether the binned type `U` is a
floating-point type, `detail::order` on `U`, and the number of bits `width` of
`detail::ordered_type<U>`.  For a precision or decimal binner on a
floating-point type the source evaluates `order(x) >> (52 - digits2)`; where
that shift is undefined the instantiation has no meaning, so it is a policy
only together with the fact `defined` that the shift is defined. -/
structure binner_policy (T U : Type) where
  kind : binner_kind
  digits2 : Nat
  bin : T → U
  floating : Bool
  order : U → Nat
  width : Nat
  defined : (kind = binner_kind.precision_binner ∨ kind = binner_kind.decimal_binner) →
    floating = true → shift_defined width digits2

/-- The template arguments of one `bitmap_index` instantiation. -/
structure index_policy (T U C : Type) where
  coder : coder_policy C
  binner : binner_policy T U

/-- The private `is_shiftable<U, B>` of `bitmap_index`: a precision or decimal
binner on a floating-point type. -/
def is_shiftable {T U : Type} (b : binner_policy T U) : Bool :=
  (b.kind == binner_kind.precision_binner || b.kind == binner_kind.decimal_binner)
    && b.floating

/-- The two overloads of `bitmap_index::transform`: `order(x) >> (52 - digits2)`
for a shiftable binner, `order(x)` otherwise.  The shift count is the one the
source writes; by `binner_policy.defined` it is between 0 and `width - 1` in
every shiftable policy, so the shift is the defined one of C++.  The result
types (`detail::ordered_type`) are unsigned integers; keys are natural numbers
here. -/
def transform {T U : Type} (b : binner_policy T U) (x : U) : Nat :=
  if is_shiftable b then b.order x >>> (52 - b.digits2) else b.order x

/-- The class `bitmap_index`: its only data member is the coder. -/
structure bitmap_index (C : Type) where
  coder_ : C

namespace bitmap_index

variable {T U C : Type}

/-- The member `append(value_type x, size_type n, size_type skip)`. -/
def append (p : index_policy T U C) (self : bitmap_index C) (x : T) (n skip : Nat) :
    bitmap_index C :=
  { coder_ := p.coder.encode self.coder_ (transform p.binner (p.binner.bin x)) n skip }

/-- The member `push_back(value_type x, size_type skip)`. -/
def push_back (p : index_policy T U C) (self : bitmap_index C) (x : T) (skip : Nat) :
    bitmap_index C :=
  append p self x 1 skip

/-- The call `push_back(x)`, where the default argument `skip = 0` applies. -/
def push_back_value (p : index_policy T U C) (self : bitmap_index C) (x : T) :
    bitmap_index C :=
  push_back p self x 0

/-- The member `lookup(relational_operator op, value_type x)`. -/
def lookup (p : index_policy T U C) (self : bitmap_index C) (op : relational_operator)
    (x : T) : Except coder_error bitstream :=
  p.coder.decode self.coder_ op (transform p.binner (p.binner.bin x))

/-- The member `size()`. -/
def size (p : index_policy T U C) (self : bitmap_index C) : Nat :=
  p.coder.size self.coder_

/-- The member `empty()`. -/
def empty (p : index_policy T U C) (self : bitmap_index C) : Bool :=
  size p self == 0

end bitmap_index

/-! ## Observing coder calls -/

/-- One mutating call received by a coder. -/
inductive coder_call
  | encode (key n skip : Nat)
  deriving DecidableEq, Repr

/-- A coder that additionally records every `encode` it receives, in order.
`decode` is a const member: it cannot change the coder or the record. -/
def coder_policy.traced {C : Type} (c : coder_policy C) :
    coder_policy (C × List coder_call) where
  encode := fun s k n skip => (c.encode s.1 k n skip, s.2 ++ [coder_call.encode k n skip])
  decode := fun s op k => c.decode s.1 op k
  size := fun s => c.size s.1

/-- The same index instantiation over the recording coder. -/
def index_policy.traced {T U C : Type} (p : index_policy T U C) :
    index_policy T U (C × List coder_call) where
  coder := p.coder.traced
  binner := p.binner

/-! ## Bit-sequence operations used by the coders -/

/-- Modelled from the spec: `bitwise_not` of the BitStream contract (the stream
classes are under `vast/bitstream.hpp`, which is not part of the sources): every
bit below `size()` is complemented, the size is kept. -/
def bitwise_not (a : bitstream) : bitstream :=
  a.map not

/-- Modelled from the spec: `bitwise_and` of the BitStream contract, on operands
of equal size. -/
def bitwise_and (a b : bitstream) : bitstream :=
  List.zipWith and a b

/-- Modelled from the spec: `bitwise_or` of the BitStream contract, on operands
of equal size. -/
def bitwise_or (a b : bitstream) : bitstream :=
  List.zipWith or a b

/-- Modelled from the spec: `bitwise_subtract` (AND-NOT) of the BitStream
contract, on operands of equal size. -/
def bitwise_subtract (a b : bitstream) : bitstream :=
  List.zipWith (fun x y => x && !y) a b

/-- Modelled from the spec: `append(n, bit)` of the BitStream contract, which
appends `n` copies of one bit value. -/
def append_bits (a : bitstream) (n : Nat) (bit : Bool) : bitstream :=
  a ++ List.replicate n bit

/-! ## Equality coder -/

/-- Modelled from the spec: the equality coder of `vast/coder.hpp`, which is not
part of the sources.  It owns one stream per distinct key observed so far (kept
here in order of first occurrence) and a running row count. -/
structure equality_coder where
  streams : List (Nat × bitstream)
  rows : Nat
  deriving DecidableEq, Repr

namespace equality_coder

/-- Modelled from the spec: a default-constructed equality coder ("created
empty"). -/
def init : equality_coder :=
  { streams := [], rows := 0 }

/-- Modelled from the spec: the stream lookup of the equality coder, "that
key's stream if present". -/
def find (k : Nat) : List (Nat × bitstream) → Option bitstream
  | [] => none
  | e :: rest => if e.1 = k then some e.2 else find k rest

/-- Modelled from the spec: `encode` of the equality coder.  A new key first
gets "a brand-new all-zero stream padded to the current row count"; then the
key's stream gets a set bit for each of the `n` new rows and every other stream
a 0; the `skip` rows are "absent from every constituent BitStream", that is 0
in each of them, which keeps every stream at the row count. -/
def encode (c : equality_coder) (k n skip : Nat) : equality_coder :=
  let streams :=
    match find k c.streams with
    | some _ => c.streams
    | none => c.streams ++ [(k, List.replicate c.rows false)]
  { streams :=
      streams.map (fun e => (e.1, append_bits (append_bits e.2 n (decide (e.1 = k))) skip false)),
    rows := c.rows + n + skip }

/-- Modelled from the spec: `decode(equal, k)` of the equality coder, "that
key's stream if present, else an all-zero stream of current size". -/
def decode_equal (c : equality_coder) (k : Nat) : bitstream :=
  match find k c.streams with
  | some s => s
  | none => List.replicate c.rows false

/-- Modelled from the spec: `decode` of the equality coder; `not_equal` is the
"bitwise NOT of the equal-result", ordering operators are not supported. -/
def decode (c : equality_coder) (op : relational_operator) (k : Nat) :
    Except coder_error bitstream :=
  match op with
  | relational_operator.equal => Except.ok (decode_equal c k)
  | relational_operator.not_equal => Except.ok (bitwise_not (decode_equal c k))
  | _ => Except.error coder_error.unsupported_operator

/-- Modelled from the spec: `size()` of a coder, its row count. -/
def size (c : equality_coder) : Nat :=
  c.rows

/-- The equality coder as a `Coder` policy. -/
def policy : coder_policy equality_coder where
  encode := encode
  decode := decode
  size := size

end equality_coder

/-! ## Range coder -/

/-- Modelled from the spec: the range (cumulative) coder of `vast/coder.hpp`,
which is not part of the sources.  It owns one stream per distinct key
observed, kept sorted by key ("threshold"), and a running row count. -/
structure range_coder where
  streams : List (Nat × bitstream)
  rows : Nat
  deriving DecidableEq, Repr

namespace range_coder

/-- Modelled from the spec: a default-constructed range coder ("created
empty"). -/
def init : range_coder :=
  { streams := [], rows := 0 }

/-- Modelled from the spec: "inserting a new threshold stream at the correct
sorted position if `k` is not yet a threshold (new stream initialized by
copying the bits of the next-larger existing threshold stream, or all-ones if
`k` is the new maximum ...)".  The list is scanned in ascending order of
threshold; `rows` is the current row count. -/
def insert_threshold (rows k : Nat) : List (Nat × bitstream) → List (Nat × bitstream)
  | [] => [(k, List.replicate rows true)]
  | e :: rest =>
    if k = e.1 then e :: rest
    else if k < e.1 then (k, e.2) :: e :: rest
    else e :: insert_threshold rows k rest

/-- Modelled from the spec: `encode` of the range coder: "for a new row with key
`k`, set the bit in every existing cumulative stream whose threshold ≥ `k`",
after the threshold of `k` has been inserted if it was missing; every other
stream gets a 0 for the row, and the `skip` rows are 0 in every stream. -/
def encode (c : range_coder) (k n skip : Nat) : range_coder :=
  { streams :=
      (insert_threshold c.rows k c.streams).map
        (fun e => (e.1, append_bits (append_bits e.2 n (decide (k ≤ e.1))) skip false)),
    rows := c.rows + n + skip }

/-- Modelled from the spec: "the stream for the smallest threshold ≥ `k`", if
there is one; the list is sorted by threshold. -/
def find_ge (k : Nat) : List (Nat × bitstream) → Option bitstream
  | [] => none
  | e :: rest => if k ≤ e.1 then some e.2 else find_ge k rest

/-- Modelled from the spec: "`decode(le, k)`: the stream for the smallest
threshold ≥ `k` (or all-zero if `k` exceeds every threshold, all-ones if `k` ≥
the max)".  The two cases in parentheses both describe a `k` above the maximum;
the model takes all-ones there, which is the one under which every row whose
key is at most `k` is reported. -/
def decode_le (c : range_coder) (k : Nat) : bitstream :=
  match find_ge k c.streams with
  | some s => s
  | none => List.replicate c.rows true

/-- Modelled from the spec: "`decode(lt, k)` = `decode(le, k−1)` in key-space";
the key 0 has no predecessor and no key is below it. -/
def decode_lt (c : range_coder) (k : Nat) : bitstream :=
  if k = 0 then List.replicate c.rows false else decode_le c (k - 1)

/-- Modelled from the spec: `decode(equal, k)` "derived as `decode(le,k)` AND-NOT
`decode(le,k−1)`". -/
def decode_equal (c : range_coder) (k : Nat) : bitstream :=
  bitwise_subtract (decode_le c k) (decode_lt c k)

/-- Modelled from the spec: `decode` of the range coder; "`ge`/`gt`/`equal`/
`not_equal` derive by complement/combination of the above". -/
def decode (c : range_coder) (op : relational_operator) (k : Nat) :
    Except coder_error bitstream :=
  match op with
  | relational_operator.equal => Except.ok (decode_equal c k)
  | relational_operator.not_equal => Except.ok (bitwise_not (decode_equal c k))
  | relational_operator.less => Except.ok (decode_lt c k)
  | relational_operator.less_equal => Except.ok (decode_le c k)
  | relational_operator.greater => Except.ok (bitwise_not (decode_le c k))
  | relational_operator.greater_equal => Except.ok (bitwise_not (decode_lt c k))

/-- Modelled from the spec: `size()` of a coder, its row count. -/
def size (c : range_coder) : Nat :=
  c.rows

/-- The range coder as a `Coder` policy. -/
def policy : coder_policy range_coder where
  encode := encode
  decode := decode
  size := size

end range_coder

/-! ## Multi-level coder -/

/-- Modelled from the spec: the multi-level (bit-sliced) coder of
`vast/coder.hpp`, which is not part of the sources.  It is parameterized by a
base (the radices, most significant first) and holds one base coder per digit
position, together with the row count. -/
structure multi_level_coder (C : Type) where
  base : List Nat
  coders : List C
  rows : Nat

namespace multi_level_coder

variable {C : Type}

/-- Modelled from the spec: a multi-level coder constructed from a base, with an
empty base coder "instantiated independently per digit position". -/
def init (c0 : C) (base : List Nat) : multi_level_coder C :=
  { base := base, coders := base.map (fun _ => c0), rows := 0 }

/-- Modelled from the spec: the "mixed-radix decomposition of the bin key into
digits `d_0 … d_{L-1}` (most significant first)"; the digit of the last radix
is the remainder of the key, the next one the remainder of the quotient. -/
def decompose (base : List Nat) (k : Nat) : List Nat :=
  (base.foldr (fun b acc => ((acc.2 % b) :: acc.1, acc.2 / b)) (([] : List Nat), k)).1

/-- Modelled from the spec: `encode(k, n, skip)` "decomposes `k` into its digits
and calls `encode` on each level's coder with the corresponding digit". -/
def encode (ops : coder_policy C) (c : multi_level_coder C) (k n skip : Nat) :
    multi_level_coder C :=
  { base := c.base,
    coders := List.zipWith (fun l d => ops.encode l d n skip) c.coders (decompose c.base k),
    rows := c.rows + n + skip }

/-- Modelled from the spec: the loop of the multi-level decode over the digit
levels, most significant first: the level's strict result is ANDed "with the
running equal-so-far" and ORed into the result, then equal-so-far is narrowed
"by ANDing with `level_coder.decode(equal, d_i)`".  Without a strict operator
(`equal`, `not_equal`) the accumulation is skipped.  Returns the final
equal-so-far and the result. -/
def decode_levels (ops : coder_policy C) (strict : Option relational_operator) :
    List C → List Nat → bitstream → bitstream → Except coder_error (bitstream × bitstream)
  | l :: ls, d :: ds, eq, res => do
    let res1 ←
      match strict with
      | some sop => do
        let level_decode ← ops.decode l sop d
        pure (bitwise_or res (bitwise_and level_decode eq))
      | none => pure res
    let level_equal ← ops.decode l relational_operator.equal d
    decode_levels ops strict ls ds (bitwise_and eq level_equal) res1
  | _, _, eq, res => pure (eq, res)

/-- Modelled from the spec: `op_restricted_to_strict(op)`, "the strict-less or
strict-greater partial result appropriate to `op`'s direction". -/
def strict_of : relational_operator → Option relational_operator
  | relational_operator.less => some relational_operator.less
  | relational_operator.less_equal => some relational_operator.less
  | relational_operator.greater => some relational_operator.greater
  | relational_operator.greater_equal => some relational_operator.greater
  | _ => none

/-- Modelled from the spec: whether "`op` includes equality". -/
def includes_equality : relational_operator → Bool
  | relational_operator.less_equal => true
  | relational_operator.greater_equal => true
  | _ => false

/-- Modelled from the spec: `decode(op, k)` of the multi-level coder, the
bit-sliced range decoding: equal-so-far starts all-ones of the current size,
the result all-zero; after the last level the final equal-so-far is ORed in "if
`op` includes equality"; `equal` returns the final equal-so-far, `not_equal`
its complement. -/
def decode (ops : coder_policy C) (c : multi_level_coder C) (op : relational_operator)
    (k : Nat) : Except coder_error bitstream := do
  let r ← decode_levels ops (strict_of op) c.coders (decompose c.base k)
    (List.replicate c.rows true) (List.replicate c.rows false)
  match op with
  | relational_operator.equal => pure r.1
  | relational_operator.not_equal => pure (bitwise_not r.1)
  | _ => if includes_equality op then pure (bitwise_or r.2 r.1) else pure r.2

/-- Modelled from the spec: `size()` of a coder, its row count. -/
def size (c : multi_level_coder C) : Nat :=
  c.rows

/-- The multi-level coder over a base coder as a `Coder` policy. -/
def policy (ops : coder_policy C) : coder_policy (multi_level_coder C) where
  encode := encode ops
  decode := decode ops
  size := size

end multi_level_coder

/-! ## Binners and the order transform -/

/-- Modelled from the spec: `detail::order` of `vast/detail/order.hpp` (not part
of the sources) on the bit pattern of a `w`-bit IEEE-754 value: "flip the sign
bit, and if the original sign bit was set (negative value), complement all
remaining bits". -/
def order_float (w : Nat) (bits : Nat) : Nat :=
  if bits < 2 ^ (w - 1) then bits + 2 ^ (w - 1) else 2 ^ w - 1 - bits

/-- Modelled from the spec: `detail::order` on an unsigned integer, the
identity. -/
def order_unsigned (x : Nat) : Nat :=
  x

/-- Modelled from the spec: the identity binner of `vast/binner.hpp` (not part of
the sources) on unsigned keys: `bin(x) = x`, ordered by the identity. -/
def identity_binner : binner_policy Nat Nat where
  kind := binner_kind.identity_binner
  digits2 := 0
  bin := fun x => x
  floating := false
  order := order_unsigned
  width := 64
  defined := fun _ h => Bool.noConfusion h

/-- Modelled from the spec: the precision binner of `vast/binner.hpp` (not part
of the sources) on 64-bit floating-point values given by their bit patterns,
for a number `digits2 ≤ 52` of significant bits.  The spec describes its key as
the order transform followed by the right shift, which is what
`bitmap_index::transform` applies, so `bin` hands the value on. -/
def precision_binner (digits2 : Nat) (h : digits2 ≤ 52) : binner_policy Nat Nat where
  kind := binner_kind.precision_binner
  digits2 := digits2
  bin := fun x => x
  floating := true
  order := order_float 64
  width := 64
  defined := fun _ _ => ⟨h, Nat.lt_of_le_of_lt (Nat.sub_le 52 digits2) (by decide)⟩

/-! ## Sequences of calls on an index -/

/-- One mutating call on a `bitmap_index`. -/
inductive index_call (T : Type)
  | append (x : T) (n skip : Nat)
  | push_back (x : T) (skip : Nat)

namespace index_call

variable {T U C : Type}

/-- The index after one call. -/
def apply (p : index_policy T U C) (idx : bitmap_index C) : index_call T → bitmap_index C
  | append x n skip => bitmap_index.append p idx x n skip
  | push_back x skip => bitmap_index.push_back p idx x skip

/-- The index after a sequence of calls, first call first. -/
def run (p : index_policy T U C) (idx : bitmap_index C) (calls : List (index_call T)) :
    bitmap_index C :=
  calls.foldl (apply p) idx

/-- The number of rows one call adds: `n + skip`. -/
def added : index_call T → Nat
  | append _ n skip => n + skip
  | push_back _ skip => 1 + skip

/-- The rows one call adds: `n` rows holding the value, then `skip` rows holding
none. -/
def new_rows : index_call T → List (Option T)
  | append x n skip => List.replicate n (some x) ++ List.replicate skip none
  | push_back x skip => [some x] ++ List.replicate skip none

/-- The rows a sequence of calls adds, in row order. -/
def rows (calls : List (index_call T)) : List (Option T) :=
  calls.flatMap new_rows

end index_call

/-- The index instantiation with the equality coder. -/
def equality_index {T U : Type} (b : binner_policy T U) : index_policy T U equality_coder where
  coder := equality_coder.policy
  binner := b

/-- The index instantiation with the range coder. -/
def range_index {T U : Type} (b : binner_policy T U) : index_policy T U range_coder where
  coder := range_coder.policy
  binner := b

/-- The default index instantiation, `multi_level_coder<range_coder<bitmap>>`. -/
def multi_level_index {T U : Type} (b : binner_policy T U) :
    index_policy T U (multi_level_coder range_coder) where
  coder := multi_level_coder.policy range_coder.policy
  binner := b

/-- The key sequence `ks` encoded one row at a time (`n = 1`, `skip = 0`). -/
def encode_keys {C : Type} (ops : coder_policy C) (c : C) (ks : List Nat) : C :=
  ks.foldl (fun s k => ops.encode s k 1 0) c

/-- The bin key of a value: the expression `transform(binner_type::bin(x))` that
`append` and `lookup` both hand to the coder. -/
def index_key {T U : Type} (b : binner_policy T U) (x : T) : Nat :=
  transform b (b.bin x)

/-! ## Stream sizes -/

/-- Every stream of an equality coder has the coder's row count as its size. -/
def equality_coder.sized (c : equality_coder) : Prop :=
  ∀ e ∈ c.streams, e.2.length = c.rows

/-- Every stream of a range coder has the coder's row count as its size. -/
def range_coder.sized (c : range_coder) : Prop :=
  ∀ e ∈ c.streams, e.2.length = c.rows

/-- Every level coder of a multi-level coder over range coders has the row count
of the multi-level coder, and so has every stream of every level. -/
def multi_level_coder.sized (c : multi_level_coder range_coder) : Prop :=
  ∀ l ∈ c.coders, l.rows = c.rows ∧ ∀ e ∈ l.streams, e.2.length = c.rows

/-! ## Configuration check of `bitmap_index` -/

/-- The condition of the `static_assert` at the head of `bitmap_index`,
`!std::is_same<T, bool>{} || is_singleton_coder<Coder>{}`, as a function of the
two traits it reads: whether the value type `T` is `bool`, and whether `Coder` is
a singleton coder.  An instantiation of `bitmap_index<T, Coder, Binner>` is
accepted by the compiler exactly when the condition is true; otherwise it is
rejected with "boolean bitmap index requires singleton coder". -/
def static_assert_condition (is_same_T_bool is_singleton_coder : Bool) : Bool :=
  !is_same_T_bool || is_singleton_coder

/-! ## Polymorphic bitstream (`bitstream_polymorphic.hpp`) -/

/-- A fatal termination through `die(msg)`: the call does not return. -/
inductive fatal
  | die (msg : String)
  deriving DecidableEq, Repr

/-- The interface of a concrete bitstream class that `bitstream_model<Bitstream>`
forwards to ("Interface as required by bitstream_base<T>"), as far as the
operations taking or returning streams go.  Mutating members return the new
stream. -/
structure bitstream_base (B : Type) where
  equals : B → B → Bool
  bitwise_not : B → B
  bitwise_and : B → B → B
  bitwise_or : B → B → B
  bitwise_xor : B → B → B
  bitwise_subtract : B → B → B
  append_impl : B → B → B

/-- An object seen through `bitstream_concept&`: its dynamic type is
`bitstream_model<Rep tag>`, and `bitstream_` is the member of that model. -/
structure bitstream_concept (Tag : Type) (Rep : Tag → Type) where
  tag : Tag
  bitstream_ : Rep tag

namespace bitstream_model

variable {Tag : Type} [DecidableEq Tag] {Rep : Tag → Type}

/-- The member `cast` of `bitstream_model<Rep t>`: the `dynamic_cast` to the
model's own type succeeds when the dynamic type of `c` is that model, and gives
its `bitstream_`; otherwise `die("bad bitstream cast")`. -/
def cast (t : Tag) (c : bitstream_concept Tag Rep) : Except fatal (Rep t) :=
  if h : c.tag = t then Except.ok (h ▸ c.bitstream_)
  else Except.error (fatal.die "bad bitstream cast")

/-- The member `equals`: `bitstream_.equals(cast(other))`. -/
def equals (ops : ∀ t, bitstream_base (Rep t)) (self other : bitstream_concept Tag Rep) :
    Except fatal Bool := do
  let o ← cast self.tag other
  pure ((ops self.tag).equals self.bitstream_ o)

/-- The member `bitwise_not`: `bitstream_.bitwise_not()`. -/
def bitwise_not (ops : ∀ t, bitstream_base (Rep t)) (self : bitstream_concept Tag Rep) :
    bitstream_concept Tag Rep :=
  { tag := self.tag, bitstream_ := (ops self.tag).bitwise_not self.bitstream_ }

/-- The member `bitwise_and`: `bitstream_.bitwise_and(cast(other))`. -/
def bitwise_and (ops : ∀ t, bitstream_base (Rep t)) (self other : bitstream_concept Tag Rep) :
    Except fatal (bitstream_concept Tag Rep) := do
  let o ← cast self.tag other
  pure { tag := self.tag, bitstream_ := (ops self.tag).bitwise_and self.bitstream_ o }

/-- The member `bitwise_or`: `bitstream_.bitwise_or(cast(other))`. -/
def bitwise_or (ops : ∀ t, bitstream_base (Rep t)) (self other : bitstream_concept Tag Rep) :
    Except fatal (bitstream_concept Tag Rep) := do
  let o ← cast self.tag other
  pure { tag := self.tag, bitstream_ := (ops self.tag).bitwise_or self.bitstream_ o }

/-- The member `bitwise_xor`: `bitstream_.bitwise_xor(cast(other))`. -/
def bitwise_xor (ops : ∀ t, bitstream_base (Rep t)) (self other : bitstream_concept Tag Rep) :
    Except fatal (bitstream_concept Tag Rep) := do
  let o ← cast self.tag other
  pure { tag := self.tag, bitstream_ := (ops self.tag).bitwise_xor self.bitstream_ o }

/-- The member `bitwise_subtract`: `bitstream_.bitwise_subtract(cast(other))`. -/
def bitwise_subtract (ops : ∀ t, bitstream_base (Rep t))
    (self other : bitstream_concept Tag Rep) : Except fatal (bitstream_concept Tag Rep) := do
  let o ← cast self.tag other
  pure { tag := self.tag, bitstream_ := (ops self.tag).bitwise_subtract self.bitstream_ o }

/-- The member `append_impl(const bitstream_concept& other)`:
`bitstream_.append_impl(cast(other))`. -/
def append_impl (ops : ∀ t, bitstream_base (Rep t)) (self other : bitstream_concept Tag Rep) :
    Except fatal (bitstream_concept Tag Rep) := do
  let o ← cast self.tag other
  pure { tag := self.tag, bitstream_ := (ops self.tag).append_impl self.bitstream_ o }

end bitstream_model

/-- The interface of a concrete iterator that `iterator_model<Iterator>` forwards
to: `operator==`, `operator++` and `operator*` (a row position). -/
structure iterator_base (I : Type) where
  eq : I → I → Bool
  increment : I → I
  dereference : I → Nat

/-- An object seen through `iterator_concept&`: its dynamic type is
`iterator_model<It tag>`, and `iterator_` is the member of that model. -/
structure iterator_concept (Tag : Type) (It : Tag → Type) where
  tag : Tag
  iterator_ : It tag

namespace iterator_model

variable {Tag : Type} [DecidableEq Tag] {It : Tag → Type}

/-- The member `copy`: `std::make_unique<iterator_model>(*this)`, a new model
holding a copy of `iterator_`. -/
def copy (self : iterator_concept Tag It) : iterator_concept Tag It :=
  { tag := self.tag, iterator_ := self.iterator_ }

/-- The member `equals`: the `dynamic_cast` of `other` to the model's own type,
`die("bad iterator cast")` when it fails, else `iterator_ == x->iterator_`. -/
def equals (ops : ∀ t, iterator_base (It t)) (self other : iterator_concept Tag It) :
    Except fatal Bool :=
  if h : other.tag = self.tag then
    Except.ok ((ops self.tag).eq self.iterator_ (h ▸ other.iterator_))
  else Except.error (fatal.die "bad iterator cast")

/-- The member `increment`: `++iterator_`. -/
def increment (ops : ∀ t, iterator_base (It t)) (self : iterator_concept Tag It) :
    iterator_concept Tag It :=
  { tag := self.tag, iterator_ := (ops self.tag).increment self.iterator_ }

/-- The member `dereference`: `*iterator_`. -/
def dereference (ops : ∀ t, iterator_base (It t)) (self : iterator_concept Tag It) : Nat :=
  (ops self.tag).dereference self.iterator_

end iterator_model

/-- The two concrete representations the spec names for a BitStream: the
uncompressed, bitvector-backed one and the run-length compressed one. -/
inductive representation
  | uncompressed
  | compressed
  deriving DecidableEq, Repr

/-- A concrete bitstream class over lists of bits, used to instantiate the
polymorphic model: the operations of the bit-sequence model above. -/
def list_bitstream : bitstream_base bitstream where
  equals := fun a b => decide (a = b)
  bitwise_not := vast.bitwise_not
  bitwise_and := vast.bitwise_and
  bitwise_or := vast.bitwise_or
  bitwise_xor := fun a b => List.zipWith xor a b
  bitwise_subtract := vast.bitwise_subtract
  append_impl := fun a b => a ++ b

/-- A concrete set-bit iterator: a position in a list of row positions. -/
def position_iterator : iterator_base Nat where
  eq := fun i j => decide (i = j)
  increment := fun i => i + 1
  dereference := fun i => i

/-! ## Order transform on integers and floating-point patterns -/

/-- Modelled from the spec: `detail::order` of `vast/detail/order.hpp` (not part
of the sources) on the `w`-bit two's-complement pattern of a signed integer:
"flip the sign bit". -/
def order_signed (w : Nat) (bits : Nat) : Nat :=
  bits ^^^ 2 ^ (w - 1)

/-- The signed integer a `w`-bit two's-complement pattern stands for. -/
def signed_value (w : Nat) (bits : Nat) : Int :=
  if bits < 2 ^ (w - 1) then (bits : Int) else (bits : Int) - 2 ^ w

/-- The sign bit of a `w`-bit pattern. -/
def sign_bit (w : Nat) (bits : Nat) : Bool :=
  decide (2 ^ (w - 1) ≤ bits)

/-- The pattern of a `w`-bit value without its sign bit: exponent and mantissa,
the magnitude of an IEEE-754 value. -/
def magnitude (w : Nat) (bits : Nat) : Nat :=
  bits % 2 ^ (w - 1)

/-- The number of explicit mantissa bits of the IEEE-754 type of width `w`: 23
for the 32-bit type, 52 for the 64-bit type. -/
def mantissa_bits (w : Nat) : Nat :=
  if w = 32 then 23 else 52

/-- Whether a `w`-bit IEEE-754 pattern is a NaN: its exponent bits are all set
and its mantissa is not zero, that is, its magnitude is above that of
infinity. -/
def is_nan (w : Nat) (bits : Nat) : Bool :=
  decide (2 ^ (w - 1) - 2 ^ mantissa_bits w < magnitude w bits)

/-- The order of the values of two `w`-bit IEEE-754 patterns, neither a NaN:
sign-magnitude order, with `-0` before `+0`. -/
def float_lt (w : Nat) (a b : Nat) : Prop :=
  is_nan w a = false ∧ is_nan w b = false ∧
    (if sign_bit w a then
      (if sign_bit w b then magnitude w b < magnitude w a else True)
    else
      (if sign_bit w b then False else magnitude w a < magnitude w b))

instance float_lt_decidable (w a b : Nat) : Decidable (float_lt w a b) := by
  unfold float_lt
  exact inferInstance

/-- Modelled from the spec: the precision binner of `vast/binner.hpp` (not part
of the sources) on `w`-bit floating-point values given by their bit patterns,
for a number `digits2` of significant bits with which the shift of `transform`
is defined; `precision_binner` is the case `w = 64`. -/
def precision_binner_float (w digits2 : Nat) (h : shift_defined w digits2) :
    binner_policy Nat Nat where
  kind := binner_kind.precision_binner
  digits2 := digits2
  bin := fun x => x
  floating := true
  order := order_float w
  width := w
  defined := fun _ _ => h

/-! ## Well-formed coder states -/

/-- Modelled from the spec: the block width of the BitVector, "native machine
word, e.g. 64" (`bitvector::block_width`; `vast/bitvector.h` is not part of the
sources). -/
def block_width : Nat := 64

/-- Modelled from the spec: the BitVector of `vast/bitvector.h` (not part of the
sources), "an ordered sequence of bits stored in fixed-width blocks" with its
"total valid-bit count".  A block is a number below `2 ^ block_width`; bit `i`
of the vector is bit `i % block_width` of block `i / block_width`. -/
structure bitvector where
  bits_ : List Nat
  num_bits_ : Nat
  deriving DecidableEq, Repr

namespace bitvector

/-- Modelled from the spec: `size()`, the number of valid bits. -/
def size (v : bitvector) : Nat :=
  v.num_bits_

/-- Modelled from the spec: `blocks()`, the number of allocated blocks. -/
def blocks (v : bitvector) : Nat :=
  v.bits_.length

/-- Modelled from the spec: indexed bit access, `v[i]`. -/
def get (v : bitvector) (i : Nat) : Bool :=
  (v.bits_.getD (i / block_width) 0).testBit (i % block_width)

/-- Modelled from the spec: the complement of one block, `~x` on the block
type. -/
def block_not (x : Nat) : Nat :=
  2 ^ block_width - 1 - x

/-- The list of blocks with `f` applied to its last block. -/
def map_last (f : Nat → Nat) : List Nat → List Nat
  | [] => []
  | [x] => [f x]
  | x :: y :: rest => x :: map_last f (y :: rest)

/-- Modelled from the spec: the trimming step that keeps "bits beyond `size`
within the last block" zero: when the size is not a multiple of the block
width, the last block keeps only its low `size % block_width` bits. -/
def zero_unused_bits (v : bitvector) : bitvector :=
  if v.num_bits_ % block_width = 0 then v
  else
    { bits_ := map_last (fun x => x % 2 ^ (v.num_bits_ % block_width)) v.bits_,
      num_bits_ := v.num_bits_ }

/-- Modelled from the spec: bitwise NOT (`~v`, `flip()`): every block is
complemented, then the unused bits are zeroed. -/
def flip (v : bitvector) : bitvector :=
  zero_unused_bits { bits_ := v.bits_.map block_not, num_bits_ := v.num_bits_ }

/-- Modelled from the spec: bitwise AND of two vectors of equal size, block by
block. -/
def bitwise_and (a b : bitvector) : bitvector :=
  { bits_ := List.zipWith (fun x y => x &&& y) a.bits_ b.bits_, num_bits_ := a.num_bits_ }

/-- Modelled from the spec: bitwise OR of two vectors of equal size, block by
block. -/
def bitwise_or (a b : bitvector) : bitvector :=
  { bits_ := List.zipWith (fun x y => x ||| y) a.bits_ b.bits_, num_bits_ := a.num_bits_ }

/-- Modelled from the spec: bitwise XOR of two vectors of equal size, block by
block. -/
def bitwise_xor (a b : bitvector) : bitvector :=
  { bits_ := List.zipWith (fun x y => x ^^^ y) a.bits_ b.bits_, num_bits_ := a.num_bits_ }

/-- Modelled from the spec: bitwise SUBTRACT (AND-NOT) of two vectors of equal
size, block by block. -/
def bitwise_subtract (a b : bitvector) : bitvector :=
  { bits_ := List.zipWith (fun x y => x &&& block_not y) a.bits_ b.bits_,
    num_bits_ := a.num_bits_ }

/-- Modelled from the spec: the invariant of the BitVector: as many blocks as
the size needs, every block within the block width, and "bits beyond `size`
within the last block are always zero ('trimmed')". -/
def trimmed (v : bitvector) : Prop :=
  v.bits_.length = (v.num_bits_ + block_width - 1) / block_width
    ∧ (∀ x ∈ v.bits_, x < 2 ^ block_width)
    ∧ (v.num_bits_ % block_width ≠ 0 →
        ∀ x, v.bits_.getLast? = some x → x < 2 ^ (v.num_bits_ % block_width))

end bitvector

/-! ## Range map (`vast/util/range_map.h`) -/

/-- The class `range_map<Point, Value>`.  Its only member `map_` is a
`std::map<Point, std::pair<Point, Value>>` from the left endpoint of an interval
to its right endpoint and value; it is kept here as the list of its entries
`(left, right, value)` in iteration order, that is by ascending key.  Points are
integers; iterators are positions in the list, `end()` is its length. -/
structure range_map (V : Type) where
  map_ : List (Int × Int × V)

namespace range_map

variable {V : Type}

/-- The call `map_.lower_bound(p)`: the position of the first entry whose key is
not less than `p`, `end()` if there is none.  The keys of a `std::map` are in
ascending order, so this is the number of leading entries with a key below
`p`. -/
def lower_bound (p : Int) : List (Int × Int × V) → Nat
  | [] => 0
  | e :: rest => if e.1 < p then lower_bound p rest + 1 else 0

/-- The private member `find(p, lb)`:
`if ((lb != end && lb->first == p) || (lb != begin && p < (--lb)->second.first))
return lb; return end;`.  The first test leaves `lb` as it is, the second one
looks at the entry before `lb` and returns that one. -/
def find_iterator (m : range_map V) (p : Int) (lb : Nat) : Nat :=
  if (match m.map_[lb]? with
      | some e => decide (e.1 = p)
      | none => false) then lb
  else if (lb != 0 &&
      match m.map_[lb - 1]? with
      | some e => decide (p < e.2.1)
      | none => false) then lb - 1
  else m.map_.length

/-- The call `map_.emplace(k, val)`: the entry is inserted at its place in key
order unless the key is present; the flag is the `.second` of the result. -/
def emplace (k : Int) (val : Int × V) : List (Int × Int × V) → Bool × List (Int × Int × V)
  | [] => (true, [(k, val)])
  | e :: rest =>
    if k < e.1 then (true, (k, val) :: e :: rest)
    else if k = e.1 then (false, e :: rest)
    else ((emplace k val rest).1, e :: (emplace k val rest).2)

/-- The member `insert(l, r, v)`; the result is the returned flag and the map
afterwards.  The `assert(l < r)` is a precondition of the call. -/
def insert (m : range_map V) (l r : Int) (v : V) : Bool × range_map V :=
  let lb := lower_bound l m.map_
  if find_iterator m l lb ≠ m.map_.length then (false, m)
  else if (match m.map_[lb]? with
      | none => true
      | some e => decide (r ≤ e.1)) then
    ((emplace l (r, v) m.map_).1, { map_ := (emplace l (r, v) m.map_).2 })
  else (false, m)

/-- The member `erase(p)`; the result is the returned flag and the map
afterwards. -/
def erase (m : range_map V) (p : Int) : Bool × range_map V :=
  let i := find_iterator m p (lower_bound p m.map_)
  if i = m.map_.length then (false, m)
  else (true, { map_ := m.map_.eraseIdx i })

/-- The member `lookup(p)`; `none` stands for `nullptr`, `some v` for a pointer
to the value `v` of an entry. -/
def lookup (m : range_map V) (p : Int) : Option V :=
  let i := find_iterator m p (lower_bound p m.map_)
  if i ≠ m.map_.length then (m.map_[i]?).map (fun e => e.2.2) else none

/-- The public member `find(p)`: the value pointer and the interval, or
`{nullptr, 0, 0}`. -/
def find (m : range_map V) (p : Int) : Option V × Int × Int :=
  let i := find_iterator m p (lower_bound p m.map_)
  if i = m.map_.length then (none, 0, 0)
  else
    match m.map_[i]? with
    | some e => (some e.2.2, e.1, e.2.1)
    | none => (none, 0, 0)

/-- The member `size()`. -/
def size (m : range_map V) : Nat :=
  m.map_.length

/-- The member `empty()`. -/
def empty (m : range_map V) : Bool :=
  m.map_.isEmpty

/-- A default-constructed range map. -/
def init : range_map V :=
  { map_ := [] }

/-- The keys of the entries are in strictly ascending order, as in every
`std::map`. -/
def ordered (m : range_map V) : Prop :=
  m.map_.Pairwise (fun x y => x.1 < y.1)

/-- Every stored interval `[a, b)` is non-empty: `a < b`. -/
def proper (m : range_map V) : Prop :=
  ∀ e ∈ m.map_, e.1 < e.2.1

/-- The stored half-open intervals are pairwise disjoint. -/
def disjoint (m : range_map V) : Prop :=
  ∀ x ∈ m.map_, ∀ y ∈ m.map_, x ≠ y → x.2.1 ≤ y.1 ∨ y.2.1 ≤ x.1

/-- A range map as the class keeps it: keys ascending, intervals non-empty and
pairwise disjoint. -/
def well_formed (m : range_map V) : Prop :=
  m.ordered ∧ m.proper ∧ m.disjoint

/-- The point `p` lies in the half-open interval of the entry `e`. -/
def covers (e : Int × Int × V) (p : Int) : Prop :=
  e.1 ≤ p ∧ p < e.2.1

/-- The half-open interval `[l, r)` and the interval of the entry `e` have a
point in common. -/
def intersects (l r : Int) (e : Int × Int × V) : Prop :=
  ∃ q : Int, (l ≤ q ∧ q < r) ∧ covers e q

/-- One mutating call on a range map. -/
inductive call (V : Type)
  | insert (l r : Int) (v : V)
  | erase (p : Int)

/-- The state of a run: the map, the number of `insert` calls that returned
`true` and the number of `erase` calls that returned `true`. -/
structure run_state (V : Type) where
  map : range_map V
  inserted : Nat
  erased : Nat

/-- One call applied to the state of a run. -/
def step (s : run_state V) : call V → run_state V
  | call.insert l r v =>
    { map := (insert s.map l r v).2,
      inserted := s.inserted + (if (insert s.map l r v).1 then 1 else 0),
      erased := s.erased }
  | call.erase p =>
    { map := (erase s.map p).2,
      inserted := s.inserted,
      erased := s.erased + (if (erase s.map p).1 then 1 else 0) }

/-- A sequence of calls on a default-constructed range map, first call first. -/
def run (calls : List (call V)) : run_state V :=
  calls.foldl step { map := init, inserted := 0, erased := 0 }

end range_map

/-- The precondition of a call: `insert` asserts `l < r`. -/
def range_map.call.valid {V : Type} : range_map.call V → Prop
  | range_map.call.insert l r _ => l < r
  | range_map.call.erase _ => True

/-! ## Bit vector: appending, single bits, shifts, counting and searching -/

namespace bitvector

/-- Modelled from the spec: the "not found" sentinel `npos` of the search
operations, the largest value of the size type ("one past the maximum
representable index"). -/
def npos : Nat :=
  2 ^ block_width - 1

/-- Modelled from the spec: the empty BitVector, of size zero and without
blocks. -/
def init : bitvector :=
  { bits_ := [], num_bits_ := 0 }

/-- Modelled from the spec: `append(block, nbits)`, "append the low `nbits` of an
integer block".  With `excess` the number of bits used in the last block: when
the last block is full (or there is none) the low bits become a new block;
otherwise they are shifted into the free part of the last block, and the bits
that do not fit there become a new block. -/
def append (v : bitvector) (block nbits : Nat) : bitvector :=
  let low := block % 2 ^ nbits
  let excess := v.num_bits_ % block_width
  if excess = 0 then
    { bits_ := v.bits_ ++ [low], num_bits_ := v.num_bits_ + nbits }
  else
    { bits_ := map_last (fun x => x ||| (low <<< excess) % 2 ^ block_width) v.bits_
        ++ (if block_width - excess < nbits then [low >>> (block_width - excess)] else []),
      num_bits_ := v.num_bits_ + nbits }

/-- Modelled from the spec: `push_back(bit)`, one more bit at the end. -/
def push_back (v : bitvector) (bit : Bool) : bitvector :=
  append v (if bit then 1 else 0) 1

/-- Modelled from the spec: `append(n, bit)`, "append `n` copies of one bit
value". -/
def append_n (v : bitvector) : Nat → Bool → bitvector
  | 0, _ => v
  | n + 1, bit => push_back (append_n v n bit) bit

/-- Modelled from the spec: `flip(i)`, the complement of the bit at position
`i`, in its block. -/
def flip_bit (v : bitvector) (i : Nat) : bitvector :=
  { bits_ := v.bits_.set (i / block_width)
      (v.bits_.getD (i / block_width) 0 ^^^ 2 ^ (i % block_width)),
    num_bits_ := v.num_bits_ }

/-- Modelled from the spec: indexed bit assignment, `v[i] = bit`, in the block of
position `i`. -/
def assign (v : bitvector) (i : Nat) (bit : Bool) : bitvector :=
  { bits_ := v.bits_.set (i / block_width)
      (if bit then v.bits_.getD (i / block_width) 0 ||| 2 ^ (i % block_width)
        else v.bits_.getD (i / block_width) 0 &&& block_not (2 ^ (i % block_width))),
    num_bits_ := v.num_bits_ }

/-- Modelled from the spec: shift-left, `v << n`, "producing a new vector of
equal size": the bit at position `i` moves to position `i + n`.  With
`div = n / block_width` and `r = n % block_width`, block `j` of the result is
zero for `j < div`, and is otherwise made of block `j - div` shifted up by `r`
and the top `r` bits of block `j - div - 1`; then the unused bits are zeroed. -/
def shift_left (v : bitvector) (n : Nat) : bitvector :=
  let div := n / block_width
  let r := n % block_width
  zero_unused_bits
    { bits_ := (List.range v.bits_.length).map (fun j =>
        if j < div then 0
        else if r = 0 then v.bits_.getD (j - div) 0
        else (v.bits_.getD (j - div) 0 <<< r) % 2 ^ block_width
          ||| (if j - div = 0 then 0 else v.bits_.getD (j - div - 1) 0 >>> (block_width - r))),
      num_bits_ := v.num_bits_ }

/-- Modelled from the spec: shift-right, `v >> n`, "producing a new vector of
equal size": the bit at position `i + n` moves to position `i`.  Block `j` of the
result is made of block `j + div` shifted down by `r` and the low `r` bits of
block `j + div + 1`; blocks past the end count as zero. -/
def shift_right (v : bitvector) (n : Nat) : bitvector :=
  let div := n / block_width
  let r := n % block_width
  { bits_ := (List.range v.bits_.length).map (fun j =>
      if r = 0 then v.bits_.getD (j + div) 0
      else v.bits_.getD (j + div) 0 >>> r
        ||| (v.bits_.getD (j + div + 1) 0 <<< (block_width - r)) % 2 ^ block_width),
    num_bits_ := v.num_bits_ }

/-- Modelled from the spec: the number of set bits among the low `w` bits of
`x`, counted bit by bit. -/
def popcount_bits : Nat → Nat → Nat
  | 0, _ => 0
  | w + 1, x => x % 2 + popcount_bits w (x / 2)

/-- Modelled from the spec: the population count of one block. -/
def popcount (x : Nat) : Nat :=
  popcount_bits block_width x

/-- Modelled from the spec: `count()`, "population count": the sum of the
population counts of the blocks. -/
def count (v : bitvector) : Nat :=
  (v.bits_.map popcount).sum

/-- Modelled from the spec: the forward search, the first position at or after
`i` holding a set bit among the next `fuel` positions, `npos` if there is
none. -/
def find_forward (v : bitvector) : Nat → Nat → Nat
  | 0, _ => npos
  | fuel + 1, i => if get v i then i else find_forward v fuel (i + 1)

/-- Modelled from the spec: the backward search, the last position before `i`
holding a set bit, `npos` if there is none. -/
def find_backward (v : bitvector) : Nat → Nat
  | 0 => npos
  | i + 1 => if get v i then i else find_backward v i

/-- Modelled from the spec: `find_first()`, the nearest set bit searching forward
from the start, `npos` when no bit is set. -/
def find_first (v : bitvector) : Nat :=
  find_forward v v.num_bits_ 0

/-- Modelled from the spec: `find_next(i)`, the nearest set bit searching forward
from position `i`, `npos` when there is none. -/
def find_next (v : bitvector) (i : Nat) : Nat :=
  find_forward v (v.num_bits_ - (i + 1)) (i + 1)

/-- Modelled from the spec: `find_last()`, the nearest set bit searching backward
from the end, `npos` when no bit is set. -/
def find_last (v : bitvector) : Nat :=
  find_backward v v.num_bits_

/-- Modelled from the spec: `find_prev(i)`, the nearest set bit searching
backward from position `i`, `npos` when there is none. -/
def find_prev (v : bitvector) (i : Nat) : Nat :=
  find_backward v i

/-- Modelled from the spec: the iterator over the set bits of a vector
(`const_ones_iterator`): the vector it reads and a position, `npos` at the
end. -/
structure ones_iterator where
  bits : bitvector
  position : Nat
  deriving DecidableEq, Repr

/-- Modelled from the spec: `const_ones_iterator::begin(v)`, at the first set
bit. -/
def ones_iterator.begin (v : bitvector) : ones_iterator :=
  { bits := v, position := find_first v }

/-- Modelled from the spec: `const_ones_iterator::end(v)`. -/
def ones_iterator.end_ (v : bitvector) : ones_iterator :=
  { bits := v, position := npos }

/-- Modelled from the spec: `++it` of the forward iterator, to the next set
bit. -/
def ones_iterator.increment (it : ones_iterator) : ones_iterator :=
  { bits := it.bits, position := find_next it.bits it.position }

/-- Modelled from the spec: the iteration "from `begin` to `end`", the loop
`for (; it != end; ++it) visit(it.position())` with the increment `next`, run for
at most `fuel` rounds: the positions visited and the iterator the loop stops
at. -/
def ones_iterator.visit (next : ones_iterator → ones_iterator) :
    Nat → ones_iterator → List Nat × ones_iterator
  | 0, it => ([], it)
  | fuel + 1, it =>
    if it.position = npos then ([], it)
    else (it.position :: (visit next fuel (next it)).1, (visit next fuel (next it)).2)

/-- Modelled from the spec: the set-bit iteration from `begin` to `end`; a vector
of size `n` has at most `n` set bits, so `n + 1` rounds reach the end. -/
def ones (v : bitvector) : List Nat × ones_iterator :=
  ones_iterator.visit ones_iterator.increment (v.num_bits_ + 1) (ones_iterator.begin v)

/-- One operation on a BitVector. -/
inductive call
  | push_back (bit : Bool)
  | append (block nbits : Nat)
  | append_n (n : Nat) (bit : Bool)
  | flip_bit (i : Nat)
  | assign (i : Nat) (bit : Bool)
  | flip
  | shift_left (n : Nat)
  | shift_right (n : Nat)
  deriving DecidableEq, Repr

/-- The precondition of an operation on the vector `v`: `append(block, nbits)`
takes between one and `block_width` bits, and a bit is addressed below the
size. -/
def call.valid (v : bitvector) : call → Bool
  | call.append _ nbits => decide (0 < nbits ∧ nbits ≤ block_width)
  | call.flip_bit i => decide (i < v.num_bits_)
  | call.assign i _ => decide (i < v.num_bits_)
  | _ => true

/-- The vector after one operation. -/
def apply (v : bitvector) : call → bitvector
  | call.push_back bit => push_back v bit
  | call.append block nbits => append v block nbits
  | call.append_n n bit => append_n v n bit
  | call.flip_bit i => flip_bit v i
  | call.assign i bit => assign v i bit
  | call.flip => flip v
  | call.shift_left n => shift_left v n
  | call.shift_right n => shift_right v n

/-- Every operation of the sequence meets its precondition on the vector it is
applied to. -/
def valid_run : bitvector → List call → Bool
  | _, [] => true
  | v, c :: rest => c.valid v && valid_run (apply v c) rest

/-- The vector after a sequence of operations on the empty vector. -/
def run (calls : List call) : bitvector :=
  calls.foldl apply init

end bitvector

/-- The part of the interface of a concrete bitstream class that
`bitstream_model<Bitstream>` forwards to for counting and searching. -/
structure bitstream_search (B : Type) where
  count_impl : B → Nat
  find_first_impl : B → Nat
  find_next_impl : B → Nat → Nat
  find_last_impl : B → Nat
  find_prev_impl : B → Nat → Nat

namespace bitstream_model

variable {Tag : Type} {Rep : Tag → Type}

/-- The member `count_impl`: `bitstream_.count_impl()`. -/
def count_impl (ops : ∀ t, bitstream_search (Rep t)) (self : bitstream_concept Tag Rep) : Nat :=
  (ops self.tag).count_impl self.bitstream_

/-- The member `find_first_impl`: `bitstream_.find_first_impl()`. -/
def find_first_impl (ops : ∀ t, bitstream_search (Rep t))
    (self : bitstream_concept Tag Rep) : Nat :=
  (ops self.tag).find_first_impl self.bitstream_

/-- The member `find_next_impl(i)`: `bitstream_.find_next_impl(i)`. -/
def find_next_impl (ops : ∀ t, bitstream_search (Rep t))
    (self : bitstream_concept Tag Rep) (i : Nat) : Nat :=
  (ops self.tag).find_next_impl self.bitstream_ i

/-- The member `find_last_impl`: `bitstream_.find_last_impl()`. -/
def find_last_impl (ops : ∀ t, bitstream_search (Rep t))
    (self : bitstream_concept Tag Rep) : Nat :=
  (ops self.tag).find_last_impl self.bitstream_

/-- The member `find_prev_impl(i)`: `bitstream_.find_prev_impl(i)`. -/
def find_prev_impl (ops : ∀ t, bitstream_search (Rep t))
    (self : bitstream_concept Tag Rep) (i : Nat) : Nat :=
  (ops self.tag).find_prev_impl self.bitstream_ i

end bitstream_model

/-- Modelled from the spec: the uncompressed bitstream, "BitVector-backed", whose
counting and searching are those of its BitVector. -/
def bitvector_search : bitstream_search bitvector :=
  { count_impl := bitvector.count,
    find_first_impl := bitvector.find_first,
    find_next_impl := bitvector.find_next,
    find_last_impl := bitvector.find_last,
    find_prev_impl := bitvector.find_prev }

/-- Whether the operation is one of `push_back(bit)`, `append(block, nbits)` and
`append(n, bit)`. -/
def bitvector.call.is_append : bitvector.call → Bool
  | bitvector.call.push_back _ => true
  | bitvector.call.append _ _ => true
  | bitvector.call.append_n _ _ => true
  | _ => false

/-- The number of bits the operation appends. -/
def bitvector.call.appended : bitvector.call → Nat
  | bitvector.call.push_back _ => 1
  | bitvector.call.append _ nbits => nbits
  | bitvector.call.append_n n _ => n
  | _ => 0

/-! ## Look-ahead parser (`vast/concept/parseable/core/and.hpp`) -/

/-- The attribute type `unused_type` of a parser whose caller wants no
attribute; `unused` is its value. -/
inductive unused_type
  | unused
  deriving DecidableEq, Repr

/-- What a call `parse(Iterator& f, const Iterator& l, Attribute& a)` leaves
behind: the `bool` it returns, and the iterator `f` and the attribute `a`, both
passed by reference, as they are after the call. -/
structure parse_result (Iterator Attribute : Type) where
  success : Bool
  f : Iterator
  a : Attribute

/-- The class template `and_parser<Parser>`.  Its member `parser_` is the wrapped
parser, which the class only calls as `parser_(i, l, unused)`. -/
structure and_parser_class (Iterator : Type) where
  parser_ : Iterator → Iterator → unused_type → parse_result Iterator unused_type

namespace and_parser_class

/-- The member `parse(Iterator& f, const Iterator& l, Attribute&)`:
`auto i = f; return parser_(i, l, unused);`.  The wrapped parser advances the
copy `i`; `f` and the attribute are not touched. -/
def parse {Iterator Attribute : Type} (self : and_parser_class Iterator) (f l : Iterator)
    (a : Attribute) : parse_result Iterator Attribute :=
  let i := f
  { success := (self.parser_ i l unused_type.unused).success, f := f, a := a }

/-- The unary `operator&(x)` of `operators.hpp` on a parser `x`:
`and_parser<T>{x}`. -/
def operator_and {Iterator : Type}
    (x : Iterator → Iterator → unused_type → parse_result Iterator unused_type) :
    and_parser_class Iterator :=
  { parser_ := x }

end and_parser_class

/-! ## Variant (`vast/variant.hpp`) -/

/-- The class template `variant<Ts...>`.  The alternative types `Ts...` are
given by their names, `Rep t` being the type named `t`; `index_` is the index of
the active alternative and `storage_` holds its value. -/
structure variant {Tag : Type} (Ts : List Tag) (Rep : Tag → Type) where
  index_ : Fin Ts.length
  storage_ : Rep (Ts.get index_)

/-- The exception class `bad_variant_access`. -/
inductive bad_variant_access
  | mk
  deriving DecidableEq, Repr

namespace variant

variable {Tag : Type} {Ts : List Tag} {Rep : Tag → Type}

/-- The member `index()`: "the index of the active variant type". -/
def index (v : variant Ts Rep) : Nat :=
  v.index_.val

/-- The member `apply(visitor)`, through `visit_impl` and `invoke`:
`callers[index_]` casts the storage to the alternative type at `index_` and
calls the visitor on that value. -/
def apply {R : Type} (v : variant Ts Rep) (visitor : ∀ t, Rep t → R) : R :=
  visitor (Ts.get v.index_) v.storage_

/-- The function `visit(visitor, v)` for one variant:
`detail::apply_visitor(visitor, expose(v))`, which is `expose(v).apply(visitor)`,
`expose` being the identity on a `variant`. -/
def visit {R : Type} (visitor : ∀ t, Rep t → R) (v : variant Ts Rep) : R :=
  v.apply visitor

/-- The visitor `getter<T>`: `operator()(T& val)` returns `&val`, and
`operator()(const U&)` for every other type `U` returns `nullptr`. -/
def getter [DecidableEq Tag] (T : Tag) : ∀ U, Rep U → Option (Rep T) :=
  fun U val => if h : U = T then some (h ▸ val) else none

/-- The function `get_if<T>(v)`: `visit(getter<T>{}, v)`. -/
def get_if [DecidableEq Tag] (T : Tag) (v : variant Ts Rep) : Option (Rep T) :=
  visit (getter T) v

/-- The function `get<T>(v)`:
`if (auto ptr = get_if<T>(v)) return *ptr; throw bad_variant_access{};`. -/
def get [DecidableEq Tag] (T : Tag) (v : variant Ts Rep) :
    Except bad_variant_access (Rep T) :=
  match get_if T v with
  | some ptr => Except.ok ptr
  | none => Except.error bad_variant_access.mk

/-- The function `is<T>(v)`: `return get_if<T>(v) != nullptr;`. -/
def is [DecidableEq Tag] (T : Tag) (v : variant Ts Rep) : Bool :=
  (get_if T v).isSome

/-- The expression `get_if<T>(v) == nullptr` that the comment on the variant
concept names as what `is<T>(v)` is a shortcut for. -/
def get_if_is_nullptr [DecidableEq Tag] (T : Tag) (v : variant Ts Rep) : Bool :=
  (get_if T v).isNone

/-- The friend `operator==(x, y)`: `x.index_ == y.index_ && y.apply(equals{x})`,
where the visitor `equals{x}` casts the storage of `x` to the type of the value
of `y` it is called on and compares the two with the `==` of that type, here
`eq`. -/
def operator_eq (eq : ∀ t, Rep t → Rep t → Bool) (x y : variant Ts Rep) : Bool :=
  if h : x.index_ = y.index_ then eq (Ts.get y.index_) (h ▸ x.storage_) y.storage_
  else false

/-- The friend `operator<(x, y)`: `y.apply(less_than{x})` when the indices are
equal, where `less_than{x}` compares the value of `x` with that of `y` by the `<`
of their type, here `lt`; otherwise `x.index_ < y.index_`. -/
def operator_lt (lt : ∀ t, Rep t → Rep t → Bool) (x y : variant Ts Rep) : Bool :=
  if h : x.index_ = y.index_ then lt (Ts.get y.index_) (h ▸ x.storage_) y.storage_
  else decide (x.index_ < y.index_)

end variant

/-- Exactly one of three truth values is true. -/
def exactly_one (p q r : Bool) : Bool :=
  (p && !q && !r) || (!p && q && !r) || (!p && !q && r)

/-- The operators `==` and `<` of a type form a strict total order: of `a < b`,
`a == b` and `b < a` exactly one holds, and `<` is transitive. -/
def strict_total_order {α : Type} (eq lt : α → α → Bool) : Prop :=
  (∀ a b, exactly_one (lt a b) (eq a b) (lt b a) = true)
    ∧ ∀ a b c, lt a b = true → lt b c = true → lt a c = true

/-! ## Command line (`src/command.cpp`) -/

/-- The test `s.compare(0, n, t) == 0` on `std::string`: the first `n`
characters of `s`, or all of `s` if it is shorter, are the characters of `t`. -/
def compare_eq (s : String) (n : Nat) (t : String) : Bool :=
  decide (s.toList.take n = t.toList)

/-- The string `s` begins with the string `t`. -/
def begins_with (s t : String) : Bool :=
  t.toList.isPrefixOf s.toList

/-- The value `proceed_result` returned by `command::proceed`. -/
inductive proceed_result
  | proceed_ok
  | stop_successful
  | stop_with_error
  deriving DecidableEq, Repr

/-- How a call of `command::run` ends: with `EXIT_SUCCESS` or `EXIT_FAILURE`,
with a failure of `VAST_ASSERT(subcmd_args.empty())`, with the call of
`run_impl` on a message, with the call of `run` of the nested command `subcmd`
on the subcommand arguments, or with "no such command". -/
inductive run_result
  | exit_success
  | exit_failure
  | assertion_failed
  | run_impl (args : List String)
  | nested_run (subcmd : String) (subcmd_args : List String)
  | no_such_command (subcmd : String)
  deriving DecidableEq, Repr

namespace command

/-- The loop of `command::separate_args` from position `pos`, for at most `fuel`
rounds (`none` when the rounds run out): a long option moves `pos` by one, a
short option by two, and any other argument ends the loop with
`(args.take(pos), arg(pos), args.drop(pos + 1))`; leaving the loop gives
`(args, "", none)`. -/
def separate_args_loop (args : List String) :
    Nat → Nat → Option (List String × String × List String)
  | 0, _ => none
  | fuel + 1, pos =>
    if pos < args.length then
      if compare_eq (args.getD pos "") 2 "--" then separate_args_loop args fuel (pos + 1)
      else if compare_eq (args.getD pos "") 1 "-" then separate_args_loop args fuel (pos + 2)
      else some (args.take pos, args.getD pos "", args.drop (pos + 1))
    else some (args, "", [])

/-- The function `command::separate_args(args)`, the message `args` being a list
of strings: the loop from position 0; every round moves `pos` forward, so
`args.size() + 1` rounds are enough. -/
def separate_args (args : List String) : Option (List String × String × List String) :=
  separate_args_loop args (args.length + 1) 0

/-- The scan in words: the position of "the first argument reached that does not
begin with `-`" when scanning from the left, "skipping one argument for each
argument beginning with `--` and two arguments for each other argument beginning
with `-`"; `none` when "the scan runs past the end". -/
def subcommand_position : List String → Option Nat
  | [] => none
  | [a] => if begins_with a "-" then none else some 0
  | a :: b :: rest =>
    if begins_with a "--" then (subcommand_position (b :: rest)).map (fun p => p + 1)
    else if begins_with a "-" then (subcommand_position rest).map (fun p => p + 2)
    else some 0

/-- The function `command::run(sys, options, args)` as far as its control flow
goes.  `help local_args` tells whether `local_args.extract_opts(opts_)` finds the
option `help`, `proceed local_args` is what the virtual member `proceed` returns
on what `extract_opts` leaves of the local arguments, and `nested_` lists the
names of the subcommands. -/
def run (help : List String → Bool) (proceed : List String → proceed_result)
    (nested_ : List String) (args : List String) : Option run_result :=
  match separate_args args with
  | none => none
  | some (local_args, subcmd, subcmd_args) =>
    if help local_args then some run_result.exit_success
    else
      match proceed local_args with
      | proceed_result.stop_successful => some run_result.exit_success
      | proceed_result.stop_with_error => some run_result.exit_failure
      | proceed_result.proceed_ok =>
        if subcmd.isEmpty then
          if subcmd_args.isEmpty then some (run_result.run_impl [])
          else some run_result.assertion_failed
        else if nested_.isEmpty then some (run_result.run_impl (subcmd :: subcmd_args))
        else if nested_.contains subcmd then some (run_result.nested_run subcmd subcmd_args)
        else some (run_result.no_such_command subcmd)

end command

/-! ## Key sequences and the state invariant of the range coder -/

/-- The number of exponent bits of the IEEE-754 type of width `w`: 8 for the
32-bit type, 11 for the 64-bit type. -/
def exponent_bits (w : Nat) : Nat :=
  w - 1 - mantissa_bits w

/-- The exponent bias of the IEEE-754 type of width `w`: 127 for the 32-bit
type, 1023 for the 64-bit type. -/
def exponent_bias (w : Nat) : Nat :=
  2 ^ (exponent_bits w - 1) - 1

/-- The binary logarithm of the unit in which `float_units` measures: the
smallest positive value of the type is `2^(-unit_shift)`. -/
def unit_shift (w : Nat) : Nat :=
  exponent_bias w + mantissa_bits w - 1

/-- The value of a finite magnitude (exponent field and mantissa) of the
IEEE-754 type of width `w`, as a multiple of the smallest positive value of the
type: the mantissa for a subnormal (exponent field 0), and otherwise the
mantissa with its implicit leading bit, doubled for every step of the exponent
field above 1. -/
def float_units (w mag : Nat) : Nat :=
  if mag / 2 ^ mantissa_bits w = 0 then mag % 2 ^ mantissa_bits w
  else (2 ^ mantissa_bits w + mag % 2 ^ mantissa_bits w) * 2 ^ (mag / 2 ^ mantissa_bits w - 1)

/-- Modelled from the spec: "scale `x` by `10^requested_decimal_digits`, round to
nearest integer", on the magnitude of a value: the integer nearest to the
magnitude times `10^digits10`, a half rounded away from zero. -/
def decimal_round (w digits10 mag : Nat) : Nat :=
  (2 * (float_units w mag * 10 ^ digits10) + 2 ^ unit_shift w) / 2 ^ (unit_shift w + 1)

/-- The domain of the decimal binner with `digits10` decimal digits: the `w`-bit
patterns that are not a NaN and whose scaled and rounded magnitude is below
`2^(mantissa_bits + 1)`, hence a value of the type. -/
def decimal_domain (w digits10 bits : Nat) : Prop :=
  bits < 2 ^ w ∧ is_nan w bits = false
    ∧ decimal_round w digits10 (magnitude w bits) < 2 ^ (mantissa_bits w + 1)

instance decimal_domain_decidable (w digits10 bits : Nat) :
    Decidable (decimal_domain w digits10 bits) := by
  unfold decimal_domain
  exact inferInstance

/-- C1: `append(x, n, skip)` performs exactly one `Coder::encode(k, n, skip)` (the
coder's record of calls grows by that single entry and the new coder is the
result of that call), and `lookup(op, x)` returns exactly `Coder::decode(op, k)`,
where in both cases `k` is `transform(Binner::bin(x))`. -/
theorem append_lookup_same_key {T U C : Type} (p : index_policy T U C) (c : C)
    (log : List coder_call) (x : T) (n skip : Nat) (op : relational_operator) :
    (bitmap_index.append p.traced ⟨(c, log)⟩ x n skip).coder_
        = (p.coder.encode c (transform p.binner (p.binner.bin x)) n skip,
            log ++ [coder_call.encode (transform p.binner (p.binner.bin x)) n skip])
      ∧ (bitmap_index.append p ⟨c⟩ x n skip).coder_
        = p.coder.encode c (transform p.binner (p.binner.bin x)) n skip
      ∧ bitmap_index.lookup p ⟨c⟩ op x
        = p.coder.decode c op (transform p.binner (p.binner.bin x))
      ∧ bitmap_index.lookup p.traced ⟨(c, log)⟩ op x
        = p.coder.decode c op (transform p.binner (p.binner.bin x)) :=
  ⟨rfl, rfl, rfl, rfl⟩

/-- C2: `push_back(x)` leaves the index in exactly the state `append(x, 1, 0)`
leaves it in, and `push_back(x, skip)` equals `append(x, 1, skip)`. -/
theorem push_back_eq_append {T U C : Type} (p : index_policy T U C) (idx : bitmap_index C)
    (x : T) (skip : Nat) :
    bitmap_index.push_back_value p idx x = bitmap_index.append p idx x 1 0
      ∧ bitmap_index.push_back p idx x skip = bitmap_index.append p idx x 1 skip :=
  ⟨rfl, rfl⟩

/-! ## Equality coder: operators -/

/-- C9: the equality coder fails with `unsupported_operator` on `less`,
`less_equal`, `greater` and `greater_equal` for every state and key and returns
no stream, while `equal` and `not_equal` always succeed; after encoding
`[3, 1, 3, 2]`, `decode(equal, 3)` is rows `{0, 2}` and `decode(not_equal, 3)` is
rows `{1, 3}`. -/
theorem equality_coder_decode_operators (c : equality_coder) (k : Nat) :
    equality_coder.decode c relational_operator.less k
        = Except.error coder_error.unsupported_operator
      ∧ equality_coder.decode c relational_operator.less_equal k
        = Except.error coder_error.unsupported_operator
      ∧ equality_coder.decode c relational_operator.greater k
        = Except.error coder_error.unsupported_operator
      ∧ equality_coder.decode c relational_operator.greater_equal k
        = Except.error coder_error.unsupported_operator
      ∧ (∃ s, equality_coder.decode c relational_operator.equal k = Except.ok s)
      ∧ (∃ s, equality_coder.decode c relational_operator.not_equal k = Except.ok s)
      ∧ equality_coder.decode (encode_keys equality_coder.policy equality_coder.init [3, 1, 3, 2])
          relational_operator.equal 3 = Except.ok [true, false, true, false]
      ∧ equality_coder.decode (encode_keys equality_coder.policy equality_coder.init [3, 1, 3, 2])
          relational_operator.not_equal 3 = Except.ok [false, true, false, true] :=
  ⟨rfl, rfl, rfl, rfl, ⟨_, rfl⟩, ⟨_, rfl⟩, by decide, by decide⟩

/-! ## Row-count invariant -/

theorem append_bits_length (a : bitstream) (n : Nat) (bit : Bool) :
    (append_bits a n bit).length = a.length + n := by
  simp [append_bits]

theorem equality_encode_sized (c : equality_coder) (k n skip : Nat) (h : c.sized) :
    (equality_coder.encode c k n skip).sized := by
  intro e he
  simp only [equality_coder.encode, List.mem_map] at he
  obtain ⟨e0, he0, rfl⟩ := he
  have hlen : e0.2.length = c.rows := by
    cases hf : equality_coder.find k c.streams with
    | some s0 =>
      rw [hf] at he0
      exact h e0 he0
    | none =>
      rw [hf] at he0
      rcases List.mem_append.mp he0 with h1 | h1
      · exact h e0 h1
      · have h2 : e0 = (k, List.replicate c.rows false) := by simpa using h1
        simp [h2]
  simp [equality_coder.encode, append_bits_length, hlen]

theorem range_insert_threshold_sized (rows k : Nat) (l : List (Nat × bitstream))
    (h : ∀ e ∈ l, e.2.length = rows) :
    ∀ e ∈ range_coder.insert_threshold rows k l, e.2.length = rows := by
  induction l with
  | nil =>
    intro e he
    have h2 : e = (k, List.replicate rows true) := by
      simpa [range_coder.insert_threshold] using he
    simp [h2]
  | cons a rest ih =>
    intro e he
    have ha : a.2.length = rows := h a (List.mem_cons_self _ _)
    have hrest : ∀ e ∈ rest, e.2.length = rows :=
      fun e he => h e (List.mem_cons_of_mem _ he)
    unfold range_coder.insert_threshold at he
    split at he
    · exact h e he
    · split at he
      · rcases List.mem_cons.mp he with h1 | h1
        · rw [h1]; exact ha
        · exact h e h1
      · rcases List.mem_cons.mp he with h1 | h1
        · rw [h1]; exact ha
        · exact ih hrest e h1

theorem range_encode_sized (c : range_coder) (k n skip : Nat) (h : c.sized) :
    (range_coder.encode c k n skip).sized := by
  intro e he
  simp only [range_coder.encode, List.mem_map] at he
  obtain ⟨e0, he0, rfl⟩ := he
  have hlen : e0.2.length = c.rows :=
    range_insert_threshold_sized c.rows k c.streams h e0 he0
  simp [range_coder.encode, append_bits_length, hlen]

theorem mem_zipWith_exists {α β γ : Type} (f : α → β → γ) :
    ∀ (as : List α) (bs : List β) (x : γ), x ∈ List.zipWith f as bs →
      ∃ a ∈ as, ∃ b ∈ bs, x = f a b
  | [], _, x, hx => by simp at hx
  | _ :: _, [], x, hx => by simp at hx
  | a :: as, b :: bs, x, hx => by
    rw [List.zipWith_cons_cons] at hx
    rcases List.mem_cons.mp hx with h1 | h1
    · exact ⟨a, List.mem_cons_self _ _, b, List.mem_cons_self _ _, h1⟩
    · obtain ⟨a1, ha1, b1, hb1, hx1⟩ := mem_zipWith_exists f as bs x h1
      exact ⟨a1, List.mem_cons_of_mem _ ha1, b1, List.mem_cons_of_mem _ hb1, hx1⟩

theorem multi_level_encode_sized (c : multi_level_coder range_coder) (k n skip : Nat)
    (h : c.sized) : (multi_level_coder.encode range_coder.policy c k n skip).sized := by
  intro l hl
  simp only [multi_level_coder.encode] at hl
  obtain ⟨l0, hl0, d, _, rfl⟩ := mem_zipWith_exists _ _ _ _ hl
  obtain ⟨hrows, hstreams⟩ := h l0 hl0
  have hs : (range_coder.encode l0 d n skip).sized :=
    range_encode_sized l0 d n skip (fun e he => by rw [hstreams e he, hrows])
  refine ⟨?_, ?_⟩
  · simp [multi_level_coder.encode, range_coder.policy, range_coder.encode, hrows]
  · intro e he
    have := hs e he
    simpa [multi_level_coder.encode, range_coder.policy, range_coder.encode, hrows] using this

theorem multi_level_init_sized (base : List Nat) :
    (multi_level_coder.init range_coder.init base).sized := by
  intro l hl
  simp only [multi_level_coder.init, List.mem_map] at hl
  obtain ⟨_, _, rfl⟩ := hl
  simp [multi_level_coder.init, range_coder.init]

/-- A property of the coder that every `encode` keeps, while adding `n + skip`
to the size, holds after any sequence of calls on the index, and the size has
grown by the sum of the rows the calls add. -/
theorem index_run_invariant {T U C : Type} (p : index_policy T U C) (inv : C → Prop)
    (hstep : ∀ c k n skip, inv c →
      inv (p.coder.encode c k n skip)
        ∧ p.coder.size (p.coder.encode c k n skip) = p.coder.size c + (n + skip))
    (calls : List (index_call T)) :
    ∀ idx : bitmap_index C, inv idx.coder_ →
      inv (index_call.run p idx calls).coder_
        ∧ bitmap_index.size p (index_call.run p idx calls)
          = bitmap_index.size p idx + (calls.map index_call.added).sum := by
  induction calls with
  | nil => intro idx h; exact ⟨h, by simp [index_call.run]⟩
  | cons call rest ih =>
    intro idx h
    have hone : inv (index_call.apply p idx call).coder_
        ∧ bitmap_index.size p (index_call.apply p idx call)
          = bitmap_index.size p idx + call.added := by
      cases call with
      | append x n skip =>
        exact hstep idx.coder_ _ n skip h
      | push_back x skip =>
        exact hstep idx.coder_ _ 1 skip h
    obtain ⟨h1, h2⟩ := ih (index_call.apply p idx call) hone.1
    refine ⟨h1, ?_⟩
    have h3 : index_call.run p idx (call :: rest)
        = index_call.run p (index_call.apply p idx call) rest := rfl
    rw [h3, h2, hone.2]
    simp [Nat.add_assoc]

/-- C6: starting from an empty index, after any sequence of `append(x, n, skip)`
and `push_back` calls (hence after every call of it), every stream owned by the
coder has the coder's row count as its size, and the row count is the sum of
`n + skip` over the calls; for the equality coder, the range coder and the
multi-level coder over range coders with any base. -/
theorem row_count_invariant {T U : Type} (b : binner_policy T U) (base : List Nat)
    (calls : List (index_call T)) :
    ((∀ e ∈ (index_call.run (equality_index b) ⟨equality_coder.init⟩ calls).coder_.streams,
          e.2.length
            = bitmap_index.size (equality_index b)
                (index_call.run (equality_index b) ⟨equality_coder.init⟩ calls))
        ∧ bitmap_index.size (equality_index b)
            (index_call.run (equality_index b) ⟨equality_coder.init⟩ calls)
          = (calls.map index_call.added).sum)
      ∧ ((∀ e ∈ (index_call.run (range_index b) ⟨range_coder.init⟩ calls).coder_.streams,
          e.2.length
            = bitmap_index.size (range_index b)
                (index_call.run (range_index b) ⟨range_coder.init⟩ calls))
        ∧ bitmap_index.size (range_index b)
            (index_call.run (range_index b) ⟨range_coder.init⟩ calls)
          = (calls.map index_call.added).sum)
      ∧ ((∀ l ∈ (index_call.run (multi_level_index b)
              ⟨multi_level_coder.init range_coder.init base⟩ calls).coder_.coders,
          ∀ e ∈ l.streams,
            e.2.length
              = bitmap_index.size (multi_level_index b)
                  (index_call.run (multi_level_index b)
                    ⟨multi_level_coder.init range_coder.init base⟩ calls))
        ∧ bitmap_index.size (multi_level_index b)
            (index_call.run (multi_level_index b)
              ⟨multi_level_coder.init range_coder.init base⟩ calls)
          = (calls.map index_call.added).sum) := by
  refine ⟨?_, ?_, ?_⟩
  · have h := index_run_invariant (equality_index b) equality_coder.sized
      (fun c k n skip hc =>
        ⟨equality_encode_sized c k n skip hc, by
          simp [equality_index, equality_coder.policy, equality_coder.size,
            equality_coder.encode, Nat.add_assoc]⟩)
      calls ⟨equality_coder.init⟩ (by intro e he; simp [equality_coder.init] at he)
    refine ⟨fun e he => ?_, ?_⟩
    · exact h.1 e he
    · simpa [bitmap_index.size, equality_index, equality_coder.policy, equality_coder.size,
        equality_coder.init] using h.2
  · have h := index_run_invariant (range_index b) range_coder.sized
      (fun c k n skip hc =>
        ⟨range_encode_sized c k n skip hc, by
          simp [range_index, range_coder.policy, range_coder.size,
            range_coder.encode, Nat.add_assoc]⟩)
      calls ⟨range_coder.init⟩ (by intro e he; simp [range_coder.init] at he)
    refine ⟨fun e he => ?_, ?_⟩
    · exact h.1 e he
    · simpa [bitmap_index.size, range_index, range_coder.policy, range_coder.size,
        range_coder.init] using h.2
  · have h := index_run_invariant (multi_level_index b) multi_level_coder.sized
      (fun c k n skip hc =>
        ⟨multi_level_encode_sized c k n skip hc, by
          simp [multi_level_index, multi_level_coder.policy, multi_level_coder.size,
            multi_level_coder.encode, Nat.add_assoc]⟩)
      calls ⟨multi_level_coder.init range_coder.init base⟩
      (multi_level_init_sized base)
    refine ⟨fun l hl e he => ?_, ?_⟩
    · exact (h.1 l hl).2 e he
    · simpa [bitmap_index.size, multi_level_index, multi_level_coder.policy,
        multi_level_coder.size, multi_level_coder.init] using h.2

/-! ## Round trip through the equality coder -/

/-- C16 (as stated, refuted): a singleton coder paired with a non-boolean value
type passes the `static_assert` of `bitmap_index`: the instantiation is
accepted, not rejected. -/
theorem singleton_coder_with_non_bool_accepted :
    static_assert_condition false true = true := by
  decide

/-- C16 (amended): a `bitmap_index` whose coder is a singleton coder is accepted
with every value type, boolean or not; the configurations the check rejects are
exactly those pairing the value type `bool` with a non-singleton coder. -/
theorem singleton_coder_always_accepted (is_same_T_bool is_singleton_coder : Bool) :
    static_assert_condition is_same_T_bool true = true
      ∧ (static_assert_condition is_same_T_bool is_singleton_coder = false
          ↔ is_same_T_bool = true ∧ is_singleton_coder = false) := by
  cases is_same_T_bool <;> cases is_singleton_coder <;> decide

/-- C17: a `bitmap_index` with value type `bool` is accepted if and only if its
coder is a singleton coder, and every non-`bool` value type passes the check
whatever the coder. -/
theorem bool_index_requires_singleton_coder (is_singleton_coder : Bool) :
    (static_assert_condition true is_singleton_coder = true ↔ is_singleton_coder = true)
      ∧ static_assert_condition false is_singleton_coder = true := by
  cases is_singleton_coder <;> decide

/-! ## Polymorphic bitstream: representation mismatch -/

theorem bitstream_cast_mismatch {Tag : Type} [DecidableEq Tag] {Rep : Tag → Type} (t : Tag)
    (c : bitstream_concept Tag Rep) (h : c.tag ≠ t) :
    bitstream_model.cast t c = Except.error (fatal.die "bad bitstream cast") := by
  simp [bitstream_model.cast, h]

theorem bitstream_cast_same {Tag : Type} [DecidableEq Tag] {Rep : Tag → Type} (t : Tag)
    (o : Rep t) :
    bitstream_model.cast t (⟨t, o⟩ : bitstream_concept Tag Rep) = Except.ok o := by
  simp [bitstream_model.cast]

/-- C18: for each binary operation of `bitstream_model` (`equals`, `bitwise_and`,
`bitwise_or`, `bitwise_xor`, `bitwise_subtract`, `append_impl` of another
stream): when the concrete representation of the other operand differs from the
receiver's, the operation ends in `die("bad bitstream cast")` and yields no
result; when it is the same, the result is that of the concrete
representation's own operation on the two wrapped streams. -/
theorem bitstream_model_binary_operations {Tag : Type} [DecidableEq Tag] {Rep : Tag → Type}
    (ops : ∀ t, bitstream_base (Rep t)) (self other : bitstream_concept Tag Rep) :
    (other.tag ≠ self.tag →
        bitstream_model.equals ops self other = Except.error (fatal.die "bad bitstream cast")
          ∧ bitstream_model.bitwise_and ops self other
            = Except.error (fatal.die "bad bitstream cast")
          ∧ bitstream_model.bitwise_or ops self other
            = Except.error (fatal.die "bad bitstream cast")
          ∧ bitstream_model.bitwise_xor ops self other
            = Except.error (fatal.die "bad bitstream cast")
          ∧ bitstream_model.bitwise_subtract ops self other
            = Except.error (fatal.die "bad bitstream cast")
          ∧ bitstream_model.append_impl ops self other
            = Except.error (fatal.die "bad bitstream cast"))
      ∧ (∀ o : Rep self.tag, other = ⟨self.tag, o⟩ →
        bitstream_model.equals ops self other
            = Except.ok ((ops self.tag).equals self.bitstream_ o)
          ∧ bitstream_model.bitwise_and ops self other
            = Except.ok ⟨self.tag, (ops self.tag).bitwise_and self.bitstream_ o⟩
          ∧ bitstream_model.bitwise_or ops self other
            = Except.ok ⟨self.tag, (ops self.tag).bitwise_or self.bitstream_ o⟩
          ∧ bitstream_model.bitwise_xor ops self other
            = Except.ok ⟨self.tag, (ops self.tag).bitwise_xor self.bitstream_ o⟩
          ∧ bitstream_model.bitwise_subtract ops self other
            = Except.ok ⟨self.tag, (ops self.tag).bitwise_subtract self.bitstream_ o⟩
          ∧ bitstream_model.append_impl ops self other
            = Except.ok ⟨self.tag, (ops self.tag).append_impl self.bitstream_ o⟩) := by
  refine ⟨fun h => ?_, fun o ho => ?_⟩
  · have hc := bitstream_cast_mismatch self.tag other h
    simp only [bitstream_model.equals, bitstream_model.bitwise_and, bitstream_model.bitwise_or,
      bitstream_model.bitwise_xor, bitstream_model.bitwise_subtract,
      bitstream_model.append_impl, hc]
    exact ⟨rfl, rfl, rfl, rfl, rfl, rfl⟩
  · subst ho
    have hc := @bitstream_cast_same Tag _ Rep self.tag o
    simp only [bitstream_model.equals, bitstream_model.bitwise_and, bitstream_model.bitwise_or,
      bitstream_model.bitwise_xor, bitstream_model.bitwise_subtract,
      bitstream_model.append_impl, hc]
    exact ⟨rfl, rfl, rfl, rfl, rfl, rfl⟩

/-- C18, at concrete inputs: an uncompressed stream combined with a compressed
one dies, and combined with an uncompressed one gives the result of the list
operation. -/
theorem bitstream_model_binary_operations_witness :
    bitstream_model.bitwise_and (fun _ : representation => list_bitstream)
        ⟨representation.uncompressed, [true, true, false]⟩
        ⟨representation.compressed, [true, false, false]⟩
        = Except.error (fatal.die "bad bitstream cast")
      ∧ bitstream_model.bitwise_and (fun _ : representation => list_bitstream)
        ⟨representation.uncompressed, [true, true, false]⟩
        ⟨representation.uncompressed, [true, false, false]⟩
        = Except.ok ⟨representation.uncompressed, [true, false, false]⟩ :=
  ⟨((bitstream_model_binary_operations (fun _ : representation => list_bitstream)
      ⟨representation.uncompressed, [true, true, false]⟩
      ⟨representation.compressed, [true, false, false]⟩).1 (by decide)).2.1,
    ((bitstream_model_binary_operations (fun _ : representation => list_bitstream)
      ⟨representation.uncompressed, [true, true, false]⟩
      ⟨representation.uncompressed, [true, false, false]⟩).2 [true, false, false] rfl).2.1⟩

/-! ## Polymorphic bitstream iterators -/

/-- C19: comparing two iterators over the same concrete representation gives
exactly the result of comparing the wrapped concrete iterators; comparing
iterators of different concrete representations ends in
`die("bad iterator cast")` instead of returning `false`; and a copy of an
iterator dereferences to the same row position and, the concrete `==` being
reflexive, compares equal to the original. -/
theorem iterator_model_equals {Tag : Type} [DecidableEq Tag] {It : Tag → Type}
    (ops : ∀ t, iterator_base (It t)) (self other : iterator_concept Tag It)
    (hrefl : ∀ t (i : It t), (ops t).eq i i = true) :
    (∀ j : It self.tag, other = ⟨self.tag, j⟩ →
        iterator_model.equals ops self other = Except.ok ((ops self.tag).eq self.iterator_ j))
      ∧ (other.tag ≠ self.tag →
        iterator_model.equals ops self other = Except.error (fatal.die "bad iterator cast"))
      ∧ iterator_model.equals ops (iterator_model.copy self) self = Except.ok true
      ∧ iterator_model.equals ops self (iterator_model.copy self) = Except.ok true
      ∧ iterator_model.dereference ops (iterator_model.copy self)
        = iterator_model.dereference ops self := by
  refine ⟨fun j hj => ?_, fun h => ?_, ?_, ?_, rfl⟩
  · subst hj
    simp [iterator_model.equals]
  · simp [iterator_model.equals, h]
  · simp [iterator_model.equals, iterator_model.copy, hrefl]
  · simp [iterator_model.equals, iterator_model.copy, hrefl]

/-- C19, at concrete inputs: position iterators over one representation compare
by position, over two representations the comparison dies. -/
theorem iterator_model_equals_witness :
    (∀ (_ : representation) (i : Nat), (position_iterator).eq i i = true)
      ∧ iterator_model.equals (fun _ : representation => position_iterator)
        ⟨representation.uncompressed, 3⟩ ⟨representation.uncompressed, 4⟩ = Except.ok false
      ∧ iterator_model.equals (fun _ : representation => position_iterator)
        ⟨representation.uncompressed, 3⟩ ⟨representation.compressed, 3⟩
        = Except.error (fatal.die "bad iterator cast")
      ∧ iterator_model.equals (fun _ : representation => position_iterator)
        (iterator_model.copy ⟨representation.uncompressed, 3⟩) ⟨representation.uncompressed, 3⟩
        = Except.ok true :=
  have hrefl : ∀ (t : representation) (i : Nat), (position_iterator).eq i i = true := by
    intro _ i
    simp [position_iterator]
  ⟨hrefl,
    (iterator_model_equals (fun _ : representation => position_iterator)
      ⟨representation.uncompressed, 3⟩ ⟨representation.uncompressed, 4⟩ hrefl).1 4 rfl,
    (iterator_model_equals (fun _ : representation => position_iterator)
      ⟨representation.uncompressed, 3⟩ ⟨representation.compressed, 3⟩ hrefl).2.1 (by decide),
    (iterator_model_equals (fun _ : representation => position_iterator)
      ⟨representation.uncompressed, 3⟩ ⟨representation.uncompressed, 3⟩ hrefl).2.2.1⟩

/-! ## Order transform -/

theorem two_pow_pred_double (w : Nat) (hw : 0 < w) : 2 ^ w = 2 ^ (w - 1) + 2 ^ (w - 1) := by
  obtain ⟨n, rfl⟩ : ∃ n, w = n + 1 := ⟨w - 1, by omega⟩
  simp [Nat.pow_succ]
  omega

theorem xor_two_pow_of_lt (n a : Nat) (ha : a < 2 ^ n) : a ^^^ 2 ^ n = 2 ^ n + a := by
  apply Nat.eq_of_testBit_eq
  intro i
  rw [Nat.testBit_xor, Nat.testBit_two_pow]
  rcases Nat.lt_trichotomy i n with h | h | h
  · rw [Nat.testBit_two_pow_add_gt h]
    have : ¬ n = i := by omega
    simp [this]
  · subst h
    rw [Nat.testBit_two_pow_add_eq, Nat.testBit_lt_two_pow ha]
    simp
  · have h1 : a < 2 ^ i := Nat.lt_of_lt_of_le ha (Nat.pow_le_pow_right (by decide) (by omega))
    have h2 : 2 ^ n + a < 2 ^ i := by
      have : 2 ^ (n + 1) ≤ 2 ^ i := Nat.pow_le_pow_right (by decide) (by omega)
      rw [Nat.pow_succ] at this
      omega
    have : ¬ n = i := by omega
    rw [Nat.testBit_lt_two_pow h1, Nat.testBit_lt_two_pow h2]
    simp [this]

/-- Flipping the sign bit of a `w`-bit pattern adds `2^(w-1)` to a pattern below
it and takes `2^(w-1)` from the others. -/
theorem order_signed_eq (w a : Nat) (hw : 0 < w) (ha : a < 2 ^ w) :
    order_signed w a = if a < 2 ^ (w - 1) then a + 2 ^ (w - 1) else a - 2 ^ (w - 1) := by
  have hd := two_pow_pred_double w hw
  unfold order_signed
  split
  · next h => rw [xor_two_pow_of_lt _ _ h, Nat.add_comm]
  · next h =>
    have hc : a - 2 ^ (w - 1) < 2 ^ (w - 1) := by omega
    have h1 := xor_two_pow_of_lt _ _ hc
    have h2 : 2 ^ (w - 1) + (a - 2 ^ (w - 1)) = a := by omega
    rw [h2] at h1
    calc a ^^^ 2 ^ (w - 1)
        = ((a - 2 ^ (w - 1)) ^^^ 2 ^ (w - 1)) ^^^ 2 ^ (w - 1) := by rw [h1]
      _ = a - 2 ^ (w - 1) := Nat.xor_cancel_right _ _

theorem order_signed_lt_iff (w a b : Nat) (hw : 0 < w) (ha : a < 2 ^ w) (hb : b < 2 ^ w) :
    signed_value w a < signed_value w b ↔ order_signed w a < order_signed w b := by
  have hd := two_pow_pred_double w hw
  have hdi : (2 : Int) ^ w = 2 ^ (w - 1) + 2 ^ (w - 1) := by exact_mod_cast hd
  have hpi : ((2 ^ (w - 1) : Nat) : Int) = (2 : Int) ^ (w - 1) := by norm_cast
  rw [order_signed_eq w a hw ha, order_signed_eq w b hw hb]
  unfold signed_value
  split <;> split <;> constructor <;> intro h <;> omega

/-- C14: for `w`-bit two's-complement patterns `a` and `b`, the signed value of
`a` is below that of `b` if and only if `order(a) < order(b)` as unsigned
`w`-bit integers, where `order` is the pattern XOR `2^(w-1)`; the result is a
`w`-bit value; on unsigned integers `order` is the identity. -/
theorem order_signed_iff (w a b : Nat) (hw : 0 < w) (ha : a < 2 ^ w) (hb : b < 2 ^ w) :
    (signed_value w a < signed_value w b ↔ order_signed w a < order_signed w b)
      ∧ order_signed w a = a ^^^ 2 ^ (w - 1)
      ∧ order_signed w a < 2 ^ w
      ∧ order_unsigned a = a := by
  have hd := two_pow_pred_double w hw
  refine ⟨order_signed_lt_iff w a b hw ha hb, rfl, ?_, rfl⟩
  rw [order_signed_eq w a hw ha]
  split <;> omega

/-- C14, at concrete inputs: the 8-bit patterns of `-1` and `1`. -/
theorem order_signed_iff_witness :
    (0 < 8 ∧ 255 < 2 ^ 8 ∧ 1 < 2 ^ 8)
      ∧ (signed_value 8 255 < signed_value 8 1 ↔ order_signed 8 255 < order_signed 8 1)
      ∧ signed_value 8 255 = -1
      ∧ order_signed 8 255 = 127
      ∧ order_signed 8 1 = 129 :=
  ⟨by decide, (order_signed_iff 8 255 1 (by decide) (by decide) (by decide)).1,
    by decide, by decide, by decide⟩

theorem magnitude_eq (w a : Nat) (hw : 0 < w) (ha : a < 2 ^ w) :
    magnitude w a = if a < 2 ^ (w - 1) then a else a - 2 ^ (w - 1) := by
  have hd := two_pow_pred_double w hw
  unfold magnitude
  split
  · next h => exact Nat.mod_eq_of_lt h
  · next h =>
    rw [Nat.mod_eq_sub_mod (by omega)]
    exact Nat.mod_eq_of_lt (by omega)

/-- The order transform of floating-point patterns is strictly monotone for the
sign-magnitude order of the values. -/
theorem order_float_lt_of_float_lt (w a b : Nat) (hw : 0 < w) (ha : a < 2 ^ w)
    (hb : b < 2 ^ w) (h : float_lt w a b) : order_float w a < order_float w b := by
  have hd := two_pow_pred_double w hw
  obtain ⟨_, _, h3⟩ := h
  rw [magnitude_eq w a hw ha, magnitude_eq w b hw hb] at h3
  unfold sign_bit at h3
  unfold order_float
  by_cases h1 : a < 2 ^ (w - 1) <;> by_cases h2 : b < 2 ^ (w - 1)
  · have e1 : ¬ 2 ^ (w - 1) ≤ a := by omega
    have e2 : ¬ 2 ^ (w - 1) ≤ b := by omega
    simp only [e1, e2, h1, h2, decide_False, if_true, if_false] at h3 ⊢
    simp at h3
    omega
  · have e1 : ¬ 2 ^ (w - 1) ≤ a := by omega
    have e2 : 2 ^ (w - 1) ≤ b := by omega
    simp [e1, e2] at h3
  · simp only [h1, h2, if_true, if_false]
    omega
  · have e1 : 2 ^ (w - 1) ≤ a := by omega
    have e2 : 2 ^ (w - 1) ≤ b := by omega
    simp only [e1, e2, h1, h2, decide_True, if_true, if_false] at h3 ⊢
    omega

theorem or_two_pow_of_lt (n a : Nat) (ha : a < 2 ^ n) : a ||| 2 ^ n = a + 2 ^ n := by
  rw [Nat.add_comm, ← xor_two_pow_of_lt n a ha]
  apply Nat.eq_of_testBit_eq
  intro i
  rw [Nat.testBit_or, Nat.testBit_xor, Nat.testBit_two_pow]
  by_cases h : n = i
  · subst h
    simp [Nat.testBit_lt_two_pow ha]
  · simp [h]

theorem xor_all_ones (w a : Nat) (ha : a < 2 ^ w) : a ^^^ (2 ^ w - 1) = 2 ^ w - 1 - a := by
  have e : 2 ^ w - 1 - a = 2 ^ w - (a + 1) := by omega
  rw [e]
  apply Nat.eq_of_testBit_eq
  intro i
  rw [Nat.testBit_xor, Nat.testBit_two_pow_sub_one, Nat.testBit_two_pow_sub_succ ha]
  by_cases h : i < w
  · simp [h]
  · have : a < 2 ^ i := Nat.lt_of_lt_of_le ha (Nat.pow_le_pow_right (by decide) (by omega))
    simp [h, Nat.testBit_lt_two_pow this]

/-- C15: for two `w`-bit IEEE-754 patterns `a` and `b`, neither a NaN, if the
value of `a` is below the value of `b` in sign-magnitude order (`-0` before
`+0`), then `order(a) < order(b)` as unsigned `w`-bit integers; `order` sets
the sign bit of a pattern whose sign bit is clear and complements every bit of
a pattern whose sign bit is set. -/
theorem order_float_strict_mono (w a b : Nat) (hw : 0 < w) (ha : a < 2 ^ w) (hb : b < 2 ^ w)
    (h : float_lt w a b) :
    order_float w a < order_float w b
      ∧ order_float w b < 2 ^ w
      ∧ (sign_bit w a = false → order_float w a = a ||| 2 ^ (w - 1))
      ∧ (sign_bit w a = true → order_float w a = a ^^^ (2 ^ w - 1)) := by
  have hd := two_pow_pred_double w hw
  refine ⟨order_float_lt_of_float_lt w a b hw ha hb h, ?_, ?_, ?_⟩
  · unfold order_float
    split <;> omega
  · intro hs
    have h1 : a < 2 ^ (w - 1) := by simpa [sign_bit] using hs
    rw [or_two_pow_of_lt _ _ h1]
    simp [order_float, h1]
  · intro hs
    have h1 : ¬ a < 2 ^ (w - 1) := by
      have : 2 ^ (w - 1) ≤ a := by simpa [sign_bit] using hs
      omega
    rw [xor_all_ones w a ha]
    simp [order_float, h1]

/-- C15, at concrete inputs: the 64-bit patterns of `-0.0` and `+0.0`, and those
of `-1.0` and `-0.0`. -/
theorem order_float_strict_mono_witness :
    (float_lt 64 0x8000000000000000 0 ∧ float_lt 64 0xBFF0000000000000 0x8000000000000000)
      ∧ order_float 64 0x8000000000000000 < order_float 64 0
      ∧ order_float 64 0xBFF0000000000000 < order_float 64 0x8000000000000000
      ∧ order_float 64 0 = 0x8000000000000000
      ∧ order_float 64 0x8000000000000000 = 0x7FFFFFFFFFFFFFFF :=
  ⟨by decide,
    (order_float_strict_mono 64 0x8000000000000000 0 (by decide) (by decide) (by decide)
      (by decide)).1,
    (order_float_strict_mono 64 0xBFF0000000000000 0x8000000000000000 (by decide) (by decide)
      (by decide) (by decide)).1,
    by decide, by decide⟩

/-! ## Order preservation of the key mapping -/

/-- C13: for every precision or decimal binner on a floating-point type,
whatever the width of the type, the key is `order(bin(x)) >> (52 - digits2)`:
the shift count is taken from the 52 mantissa bits of the 64-bit type.  On
32-bit floating-point values with 22 significant bits the key of `1.0f`
(pattern `0x3F800000`) is `order(x) >> 30`, which is 2, and not `order(x) >> 1`,
the shift by the 23 mantissa bits of the type less the 22 significant bits.
With 10 significant bits the shift count `52 - 10 = 42` is not `23 - 10 = 13`
and is not below the 32 bits of the key type, so that the shift is not
defined. -/
theorem precision_shift_ignores_float_width :
    (∀ (b : binner_policy Nat Nat) (x : Nat), is_shiftable b = true →
        index_key b x = b.order (b.bin x) >>> (52 - b.digits2))
      ∧ index_key (precision_binner_float 32 22 (by decide)) 0x3F800000
        = order_float 32 0x3F800000 >>> (52 - 22)
      ∧ index_key (precision_binner_float 32 22 (by decide)) 0x3F800000 = 2
      ∧ order_float 32 0x3F800000 >>> (mantissa_bits 32 - 22) = 0x5FC00000
      ∧ 52 - 10 ≠ mantissa_bits 32 - 10
      ∧ ¬ 52 - 10 < 32
      ∧ ¬ shift_defined 32 10 := by
  refine ⟨?_, by decide⟩
  intro b x h
  simp [index_key, transform, h]

/-! ## Range coder: thresholds and lookups -/

theorem block_and_or_subtract (x y : Nat) (hx : x < 2 ^ block_width)
    (hy : y < 2 ^ block_width) :
    (x &&& y) ||| (x &&& bitvector.block_not y) = x := by
  apply Nat.eq_of_testBit_eq
  intro i
  have e : bitvector.block_not y = 2 ^ block_width - (y + 1) := by
    unfold bitvector.block_not
    omega
  rw [Nat.testBit_or, Nat.testBit_and, Nat.testBit_and, e, Nat.testBit_two_pow_sub_succ hy]
  by_cases h : i < block_width
  · simp [h]
    cases x.testBit i <;> cases y.testBit i <;> rfl
  · have hxi : x < 2 ^ i :=
      Nat.lt_of_lt_of_le hx (Nat.pow_le_pow_right (by decide) (by omega))
    simp [h, Nat.testBit_lt_two_pow hxi]

theorem blocks_and_or_subtract :
    ∀ A B : List Nat, A.length = B.length → (∀ x ∈ A, x < 2 ^ block_width) →
      (∀ y ∈ B, y < 2 ^ block_width) →
      List.zipWith (fun x y => x ||| y) (List.zipWith (fun x y => x &&& y) A B)
          (List.zipWith (fun x y => x &&& bitvector.block_not y) A B) = A
  | [], _, _, _, _ => by simp
  | _ :: _, [], h, _, _ => by simp at h
  | x :: A, y :: B, h, hA, hB => by
    simp only [List.zipWith_cons_cons]
    rw [block_and_or_subtract x y (hA x (List.mem_cons_self _ _))
        (hB y (List.mem_cons_self _ _)),
      blocks_and_or_subtract A B (by simpa using h)
        (fun z hz => hA z (List.mem_cons_of_mem _ hz))
        (fun z hz => hB z (List.mem_cons_of_mem _ hz))]

theorem block_not_not (x : Nat) (hx : x < 2 ^ block_width) :
    bitvector.block_not (bitvector.block_not x) = x := by
  unfold bitvector.block_not
  omega

theorem block_not_lt (x : Nat) : bitvector.block_not x < 2 ^ block_width := by
  unfold bitvector.block_not
  have : 0 < 2 ^ block_width := Nat.two_pow_pos _
  omega

theorem map_last_concat (f : Nat → Nat) (x : Nat) :
    ∀ l : List Nat, bitvector.map_last f (l ++ [x]) = l ++ [f x]
  | [] => rfl
  | [y] => rfl
  | y :: z :: rest => by
    have ih := map_last_concat f x (z :: rest)
    simp only [List.cons_append] at ih ⊢
    rw [bitvector.map_last, ih]

theorem list_nil_or_snoc (l : List Nat) : l = [] ∨ ∃ init x, l = init ++ [x] := by
  rcases List.eq_nil_or_concat l with h | ⟨init, x, h⟩
  · exact Or.inl h
  · exact Or.inr ⟨init, x, by rw [h, List.concat_eq_append]⟩

theorem getLast?_snoc (l : List Nat) (x : Nat) : (l ++ [x]).getLast? = some x := by
  simp

theorem map_last_length (f : Nat → Nat) (l : List Nat) :
    (bitvector.map_last f l).length = l.length := by
  rcases list_nil_or_snoc l with h | ⟨init, x, h⟩
  · subst h; rfl
  · subst h
    rw [map_last_concat]
    simp

/-- Complementing a trimmed last block twice, trimming after each complement,
gives the block back. -/
theorem trim_not_trim_not (r x : Nat) (hr : r < block_width) (hx : x < 2 ^ r) :
    bitvector.block_not (bitvector.block_not x % 2 ^ r) % 2 ^ r = x := by
  obtain ⟨q, hq⟩ : ∃ q, 2 ^ block_width = 2 ^ r * q + 2 ^ r := by
    refine ⟨2 ^ (block_width - r) - 1, ?_⟩
    have h1 : 2 ^ block_width = 2 ^ r * 2 ^ (block_width - r) := by
      rw [← Nat.pow_add]
      congr 1
      omega
    have h2 : 0 < 2 ^ (block_width - r) := Nat.two_pow_pos _
    obtain ⟨m, hm⟩ : ∃ m, 2 ^ (block_width - r) = m + 1 := ⟨2 ^ (block_width - r) - 1, by omega⟩
    rw [h1, hm, Nat.add_sub_cancel, Nat.mul_succ]
  have hpos : 0 < 2 ^ r := Nat.two_pow_pos _
  have e1 : bitvector.block_not x = 2 ^ r * q + (2 ^ r - 1 - x) := by
    unfold bitvector.block_not
    omega
  have e2 : bitvector.block_not x % 2 ^ r = 2 ^ r - 1 - x := by
    rw [e1, Nat.mul_add_mod]
    exact Nat.mod_eq_of_lt (by omega)
  have e3 : bitvector.block_not (2 ^ r - 1 - x) = 2 ^ r * q + x := by
    unfold bitvector.block_not
    omega
  rw [e2, e3, Nat.mul_add_mod]
  exact Nat.mod_eq_of_lt hx

theorem map_block_not_not :
    ∀ l : List Nat, (∀ x ∈ l, x < 2 ^ block_width) →
      (l.map bitvector.block_not).map bitvector.block_not = l
  | [], _ => rfl
  | x :: rest, h => by
    simp only [List.map_cons]
    rw [block_not_not x (h x (List.mem_cons_self _ _)),
      map_block_not_not rest (fun z hz => h z (List.mem_cons_of_mem _ hz))]

theorem bitvector_flip_flip (a : bitvector) (ha : a.trimmed) :
    bitvector.flip (bitvector.flip a) = a := by
  obtain ⟨_, hblocks, hlast⟩ := ha
  cases a with
  | mk bits n =>
    simp only at hblocks hlast
    unfold bitvector.flip bitvector.zero_unused_bits
    by_cases hr : n % block_width = 0
    · simp only [hr, if_true]
      rw [map_block_not_not bits hblocks]
    · simp only [hr, if_false]
      rcases list_nil_or_snoc bits with h | ⟨init, x, h⟩
      · subst h
        rfl
      · subst h
        have hx : x < 2 ^ (n % block_width) := hlast hr x (getLast?_snoc init x)
        have hinit : ∀ z ∈ init, z < 2 ^ block_width :=
          fun z hz => hblocks z (List.mem_append_left _ hz)
        have hrlt : n % block_width < block_width := Nat.mod_lt _ (by decide)
        simp only [List.map_append, List.map_cons, List.map_nil, map_last_concat]
        rw [map_block_not_not init hinit, trim_not_trim_not _ x hrlt hx]

theorem bitvector_flip_trimmed (a : bitvector) (ha : a.trimmed) :
    (bitvector.flip a).trimmed := by
  obtain ⟨hlen, _, _⟩ := ha
  cases a with
  | mk bits n =>
    simp only at hlen
    unfold bitvector.flip bitvector.zero_unused_bits
    by_cases hr : n % block_width = 0
    · simp only [hr, if_true]
      refine ⟨by simpa using hlen, ?_, fun h => absurd hr h⟩
      intro x hx
      obtain ⟨y, _, rfl⟩ := List.mem_map.mp hx
      exact block_not_lt y
    · simp only [hr, if_false]
      refine ⟨by simpa [map_last_length] using hlen, ?_, ?_⟩
      · intro x hx
        rcases list_nil_or_snoc bits with h | ⟨init, y, h⟩
        · subst h
          simp [bitvector.map_last] at hx
        · subst h
          simp only [List.map_append, List.map_cons, List.map_nil, map_last_concat,
            List.mem_append, List.mem_singleton] at hx
          rcases hx with h1 | h1
          · obtain ⟨z, _, rfl⟩ := List.mem_map.mp h1
            exact block_not_lt z
          · rw [h1]
            exact Nat.lt_of_le_of_lt (Nat.mod_le _ _) (block_not_lt y)
      · intro _ x hx
        rcases list_nil_or_snoc bits with h | ⟨init, y, h⟩
        · subst h
          simp [bitvector.map_last] at hx
        · subst h
          simp only [List.map_append, List.map_cons, List.map_nil, map_last_concat,
            getLast?_snoc, Option.some.injEq] at hx
          rw [← hx]
          exact Nat.mod_lt _ (Nat.two_pow_pos _)

theorem bitstream_and_or_subtract :
    ∀ a b : bitstream, a.length = b.length →
      bitwise_or (bitwise_and a b) (bitwise_subtract a b) = a
  | [], _, _ => by simp [bitwise_or, bitwise_and, bitwise_subtract]
  | _ :: _, [], h => by simp at h
  | x :: a, y :: b, h => by
    have ih := bitstream_and_or_subtract a b (by simpa using h)
    simp only [bitwise_or, bitwise_and, bitwise_subtract, List.zipWith_cons_cons] at ih ⊢
    rw [ih]
    cases x <;> cases y <;> rfl

theorem bitstream_not_not (a : bitstream) : bitwise_not (bitwise_not a) = a := by
  have h : (not ∘ not) = id := by
    funext b
    cases b <;> rfl
  unfold bitwise_not
  rw [List.map_map, h, List.map_id]

/-- C20: for two bit vectors `a` and `b` of equal size that satisfy the
invariant of the BitVector (and likewise for two bit streams of equal size),
`(a AND b) OR (a AND-NOT b) = a` and `NOT (NOT a) = a`; the result of NOT has
the size of `a` and satisfies the invariant again: no bit is set beyond the
size. -/
theorem boolean_closure (a b : bitvector) (ha : a.trimmed) (hb : b.trimmed)
    (hsize : a.size = b.size) (s t : bitstream) (hst : s.length = t.length) :
    bitvector.bitwise_or (bitvector.bitwise_and a b) (bitvector.bitwise_subtract a b) = a
      ∧ bitvector.flip (bitvector.flip a) = a
      ∧ (bitvector.flip a).size = a.size
      ∧ (bitvector.flip a).trimmed
      ∧ bitwise_or (bitwise_and s t) (bitwise_subtract s t) = s
      ∧ bitwise_not (bitwise_not s) = s
      ∧ (bitwise_not s).length = s.length := by
  refine ⟨?_, bitvector_flip_flip a ha, ?_, bitvector_flip_trimmed a ha,
    bitstream_and_or_subtract s t hst, bitstream_not_not s, by simp [bitwise_not]⟩
  · have hlen : a.bits_.length = b.bits_.length := by
      have h1 := ha.1
      have h2 := hb.1
      have h3 : a.num_bits_ = b.num_bits_ := hsize
      rw [h1, h2, h3]
    cases a with
    | mk bits n =>
      simp only [bitvector.bitwise_or, bitvector.bitwise_and, bitvector.bitwise_subtract]
      rw [blocks_and_or_subtract bits b.bits_ hlen ha.2.1 hb.2.1]
  · unfold bitvector.flip bitvector.zero_unused_bits bitvector.size
    split <;> rfl

/-- C20, at concrete inputs: the 6-bit vectors `001000` and `101010` of the unit
test "bitwise operations", and two 3-bit streams. -/
theorem boolean_closure_witness :
    (bitvector.trimmed ⟨[8], 6⟩ ∧ bitvector.trimmed ⟨[42], 6⟩)
      ∧ bitvector.bitwise_or (bitvector.bitwise_and ⟨[8], 6⟩ ⟨[42], 6⟩)
          (bitvector.bitwise_subtract ⟨[8], 6⟩ ⟨[42], 6⟩) = ⟨[8], 6⟩
      ∧ bitvector.flip ⟨[42], 6⟩ = ⟨[21], 6⟩
      ∧ bitvector.flip (bitvector.flip ⟨[8], 6⟩) = ⟨[8], 6⟩
      ∧ bitwise_not (bitwise_not [true, false, true]) = [true, false, true] :=
  have h8 : bitvector.trimmed ⟨[8], 6⟩ := by
    refine ⟨by decide, ?_, ?_⟩
    · intro x hx
      have : x = 8 := by simpa using hx
      subst this
      decide
    · intro _ x hx
      have : x = 8 := by simpa using hx.symm
      subst this
      decide
  have h42 : bitvector.trimmed ⟨[42], 6⟩ := by
    refine ⟨by decide, ?_, ?_⟩
    · intro x hx
      have : x = 42 := by simpa using hx
      subst this
      decide
    · intro _ x hx
      have : x = 42 := by simpa using hx.symm
      subst this
      decide
  ⟨⟨h8, h42⟩,
    (boolean_closure ⟨[8], 6⟩ ⟨[42], 6⟩ h8 h42 rfl [true, false, true] [false, true, true]
      rfl).1,
    by decide,
    (boolean_closure ⟨[8], 6⟩ ⟨[42], 6⟩ h8 h42 rfl [true, false, true] [false, true, true]
      rfl).2.1,
    (boolean_closure ⟨[8], 6⟩ ⟨[42], 6⟩ h8 h42 rfl [true, false, true] [false, true, true]
      rfl).2.2.2.2.2.1⟩

/-! ## Range map: locating a point -/

theorem range_map_lower_bound_append {V : Type} (p : Int) (rest : List (Int × Int × V)) :
    ∀ pre : List (Int × Int × V), (∀ e ∈ pre, e.1 < p) →
      range_map.lower_bound p (pre ++ rest) = pre.length + range_map.lower_bound p rest
  | [], _ => by simp
  | e :: pre, h => by
    have he : e.1 < p := h e (List.mem_cons_self _ _)
    have ih := range_map_lower_bound_append p rest pre
      (fun x hx => h x (List.mem_cons_of_mem _ hx))
    have h1 : range_map.lower_bound p (e :: (pre ++ rest))
        = range_map.lower_bound p (pre ++ rest) + 1 := by
      simp [range_map.lower_bound, he]
    rw [List.cons_append, h1, ih, List.length_cons]
    omega

theorem range_map_lower_bound_zero {V : Type} (p : Int) (l : List (Int × Int × V))
    (h : ∀ e ∈ l, p ≤ e.1) : range_map.lower_bound p l = 0 := by
  cases l with
  | nil => rfl
  | cons e rest =>
    have he : ¬ e.1 < p := by
      have := h e (List.mem_cons_self _ _)
      omega
    simp [range_map.lower_bound, he]

theorem range_map_lower_bound_prefix {V : Type} (p : Int) :
    ∀ (l : List (Int × Int × V)) (i : Nat), i < range_map.lower_bound p l →
      ∃ h, l[i]? = some h ∧ h.1 < p
  | [], i, hi => by simp [range_map.lower_bound] at hi
  | e :: rest, i, hi => by
    by_cases he : e.1 < p
    · simp only [range_map.lower_bound, he, if_true] at hi
      cases i with
      | zero => exact ⟨e, by simp, he⟩
      | succ j =>
        obtain ⟨h, h1, h2⟩ := range_map_lower_bound_prefix p rest j (by omega)
        exact ⟨h, by simpa using h1, h2⟩
    · simp [range_map.lower_bound, he] at hi

theorem range_map_lower_bound_entry {V : Type} (p : Int) :
    ∀ (l : List (Int × Int × V)) (h : Int × Int × V),
      l[range_map.lower_bound p l]? = some h → p ≤ h.1
  | [], h, hh => by simp [range_map.lower_bound] at hh
  | e :: rest, h, hh => by
    by_cases he : e.1 < p
    · simp only [range_map.lower_bound, he, if_true, List.getElem?_cons_succ] at hh
      exact range_map_lower_bound_entry p rest h hh
    · simp only [range_map.lower_bound, he, if_false, List.getElem?_cons_zero,
        Option.some.injEq] at hh
      rw [← hh]
      omega

theorem getElem?_append_cons_length {α : Type} (e : α) (post : List α) :
    ∀ pre : List α, (pre ++ e :: post)[pre.length]? = some e
  | [] => by simp
  | _ :: pre => by simpa using getElem?_append_cons_length e post pre

theorem getElem?_append_cons_succ {α : Type} (e : α) (post : List α) :
    ∀ pre : List α, (pre ++ e :: post)[pre.length + 1]? = post[0]?
  | [] => by simp
  | _ :: pre => by simpa using getElem?_append_cons_succ e post pre

/-- The intervals of a well-formed range map follow one another: an earlier
entry ends where or before a later one begins. -/
theorem range_map_chain {V : Type} (m : range_map V) (h : m.well_formed) :
    m.map_.Pairwise (fun x y => x.2.1 ≤ y.1) := by
  obtain ⟨hord, hprop, hdisj⟩ := h
  refine List.Pairwise.imp_of_mem ?_ hord
  intro x y hx hy hxy
  have hne : x ≠ y := by
    intro e
    rw [e] at hxy
    omega
  have hy2 := hprop y hy
  rcases hdisj x hx y hy hne with h1 | h1
  · exact h1
  · omega

/-- In a well-formed range map, the position found for a point that an entry
covers is the position of that entry. -/
theorem range_map_locate_covered {V : Type} (pre post : List (Int × Int × V))
    (e : Int × Int × V) (p : Int) (h : (⟨pre ++ e :: post⟩ : range_map V).well_formed)
    (hc : range_map.covers e p) :
    range_map.find_iterator ⟨pre ++ e :: post⟩ p
        (range_map.lower_bound p (pre ++ e :: post)) = pre.length := by
  have hchain := range_map_chain _ h
  have hprop := h.2.1
  simp only [List.pairwise_append, List.pairwise_cons] at hchain
  obtain ⟨_, ⟨hpost, _⟩, hcross⟩ := hchain
  obtain ⟨hc1, hc2⟩ := hc
  have hpre : ∀ x ∈ pre, x.1 < p := by
    intro x hx
    have h1 := hcross x hx e (List.mem_cons_self _ _)
    have h2 : x.1 < x.2.1 := hprop x (by simp [hx])
    omega
  have hpost2 : ∀ y ∈ post, p < y.1 := by
    intro y hy
    have := hpost y hy
    omega
  rw [range_map_lower_bound_append p _ pre hpre]
  by_cases heq : e.1 = p
  · have h0 : range_map.lower_bound p (e :: post) = 0 := by
      simp [range_map.lower_bound, heq]
    unfold range_map.find_iterator
    simp only [h0, Nat.add_zero]
    rw [getElem?_append_cons_length]
    simp [heq]
  · have hlt : e.1 < p := by omega
    have h0 : range_map.lower_bound p post = 0 :=
      range_map_lower_bound_zero p post (fun y hy => by have := hpost2 y hy; omega)
    have h1 : range_map.lower_bound p (e :: post) = 1 := by
      simp [range_map.lower_bound, hlt, h0]
    have hhead : (match post[0]? with
        | some x => decide (x.1 = p)
        | none => false) = false := by
      cases hp : post[0]? with
      | none => rfl
      | some x =>
        have hx : x ∈ post := List.getElem?_mem hp
        have := hpost2 x hx
        have hne : ¬ x.1 = p := by omega
        simp [hne]
    unfold range_map.find_iterator
    simp only [h1]
    rw [getElem?_append_cons_succ, hhead]
    simp only [Nat.add_sub_cancel]
    rw [getElem?_append_cons_length]
    simp [hc2]

/-- When no entry covers a point, the position found for it is `end()`. -/
theorem range_map_locate_uncovered {V : Type} (m : range_map V) (p : Int)
    (hprop : m.proper) (hno : ∀ e ∈ m.map_, ¬ range_map.covers e p) :
    range_map.find_iterator m p (range_map.lower_bound p m.map_) = m.map_.length := by
  unfold range_map.find_iterator
  have h1 : (match m.map_[range_map.lower_bound p m.map_]? with
      | some e => decide (e.1 = p)
      | none => false) = false := by
    cases hp : m.map_[range_map.lower_bound p m.map_]? with
    | none => rfl
    | some x =>
      have hx : x ∈ m.map_ := List.getElem?_mem hp
      have h2 := hprop x hx
      have h3 := hno x hx
      have hne : ¬ x.1 = p := by
        intro e
        exact h3 ⟨by omega, by omega⟩
      simp [hne]
  have h2 : (range_map.lower_bound p m.map_ != 0 &&
      match m.map_[range_map.lower_bound p m.map_ - 1]? with
      | some e => decide (p < e.2.1)
      | none => false) = false := by
    by_cases hz : range_map.lower_bound p m.map_ = 0
    · simp [hz]
    · obtain ⟨x, hx1, hx2⟩ := range_map_lower_bound_prefix p m.map_
        (range_map.lower_bound p m.map_ - 1) (by omega)
      have hx : x ∈ m.map_ := List.getElem?_mem hx1
      have h3 := hno x hx
      have hne : ¬ p < x.2.1 := by
        intro e
        exact h3 ⟨by omega, e⟩
      simp [hx1, hne]
  simp [h1, h2]

theorem range_map_locate_entry {V : Type} (m : range_map V) (h : m.well_formed)
    (e : Int × Int × V) (he : e ∈ m.map_) (p : Int) (hc : range_map.covers e p) :
    ∃ pre post, m.map_ = pre ++ e :: post
      ∧ range_map.find_iterator m p (range_map.lower_bound p m.map_) = pre.length := by
  obtain ⟨pre, post, hsplit⟩ := List.append_of_mem he
  refine ⟨pre, post, hsplit, ?_⟩
  cases m with
  | mk l =>
    simp only at hsplit
    subst hsplit
    exact range_map_locate_covered pre post e p h hc

/-- Two entries of a well-formed range map that cover the same point are the
same entry. -/
theorem range_map_covers_unique {V : Type} (m : range_map V) (h : m.well_formed)
    (x y : Int × Int × V) (hx : x ∈ m.map_) (hy : y ∈ m.map_) (p : Int)
    (hcx : range_map.covers x p) (hcy : range_map.covers y p) : x = y := by
  by_contra hne
  obtain ⟨h1, h2⟩ := hcx
  obtain ⟨h3, h4⟩ := hcy
  rcases h.2.2 x hx y hy hne with h5 | h5 <;> omega

theorem range_map_lookup_covered {V : Type} (m : range_map V) (h : m.well_formed)
    (e : Int × Int × V) (he : e ∈ m.map_) (p : Int) (hc : range_map.covers e p) :
    range_map.lookup m p = some e.2.2 := by
  obtain ⟨pre, post, hsplit, hloc⟩ := range_map_locate_entry m h e he p hc
  unfold range_map.lookup
  simp only [hloc]
  rw [hsplit, getElem?_append_cons_length]
  simp

theorem range_map_lookup_uncovered {V : Type} (m : range_map V) (h : m.well_formed)
    (p : Int) (hno : ∀ e ∈ m.map_, ¬ range_map.covers e p) :
    range_map.lookup m p = none := by
  unfold range_map.lookup
  simp [range_map_locate_uncovered m p h.2.1 hno]

theorem range_map_find_covered {V : Type} (m : range_map V) (h : m.well_formed)
    (e : Int × Int × V) (he : e ∈ m.map_) (p : Int) (hc : range_map.covers e p) :
    range_map.find m p = (some e.2.2, e.1, e.2.1) := by
  obtain ⟨pre, post, hsplit, hloc⟩ := range_map_locate_entry m h e he p hc
  unfold range_map.find
  simp only [hloc]
  rw [hsplit, getElem?_append_cons_length]
  simp

theorem range_map_find_uncovered {V : Type} (m : range_map V) (h : m.well_formed)
    (p : Int) (hno : ∀ e ∈ m.map_, ¬ range_map.covers e p) :
    range_map.find m p = (none, 0, 0) := by
  unfold range_map.find
  simp [range_map_locate_uncovered m p h.2.1 hno]

theorem range_map_example_well_formed :
    range_map.well_formed (⟨[(1, 3, 7), (5, 10, 8)]⟩ : range_map Nat) := by
  refine ⟨by simp [range_map.ordered], ?_, ?_⟩
  · intro e he
    simp only [List.mem_cons, List.mem_singleton, List.not_mem_nil, or_false] at he
    rcases he with rfl | rfl <;> decide
  · intro x hx y hy hne
    simp only [List.mem_cons, List.mem_singleton, List.not_mem_nil, or_false] at hx hy
    rcases hx with rfl | rfl <;> rcases hy with rfl | rfl <;>
      first | exact absurd rfl hne | simp

/-- C22: in a range map with non-empty, pairwise disjoint intervals, `lookup(p)`
returns the value of the stored interval `[a, b)` with `a ≤ p < b` when there is
one and `nullptr` otherwise; at the right endpoint `b` of a stored interval it
returns `nullptr` unless another stored interval begins at `b`, whose value it
then returns. -/
theorem range_map_lookup_correct {V : Type} (m : range_map V) (h : m.well_formed)
    (p : Int) :
    (∀ e ∈ m.map_, range_map.covers e p → range_map.lookup m p = some e.2.2)
      ∧ ((∀ e ∈ m.map_, ¬ range_map.covers e p) → range_map.lookup m p = none)
      ∧ (∀ e ∈ m.map_, (∀ x ∈ m.map_, x.1 ≠ e.2.1) → range_map.lookup m e.2.1 = none)
      ∧ (∀ e ∈ m.map_, ∀ x ∈ m.map_, x.1 = e.2.1 →
          range_map.lookup m e.2.1 = some x.2.2) := by
  refine ⟨fun e he hc => range_map_lookup_covered m h e he p hc,
    range_map_lookup_uncovered m h p, ?_, ?_⟩
  · intro e he hnone
    apply range_map_lookup_uncovered m h
    intro x hx hcx
    have hxe : x ≠ e := by
      intro e1
      rw [e1] at hcx
      have := hcx.2
      omega
    have hpx := h.2.1 x hx
    have hpe := h.2.1 e he
    obtain ⟨h1, h2⟩ := hcx
    rcases h.2.2 x hx e he hxe with h5 | h5
    · omega
    · exact hnone x hx (by omega)
  · intro e _ x hx hxe
    have hpx := h.2.1 x hx
    exact range_map_lookup_covered m h x hx e.2.1 ⟨by omega, by omega⟩

/-- C22, at a concrete input: the map holding `[1, 3) -> 7` and `[5, 10) -> 8`. -/
theorem range_map_lookup_correct_witness :
    range_map.well_formed (⟨[(1, 3, 7), (5, 10, 8)]⟩ : range_map Nat)
      ∧ range_map.lookup (⟨[(1, 3, 7), (5, 10, 8)]⟩ : range_map Nat) 5 = some 8
      ∧ range_map.lookup (⟨[(1, 3, 7), (5, 10, 8)]⟩ : range_map Nat) 10 = none
      ∧ range_map.lookup (⟨[(1, 3, 7), (5, 10, 8)]⟩ : range_map Nat) 3 = none :=
  have hwf := range_map_example_well_formed
  ⟨hwf,
    (range_map_lookup_correct _ hwf 5).1 (5, 10, 8) (by simp) ⟨by decide, by decide⟩,
    (range_map_lookup_correct _ hwf 0).2.2.1 (5, 10, 8) (by simp) (by
      intro x hx
      simp only [List.mem_cons, List.mem_singleton, List.not_mem_nil, or_false] at hx
      rcases hx with rfl | rfl <;> decide),
    by decide⟩

/-- C24: in a range map with non-empty, pairwise disjoint intervals, `find(p)`
returns `(v, a, b)` for the stored interval `[a, b)` with `a ≤ p < b` and its
value `v`, and `(nullptr, 0, 0)` when no stored interval contains `p`; its first
component is `lookup(p)`. -/
theorem range_map_find_correct {V : Type} (m : range_map V) (h : m.well_formed)
    (p : Int) :
    (∀ e ∈ m.map_, range_map.covers e p → range_map.find m p = (some e.2.2, e.1, e.2.1))
      ∧ ((∀ e ∈ m.map_, ¬ range_map.covers e p) → range_map.find m p = (none, 0, 0))
      ∧ (range_map.find m p).1 = range_map.lookup m p := by
  refine ⟨fun e he hc => range_map_find_covered m h e he p hc,
    range_map_find_uncovered m h p, ?_⟩
  unfold range_map.find range_map.lookup
  by_cases hi : range_map.find_iterator m p (range_map.lower_bound p m.map_) = m.map_.length
  · simp [hi]
  · simp only [hi, if_false, ne_eq, not_false_eq_true, if_true]
    cases m.map_[range_map.find_iterator m p (range_map.lower_bound p m.map_)]? <;> rfl

/-- C24, at a concrete input: the map holding `[1, 3) -> 7` and `[5, 10) -> 8`. -/
theorem range_map_find_correct_witness :
    range_map.well_formed (⟨[(1, 3, 7), (5, 10, 8)]⟩ : range_map Nat)
      ∧ range_map.find (⟨[(1, 3, 7), (5, 10, 8)]⟩ : range_map Nat) 9 = (some 8, 5, 10)
      ∧ range_map.find (⟨[(1, 3, 7), (5, 10, 8)]⟩ : range_map Nat) 4 = (none, 0, 0) :=
  have hwf := range_map_example_well_formed
  ⟨hwf,
    (range_map_find_correct _ hwf 9).1 (5, 10, 8) (by simp) ⟨by decide, by decide⟩,
    (range_map_find_correct _ hwf 4).2.1 (by
      intro x hx
      simp only [List.mem_cons, List.mem_singleton, List.not_mem_nil, or_false] at hx
      rcases hx with rfl | rfl <;> simp [range_map.covers])⟩

/-! ## Range map: erase -/

theorem eraseIdx_append_cons_length {α : Type} (e : α) (post : List α) :
    ∀ pre : List α, (pre ++ e :: post).eraseIdx pre.length = pre ++ post
  | [] => by simp
  | x :: pre => by simpa using eraseIdx_append_cons_length e post pre

theorem range_map_well_formed_sublist {V : Type} (l1 l2 : List (Int × Int × V))
    (hsub : l1.Sublist l2) (h : (⟨l2⟩ : range_map V).well_formed) :
    (⟨l1⟩ : range_map V).well_formed := by
  obtain ⟨h1, h2, h3⟩ := h
  refine ⟨List.Pairwise.sublist hsub h1, fun e he => h2 e (hsub.subset he), ?_⟩
  intro x hx y hy hne
  exact h3 x (hsub.subset hx) y (hsub.subset hy) hne

theorem range_map_entry_not_elsewhere {V : Type} (pre post : List (Int × Int × V))
    (e : Int × Int × V) (h : (⟨pre ++ e :: post⟩ : range_map V).ordered) :
    e ∉ pre ++ post := by
  unfold range_map.ordered at h
  simp only [List.pairwise_append, List.pairwise_cons] at h
  obtain ⟨_, ⟨hpost, _⟩, hcross⟩ := h
  intro hmem
  rcases List.mem_append.mp hmem with h1 | h1
  · have := hcross e h1 e (List.mem_cons_self _ _)
    omega
  · have := hpost e h1
    omega

/-- What `erase(p)` does in a well-formed range map when the entry `e` covers
`p`: it returns `true` and removes that entry. -/
theorem range_map_erase_covered {V : Type} (m : range_map V) (h : m.well_formed)
    (e : Int × Int × V) (he : e ∈ m.map_) (p : Int) (hc : range_map.covers e p) :
    ∃ pre post, m.map_ = pre ++ e :: post
      ∧ range_map.erase m p = (true, ⟨pre ++ post⟩) := by
  obtain ⟨pre, post, hsplit, hloc⟩ := range_map_locate_entry m h e he p hc
  refine ⟨pre, post, hsplit, ?_⟩
  unfold range_map.erase
  simp only [hloc]
  rw [hsplit, eraseIdx_append_cons_length]
  simp

theorem range_map_erase_uncovered {V : Type} (m : range_map V) (h : m.well_formed)
    (p : Int) (hno : ∀ e ∈ m.map_, ¬ range_map.covers e p) :
    range_map.erase m p = (false, m) := by
  unfold range_map.erase
  simp [range_map_locate_uncovered m p h.2.1 hno]

theorem range_map_erase_well_formed {V : Type} (m : range_map V) (h : m.well_formed)
    (p : Int) : (range_map.erase m p).2.well_formed := by
  by_cases hex : ∃ e ∈ m.map_, range_map.covers e p
  · obtain ⟨e, he, hc⟩ := hex
    obtain ⟨pre, post, hsplit, herase⟩ := range_map_erase_covered m h e he p hc
    rw [herase]
    apply range_map_well_formed_sublist (pre ++ post) m.map_ _ h
    rw [hsplit]
    exact List.Sublist.append_left (List.sublist_cons_self e post) pre
  · have hno : ∀ e ∈ m.map_, ¬ range_map.covers e p := fun e he hc => hex ⟨e, he, hc⟩
    rw [range_map_erase_uncovered m h p hno]
    exact h

/-- C23: in a range map with non-empty, pairwise disjoint intervals, `erase(p)`
returns `true` if and only if `p` lies in a stored interval `[a, b)`; then
exactly that entry is removed: the size decreases by one, `lookup(q)` is
`nullptr` afterwards for every `q` in `[a, b)`, every other entry stays and
`lookup(q)` is as before for every other `q`; when it returns `false` the map is
unchanged. -/
theorem range_map_erase_correct {V : Type} (m : range_map V) (h : m.well_formed)
    (p : Int) :
    ((range_map.erase m p).1 = true ↔ ∃ e ∈ m.map_, range_map.covers e p)
      ∧ (∀ e ∈ m.map_, range_map.covers e p →
          range_map.size (range_map.erase m p).2 + 1 = range_map.size m
            ∧ (∀ x, x ∈ (range_map.erase m p).2.map_ ↔ x ∈ m.map_ ∧ x ≠ e)
            ∧ (∀ q, range_map.covers e q → range_map.lookup (range_map.erase m p).2 q = none)
            ∧ (∀ q, ¬ range_map.covers e q →
                range_map.lookup (range_map.erase m p).2 q = range_map.lookup m q))
      ∧ ((range_map.erase m p).1 = false → (range_map.erase m p).2 = m) := by
  have hwf' := range_map_erase_well_formed m h p
  refine ⟨?_, ?_, ?_⟩
  · constructor
    · intro ht
      by_contra hex
      have hno : ∀ e ∈ m.map_, ¬ range_map.covers e p := fun e he hc => hex ⟨e, he, hc⟩
      rw [range_map_erase_uncovered m h p hno] at ht
      exact Bool.noConfusion ht
    · rintro ⟨e, he, hc⟩
      obtain ⟨pre, post, _, herase⟩ := range_map_erase_covered m h e he p hc
      rw [herase]
  · intro e he hc
    obtain ⟨pre, post, hsplit, herase⟩ := range_map_erase_covered m h e he p hc
    have hnot : e ∉ pre ++ post := by
      apply range_map_entry_not_elsewhere pre post e
      have := h.1
      unfold range_map.ordered at this ⊢
      rw [hsplit] at this
      exact this
    rw [herase] at hwf' ⊢
    have hmem : ∀ x, x ∈ pre ++ post ↔ x ∈ m.map_ ∧ x ≠ e := by
      intro x
      rw [hsplit]
      simp only [List.mem_append, List.mem_cons]
      constructor
      · intro hx
        refine ⟨?_, ?_⟩
        · rcases hx with h1 | h1
          · exact Or.inl h1
          · exact Or.inr (Or.inr h1)
        · intro hxe
          rw [hxe] at hx
          exact hnot (List.mem_append.mpr hx)
      · rintro ⟨h1 | h1 | h1, h2⟩
        · exact Or.inl h1
        · exact absurd h1 h2
        · exact Or.inr h1
    refine ⟨?_, hmem, ?_, ?_⟩
    · simp [range_map.size, hsplit]
      omega
    · intro q hq
      apply range_map_lookup_uncovered _ hwf'
      intro x hx hcx
      have hx2 := (hmem x).mp hx
      exact hx2.2 (range_map_covers_unique m h x e hx2.1 he q hcx hq)
    · intro q hq
      by_cases hex : ∃ x ∈ m.map_, range_map.covers x q
      · obtain ⟨x, hx, hcx⟩ := hex
        have hxe : x ≠ e := by
          intro e1
          rw [e1] at hcx
          exact hq hcx
        rw [range_map_lookup_covered m h x hx q hcx,
          range_map_lookup_covered _ hwf' x ((hmem x).mpr ⟨hx, hxe⟩) q hcx]
      · have hno : ∀ x ∈ m.map_, ¬ range_map.covers x q :=
          fun x hx hcx => hex ⟨x, hx, hcx⟩
        rw [range_map_lookup_uncovered m h q hno,
          range_map_lookup_uncovered _ hwf' q
            (fun x hx => hno x ((hmem x).mp hx).1)]
  · intro hf
    by_cases hex : ∃ e ∈ m.map_, range_map.covers e p
    · obtain ⟨e, he, hc⟩ := hex
      obtain ⟨pre, post, _, herase⟩ := range_map_erase_covered m h e he p hc
      rw [herase] at hf
      exact Bool.noConfusion hf
    · have hno : ∀ e ∈ m.map_, ¬ range_map.covers e p := fun e he hc => hex ⟨e, he, hc⟩
      rw [range_map_erase_uncovered m h p hno]

/-- C23, at a concrete input: erasing at 9 and at 4 in the map holding
`[1, 3) -> 7` and `[5, 10) -> 8`. -/
theorem range_map_erase_correct_witness :
    range_map.well_formed (⟨[(1, 3, 7), (5, 10, 8)]⟩ : range_map Nat)
      ∧ (range_map.erase (⟨[(1, 3, 7), (5, 10, 8)]⟩ : range_map Nat) 9).1 = true
      ∧ (range_map.erase (⟨[(1, 3, 7), (5, 10, 8)]⟩ : range_map Nat) 9).2.map_ = [(1, 3, 7)]
      ∧ (range_map.erase (⟨[(1, 3, 7), (5, 10, 8)]⟩ : range_map Nat) 4).1 = false :=
  ⟨range_map_example_well_formed,
    (range_map_erase_correct _ range_map_example_well_formed 9).1.mpr
      ⟨(5, 10, 8), by simp, by decide, by decide⟩,
    by decide, by decide⟩

/-! ## Range map: insert -/

theorem range_map_intersects_iff {V : Type} (l r : Int) (e : Int × Int × V) (hlr : l < r)
    (he : e.1 < e.2.1) : range_map.intersects l r e ↔ l < e.2.1 ∧ e.1 < r := by
  unfold range_map.intersects range_map.covers
  constructor
  · rintro ⟨q, ⟨h1, h2⟩, h3, h4⟩
    exact ⟨by omega, by omega⟩
  · rintro ⟨h1, h2⟩
    by_cases h : l ≤ e.1
    · exact ⟨e.1, ⟨h, h2⟩, by omega, he⟩
    · exact ⟨l, ⟨by omega, hlr⟩, by omega, h1⟩

theorem range_map_emplace_subset {V : Type} (k : Int) (val : Int × V) :
    ∀ (l : List (Int × Int × V)) (x : Int × Int × V),
      x ∈ (range_map.emplace k val l).2 → x = (k, val) ∨ x ∈ l
  | [], x, hx => by
    simp only [range_map.emplace, List.mem_singleton] at hx
    exact Or.inl hx
  | e :: rest, x, hx => by
    unfold range_map.emplace at hx
    by_cases h1 : k < e.1
    · simp only [h1, if_true, List.mem_cons] at hx
      rcases hx with h | h | h
      · exact Or.inl h
      · exact Or.inr (by simp [h])
      · exact Or.inr (by simp [h])
    · by_cases h2 : k = e.1
      · simp only [h1, h2, if_false, if_true] at hx
        exact Or.inr (by simpa using hx)
      · simp only [h1, h2, if_false, List.mem_cons] at hx
        rcases hx with h | h
        · exact Or.inr (by simp [h])
        · rcases range_map_emplace_subset k val rest x h with h3 | h3
          · exact Or.inl h3
          · exact Or.inr (by simp [h3])

theorem range_map_emplace_fresh {V : Type} (k : Int) (val : Int × V) :
    ∀ l : List (Int × Int × V), (∀ e ∈ l, e.1 ≠ k) →
      (range_map.emplace k val l).1 = true
        ∧ (range_map.emplace k val l).2.length = l.length + 1
        ∧ ∀ x, x ∈ (range_map.emplace k val l).2 ↔ x ∈ l ∨ x = (k, val)
  | [], _ => by simp [range_map.emplace]
  | e :: rest, h => by
    have he : e.1 ≠ k := h e (List.mem_cons_self _ _)
    have ih := range_map_emplace_fresh k val rest
      (fun x hx => h x (List.mem_cons_of_mem _ hx))
    unfold range_map.emplace
    by_cases h1 : k < e.1
    · simp only [h1, if_true, List.length_cons, List.mem_cons, true_and]
      intro x
      constructor
      · rintro (h2 | h2 | h2)
        · exact Or.inr h2
        · exact Or.inl (Or.inl h2)
        · exact Or.inl (Or.inr h2)
      · rintro ((h2 | h2) | h2)
        · exact Or.inr (Or.inl h2)
        · exact Or.inr (Or.inr h2)
        · exact Or.inl h2
    · have h2 : ¬ k = e.1 := fun e1 => he e1.symm
      simp only [h1, h2, if_false, List.length_cons, List.mem_cons]
      refine ⟨ih.1, by rw [ih.2.1], ?_⟩
      intro x
      rw [ih.2.2 x]
      constructor
      · rintro (h3 | h3 | h3)
        · exact Or.inl (Or.inl h3)
        · exact Or.inl (Or.inr h3)
        · exact Or.inr h3
      · rintro ((h3 | h3) | h3)
        · exact Or.inl h3
        · exact Or.inr (Or.inl h3)
        · exact Or.inr (Or.inr h3)

theorem range_map_emplace_ordered {V : Type} (k : Int) (val : Int × V) :
    ∀ l : List (Int × Int × V), l.Pairwise (fun x y => x.1 < y.1) →
      (range_map.emplace k val l).2.Pairwise (fun x y => x.1 < y.1)
  | [], _ => by simp [range_map.emplace]
  | e :: rest, h => by
    have hrest : rest.Pairwise (fun x y => x.1 < y.1) := (List.pairwise_cons.mp h).2
    have hhead : ∀ y ∈ rest, e.1 < y.1 := (List.pairwise_cons.mp h).1
    unfold range_map.emplace
    by_cases h1 : k < e.1
    · simp only [h1, if_true, List.pairwise_cons]
      refine ⟨?_, hhead, hrest⟩
      intro y hy
      rcases List.mem_cons.mp hy with h2 | h2
      · rw [h2]; exact h1
      · have := hhead y h2
        show k < y.1
        omega
    · by_cases h2 : k = e.1
      · simpa [h1, h2] using h
      · simp only [h1, h2, if_false, List.pairwise_cons]
        refine ⟨?_, range_map_emplace_ordered k val rest hrest⟩
        intro y hy
        rcases range_map_emplace_subset k val rest y hy with h3 | h3
        · rw [h3]
          show e.1 < k
          omega
        · exact hhead y h3

theorem range_map_lower_bound_split {V : Type} (p : Int) :
    ∀ l : List (Int × Int × V), ∃ pre post, l = pre ++ post
      ∧ range_map.lower_bound p l = pre.length ∧ ∀ e ∈ pre, e.1 < p
  | [] => ⟨[], [], rfl, rfl, by simp⟩
  | e :: rest => by
    by_cases he : e.1 < p
    · obtain ⟨pre, post, h1, h2, h3⟩ := range_map_lower_bound_split p rest
      refine ⟨e :: pre, post, by simp [h1], by simp [range_map.lower_bound, he, h2], ?_⟩
      intro x hx
      rcases List.mem_cons.mp hx with h4 | h4
      · rw [h4]; exact he
      · exact h3 x h4
    · exact ⟨[], e :: rest, rfl, by simp [range_map.lower_bound, he], by simp⟩

/-- What `insert(l, r, v)` does in a well-formed range map: either a stored
interval intersects `[l, r)` and the call returns `false` leaving the map as it
is, or none does and the call returns what `emplace` returns. -/
theorem range_map_insert_cases {V : Type} (m : range_map V) (h : m.well_formed)
    (l r : Int) (v : V) (hlr : l < r) :
    (range_map.insert m l r v = (false, m) ∧ ∃ e ∈ m.map_, range_map.intersects l r e)
      ∨ (range_map.insert m l r v
            = ((range_map.emplace l (r, v) m.map_).1, ⟨(range_map.emplace l (r, v) m.map_).2⟩)
          ∧ ∀ e ∈ m.map_, ¬ range_map.intersects l r e) := by
  by_cases hex : ∃ e ∈ m.map_, range_map.covers e l
  · obtain ⟨e, he, hc⟩ := hex
    obtain ⟨pre, post, hsplit, hloc⟩ := range_map_locate_entry m h e he l hc
    left
    refine ⟨?_, e, he, l, ⟨Int.le_refl l, hlr⟩, hc⟩
    unfold range_map.insert
    have hne : pre.length ≠ m.map_.length := by
      rw [hsplit]
      simp
    simp only [hloc]
    simp [hne]
  · have hno : ∀ e ∈ m.map_, ¬ range_map.covers e l := fun e he hc => hex ⟨e, he, hc⟩
    have hloc := range_map_locate_uncovered m l h.2.1 hno
    obtain ⟨pre, post, hsplit, hlb, hpre⟩ := range_map_lower_bound_split l m.map_
    have hidx : m.map_[range_map.lower_bound l m.map_]? = post[0]? := by
      rw [hlb, hsplit]
      cases post with
      | nil => simp
      | cons x post => rw [getElem?_append_cons_length]; simp
    have hpre_no : ∀ e ∈ pre, ¬ range_map.intersects l r e := by
      intro e he
      have hem : e ∈ m.map_ := by rw [hsplit]; exact List.mem_append_left _ he
      have hp := h.2.1 e hem
      rw [range_map_intersects_iff l r e hlr hp]
      intro hi
      exact hno e hem ⟨by have := hpre e he; omega, hi.1⟩
    unfold range_map.insert
    simp only [hloc, ne_eq, not_true_eq_false, if_false, hidx]
    cases post with
    | nil =>
      right
      refine ⟨by simp, ?_⟩
      intro e he
      rw [hsplit, List.append_nil] at he
      exact hpre_no e he
    | cons x post =>
      have hxm : x ∈ m.map_ := by rw [hsplit]; simp
      have hxp := h.2.1 x hxm
      have hxl : l ≤ x.1 := by
        apply range_map_lower_bound_entry l m.map_ x
        rw [hidx]
        simp
      by_cases hrx : r ≤ x.1
      · right
        refine ⟨by simp [hrx], ?_⟩
        intro e he
        rw [hsplit] at he
        rcases List.mem_append.mp he with h1 | h1
        · exact hpre_no e h1
        · have hem : e ∈ m.map_ := by rw [hsplit]; exact List.mem_append_right _ h1
          have hp := h.2.1 e hem
          rw [range_map_intersects_iff l r e hlr hp]
          have hord := h.1
          unfold range_map.ordered at hord
          rw [hsplit] at hord
          have hpost := (List.pairwise_append.mp hord).2.1
          rcases List.mem_cons.mp h1 with h2 | h2
          · rw [h2]; omega
          · have := (List.pairwise_cons.mp hpost).1 e h2
            omega
      · left
        refine ⟨by simp [hrx], x, hxm, ?_⟩
        rw [range_map_intersects_iff l r x hlr hxp]
        omega

/-- C21: in a range map with non-empty, pairwise disjoint intervals and for
`l < r`, `insert(l, r, v)` returns `true` if and only if `[l, r)` has no point in
common with a stored interval (touching at an endpoint is allowed); when it
returns `true` the map holds exactly the old entries and `[l, r) -> v`, when it
returns `false` the map is unchanged. -/
theorem range_map_insert_correct {V : Type} (m : range_map V) (h : m.well_formed)
    (l r : Int) (v : V) (hlr : l < r) :
    ((range_map.insert m l r v).1 = true ↔ ∀ e ∈ m.map_, ¬ range_map.intersects l r e)
      ∧ ((range_map.insert m l r v).1 = true →
          range_map.size (range_map.insert m l r v).2 = range_map.size m + 1
            ∧ ∀ x, x ∈ (range_map.insert m l r v).2.map_ ↔ x ∈ m.map_ ∨ x = (l, r, v))
      ∧ ((range_map.insert m l r v).1 = false → (range_map.insert m l r v).2 = m) := by
  rcases range_map_insert_cases m h l r v hlr with ⟨heq, e, he, hi⟩ | ⟨heq, hno⟩
  · rw [heq]
    refine ⟨?_, ?_, fun _ => rfl⟩
    · constructor
      · intro ht
        exact Bool.noConfusion ht
      · intro hall
        exact absurd hi (hall e he)
    · intro ht
      exact Bool.noConfusion ht
  · have hfresh : ∀ e ∈ m.map_, e.1 ≠ l := by
      intro e he hel
      exact hno e he ⟨l, ⟨Int.le_refl l, hlr⟩, by omega, by have := h.2.1 e he; omega⟩
    obtain ⟨h1, h2, h3⟩ := range_map_emplace_fresh l (r, v) m.map_ hfresh
    rw [heq]
    refine ⟨?_, ?_, ?_⟩
    · constructor
      · intro _; exact hno
      · intro _; exact h1
    · intro _
      exact ⟨h2, h3⟩
    · intro hf
      rw [h1] at hf
      exact Bool.noConfusion hf

/-- C21, at concrete inputs: `[3, 5)` touches both stored intervals of the map
holding `[1, 3) -> 7` and `[5, 10) -> 8` and is inserted; `[4, 6)` is not. -/
theorem range_map_insert_correct_witness :
    (range_map.well_formed (⟨[(1, 3, 7), (5, 10, 8)]⟩ : range_map Nat) ∧ (3 : Int) < 5)
      ∧ ((range_map.insert (⟨[(1, 3, 7), (5, 10, 8)]⟩ : range_map Nat) 3 5 9).1 = true ↔
          ∀ e ∈ [((1 : Int), (3 : Int), 7), (5, 10, 8)], ¬ range_map.intersects 3 5 e)
      ∧ (range_map.insert (⟨[(1, 3, 7), (5, 10, 8)]⟩ : range_map Nat) 3 5 9).1 = true
      ∧ (range_map.insert (⟨[(1, 3, 7), (5, 10, 8)]⟩ : range_map Nat) 3 5 9).2.map_
        = [(1, 3, 7), (3, 5, 9), (5, 10, 8)]
      ∧ (range_map.insert (⟨[(1, 3, 7), (5, 10, 8)]⟩ : range_map Nat) 4 6 9).1 = false :=
  ⟨⟨range_map_example_well_formed, by decide⟩,
    (range_map_insert_correct _ range_map_example_well_formed 3 5 9 (by decide)).1,
    by decide, by decide, by decide⟩

/-! ## Range map: invariant -/

theorem range_map_insert_well_formed {V : Type} (m : range_map V) (h : m.well_formed)
    (l r : Int) (v : V) (hlr : l < r) : (range_map.insert m l r v).2.well_formed := by
  rcases range_map_insert_cases m h l r v hlr with ⟨heq, _⟩ | ⟨heq, hno⟩
  · rw [heq]; exact h
  · have hfresh : ∀ e ∈ m.map_, e.1 ≠ l := by
      intro e he hel
      exact hno e he ⟨l, ⟨Int.le_refl l, hlr⟩, by omega, by have := h.2.1 e he; omega⟩
    obtain ⟨_, _, hmem⟩ := range_map_emplace_fresh l (r, v) m.map_ hfresh
    have hsep : ∀ e ∈ m.map_, e.2.1 ≤ l ∨ r ≤ e.1 := by
      intro e he
      have hp := h.2.1 e he
      have hni := hno e he
      rw [range_map_intersects_iff l r e hlr hp] at hni
      omega
    rw [heq]
    refine ⟨range_map_emplace_ordered l (r, v) m.map_ h.1, ?_, ?_⟩
    · intro e he
      rcases (hmem e).mp he with h1 | h1
      · exact h.2.1 e h1
      · rw [h1]; exact hlr
    · intro x hx y hy hne
      rcases (hmem x).mp hx with h1 | h1 <;> rcases (hmem y).mp hy with h2 | h2
      · exact h.2.2 x h1 y h2 hne
      · rw [h2]
        rcases hsep x h1 with h3 | h3
        · exact Or.inl h3
        · exact Or.inr h3
      · rw [h1]
        rcases hsep y h2 with h3 | h3
        · exact Or.inr h3
        · exact Or.inl h3
      · rw [h1, h2] at hne
        exact absurd rfl hne

theorem range_map_step_invariant {V : Type} (s : range_map.run_state V)
    (c : range_map.call V) (hc : c.valid) (hwf : s.map.well_formed)
    (hsize : s.map.size + s.erased = s.inserted) :
    (range_map.step s c).map.well_formed
      ∧ (range_map.step s c).map.size + (range_map.step s c).erased
        = (range_map.step s c).inserted := by
  cases c with
  | insert l r v =>
    have hlr : l < r := hc
    refine ⟨range_map_insert_well_formed s.map hwf l r v hlr, ?_⟩
    simp only [range_map.step]
    rcases range_map_insert_cases s.map hwf l r v hlr with ⟨heq, _⟩ | ⟨heq, hno⟩
    · rw [heq]
      simpa using hsize
    · have hfresh : ∀ e ∈ s.map.map_, e.1 ≠ l := by
        intro e he hel
        exact hno e he ⟨l, ⟨Int.le_refl l, hlr⟩, by omega, by have := hwf.2.1 e he; omega⟩
      obtain ⟨h1, h2, _⟩ := range_map_emplace_fresh l (r, v) s.map.map_ hfresh
      rw [heq]
      simp only [h1, if_true, range_map.size, h2]
      simp only [range_map.size] at hsize
      omega
  | erase p =>
    refine ⟨range_map_erase_well_formed s.map hwf p, ?_⟩
    simp only [range_map.step]
    by_cases hex : ∃ e ∈ s.map.map_, range_map.covers e p
    · obtain ⟨e, he, hcov⟩ := hex
      obtain ⟨pre, post, hsplit, herase⟩ := range_map_erase_covered s.map hwf e he p hcov
      rw [herase]
      simp only [range_map.size, hsplit, List.length_append, List.length_cons] at hsize ⊢
      simp only [if_true]
      omega
    · have hno : ∀ e ∈ s.map.map_, ¬ range_map.covers e p :=
        fun e he hcov => hex ⟨e, he, hcov⟩
      rw [range_map_erase_uncovered s.map hwf p hno]
      simpa using hsize

theorem range_map_fold_invariant {V : Type} (calls : List (range_map.call V)) :
    ∀ s : range_map.run_state V, (∀ c ∈ calls, c.valid) → s.map.well_formed →
      s.map.size + s.erased = s.inserted →
      (calls.foldl range_map.step s).map.well_formed
        ∧ (calls.foldl range_map.step s).map.size + (calls.foldl range_map.step s).erased
          = (calls.foldl range_map.step s).inserted := by
  induction calls with
  | nil => intro s _ h1 h2; exact ⟨h1, h2⟩
  | cons c rest ih =>
    intro s hv h1 h2
    obtain ⟨h3, h4⟩ := range_map_step_invariant s c (hv c (List.mem_cons_self _ _)) h1 h2
    exact ih (range_map.step s c) (fun x hx => hv x (List.mem_cons_of_mem _ hx)) h3 h4

/-- C25: starting from an empty range map, after any sequence of
`insert(l, r, v)` calls with `l < r` and `erase(p)` calls, the keys are in
ascending order, every stored interval is non-empty, the stored intervals are
pairwise disjoint, and `size()` is the number of inserts that returned `true`
less the number of erases that returned `true`. -/
theorem range_map_invariant {V : Type} (calls : List (range_map.call V))
    (hvalid : ∀ c ∈ calls, c.valid) :
    (range_map.run calls).map.ordered
      ∧ (range_map.run calls).map.proper
      ∧ (range_map.run calls).map.disjoint
      ∧ (range_map.run calls).map.size
        = (range_map.run calls).inserted - (range_map.run calls).erased
      ∧ (range_map.run calls).erased ≤ (range_map.run calls).inserted := by
  have h := range_map_fold_invariant calls ⟨range_map.init, 0, 0⟩ hvalid
    ⟨by simp [range_map.ordered, range_map.init],
      by intro e he; simp [range_map.init] at he,
      by intro x hx; simp [range_map.init] at hx⟩
    (by simp [range_map.size, range_map.init])
  obtain ⟨⟨h1, h2, h3⟩, h4⟩ := h
  refine ⟨h1, h2, h3, ?_, ?_⟩
  · unfold range_map.run
    omega
  · unfold range_map.run
    omega

/-- C25, at a concrete input: two inserts that succeed, one that fails and one
erase that succeeds leave one entry. -/
theorem range_map_invariant_witness :
    (∀ c ∈ [range_map.call.insert 5 10 8, range_map.call.insert 1 3 7,
          range_map.call.insert 2 6 9, range_map.call.erase 9],
        @range_map.call.valid Nat c)
      ∧ (range_map.run [range_map.call.insert 5 10 8, range_map.call.insert 1 3 7,
          range_map.call.insert 2 6 9, range_map.call.erase 9]).map.disjoint
      ∧ (range_map.run [range_map.call.insert 5 10 8, range_map.call.insert 1 3 7,
          range_map.call.insert 2 6 9, range_map.call.erase 9]).map.map_ = [(1, 3, 7)]
      ∧ (range_map.run [range_map.call.insert 5 10 8, range_map.call.insert 1 3 7,
          range_map.call.insert 2 6 9, range_map.call.erase 9]).inserted = 2
      ∧ (range_map.run [range_map.call.insert 5 10 8, range_map.call.insert 1 3 7,
          range_map.call.insert 2 6 9, range_map.call.erase 9]).erased = 1 :=
  have hv : ∀ c ∈ [range_map.call.insert 5 10 8, range_map.call.insert 1 3 7,
        range_map.call.insert 2 6 9, range_map.call.erase 9],
      @range_map.call.valid Nat c := by
    intro c hc
    simp only [List.mem_cons, List.mem_singleton, List.not_mem_nil, or_false] at hc
    rcases hc with rfl | rfl | rfl | rfl <;> simp [range_map.call.valid]
  ⟨hv, (range_map_invariant _ hv).2.2.1, by decide, by decide, by decide⟩

/-! ## Bit vector: blocks and positions -/

theorem testBit_false_of_lt_two_pow (x e t : Nat) (hx : x < 2 ^ e) (h : e ≤ t) :
    x.testBit t = false :=
  Nat.testBit_lt_two_pow (Nat.lt_of_lt_of_le hx (Nat.pow_le_pow_right (by decide) h))

theorem getD_snoc (l : List Nat) (x j : Nat) :
    (l ++ [x]).getD j 0 = if j < l.length then l.getD j 0 else if j = l.length then x else 0 := by
  simp only [List.getD_eq_getElem?_getD]
  by_cases h1 : j < l.length
  · simp [h1, List.getElem?_append_left h1]
  · by_cases h2 : j = l.length
    · subst h2
      simp
    · have h3 : (l ++ [x]).length ≤ j := by
        simp only [List.length_append, List.length_singleton]
        omega
      simp [h1, h2, List.getElem?_eq_none h3]

theorem getD_map_last (f : Nat → Nat) (l : List Nat) (j : Nat) :
    (bitvector.map_last f l).getD j 0
      = if j + 1 = l.length then f (l.getD j 0) else l.getD j 0 := by
  rcases list_nil_or_snoc l with h | ⟨init, x, h⟩
  · subst h
    simp [bitvector.map_last]
  · subst h
    rw [map_last_concat, getD_snoc, getD_snoc]
    simp only [List.length_append, List.length_singleton]
    by_cases h1 : j < init.length
    · have h2 : ¬ j + 1 = init.length + 1 := by omega
      simp [h1, h2]
    · by_cases h2 : j = init.length
      · simp [h2]
      · have h3 : ¬ j + 1 = init.length + 1 := by omega
        simp [h1, h2, h3]

theorem getD_of_length_le (l : List Nat) (j : Nat) (h : l.length ≤ j) : l.getD j 0 = 0 := by
  simp [List.getD_eq_getElem?_getD, List.getElem?_eq_none h]

theorem getD_lt_of_forall (l : List Nat) (b : Nat) (hb : 0 < b) (h : ∀ x ∈ l, x < b) (j : Nat) :
    l.getD j 0 < b := by
  by_cases hj : j < l.length
  · rw [List.getD_eq_getElem?_getD, List.getElem?_eq_getElem hj]
    exact h _ (List.getElem_mem hj)
  · rw [getD_of_length_le l j (by omega)]
    exact hb

theorem getD_map_range (f : Nat → Nat) (k j : Nat) :
    ((List.range k).map f).getD j 0 = if j < k then f j else 0 := by
  by_cases h : j < k
  · simp [List.getD_eq_getElem?_getD, h]
  · rw [getD_of_length_le _ _ (by simpa using h)]
    simp [h]

theorem getD_set (l : List Nat) (j a m : Nat) :
    (l.set j a).getD m 0 = if m = j ∧ j < l.length then a else l.getD m 0 := by
  simp only [List.getD_eq_getElem?_getD, List.getElem?_set]
  by_cases h1 : j = m
  · subst h1
    by_cases h2 : j < l.length
    · simp [h2]
    · simp [h2, List.getElem?_eq_none (Nat.le_of_not_lt h2)]
  · have h2 : ¬ m = j := fun h => h1 h.symm
    simp [h1, h2]

/-- A bit at or beyond the size of a trimmed vector is zero. -/
theorem bitvector_get_beyond (v : bitvector) (h : v.trimmed) (i : Nat)
    (hi : v.num_bits_ ≤ i) : bitvector.get v i = false := by
  obtain ⟨hlen, _, hlast⟩ := h
  unfold bitvector.get
  by_cases hj : i / block_width < v.bits_.length
  · have hr : v.num_bits_ % block_width ≠ 0 := by
      simp only [block_width] at hj hlen ⊢
      omega
    have hidx : i / block_width = v.bits_.length - 1 := by
      simp only [block_width] at hj hlen ⊢
      omega
    have hx := hlast hr (v.bits_.getD (v.bits_.length - 1) 0) (by
      rw [List.getLast?_eq_getElem?, List.getD_eq_getElem?_getD]
      have : v.bits_.length - 1 < v.bits_.length := by omega
      simp [List.getElem?_eq_getElem this])
    rw [hidx]
    apply testBit_false_of_lt_two_pow _ _ _ hx
    simp only [block_width] at hj hlen ⊢
    omega
  · rw [getD_of_length_le _ _ (by omega)]
    simp

/-- Zeroing the unused bits of a vector that has the blocks its size needs, each
within the block width, gives a trimmed vector. -/
theorem zero_unused_bits_trimmed (v : bitvector)
    (hlen : v.bits_.length = (v.num_bits_ + block_width - 1) / block_width)
    (hblocks : ∀ x ∈ v.bits_, x < 2 ^ block_width) :
    (bitvector.zero_unused_bits v).trimmed := by
  unfold bitvector.zero_unused_bits
  by_cases hr : v.num_bits_ % block_width = 0
  · simp only [hr, if_true]
    exact ⟨hlen, hblocks, fun h => absurd hr h⟩
  · simp only [hr, if_false]
    refine ⟨by simpa [map_last_length] using hlen, ?_, ?_⟩
    · intro x hx
      rcases list_nil_or_snoc v.bits_ with h | ⟨init, y, h⟩
      · rw [h] at hx
        simp [bitvector.map_last] at hx
      · rw [h, map_last_concat] at hx
        simp only [List.mem_append, List.mem_singleton] at hx
        rcases hx with h1 | h1
        · exact hblocks x (by rw [h]; exact List.mem_append_left _ h1)
        · rw [h1]
          exact Nat.lt_of_le_of_lt (Nat.mod_le _ _)
            (hblocks y (by rw [h]; simp))
    · intro _ x hx
      rcases list_nil_or_snoc v.bits_ with h | ⟨init, y, h⟩
      · rw [h] at hx
        simp [bitvector.map_last] at hx
      · rw [h, map_last_concat] at hx
        simp only [getLast?_snoc, Option.some.injEq] at hx
        rw [← hx]
        exact Nat.mod_lt _ (Nat.two_pow_pos _)

/-- Zeroing the unused bits leaves the bits below the size as they are. -/
theorem get_zero_unused_bits (v : bitvector)
    (hlen : v.bits_.length = (v.num_bits_ + block_width - 1) / block_width)
    (i : Nat) (hi : i < v.num_bits_) :
    bitvector.get (bitvector.zero_unused_bits v) i = bitvector.get v i := by
  unfold bitvector.zero_unused_bits
  by_cases hr : v.num_bits_ % block_width = 0
  · simp only [hr, if_true]
  · simp only [hr, if_false]
    unfold bitvector.get
    simp only [getD_map_last]
    by_cases hj : i / block_width + 1 = v.bits_.length
    · simp only [hj, if_true, Nat.testBit_mod_two_pow]
      have : i % block_width < v.num_bits_ % block_width := by
        simp only [block_width] at hj hlen hr ⊢
        omega
      simp [this]
    · simp only [hj, if_false]

/-- The invariant of the BitVector, with the block width written out and the
blocks addressed by index. -/
theorem trimmed_facts (v : bitvector) (h : v.trimmed) :
    v.bits_.length = (v.num_bits_ + 63) / 64
      ∧ (∀ j, v.bits_.getD j 0 < 2 ^ 64)
      ∧ (v.num_bits_ % 64 ≠ 0 → v.bits_.getD (v.num_bits_ / 64) 0 < 2 ^ (v.num_bits_ % 64)) := by
  obtain ⟨hlen, hblocks, hlast⟩ := h
  simp only [block_width] at hlen hblocks hlast
  refine ⟨hlen, fun j => getD_lt_of_forall _ _ (Nat.two_pow_pos _) hblocks j, ?_⟩
  intro hr
  apply hlast hr
  rw [List.getLast?_eq_getElem?, List.getD_eq_getElem?_getD]
  have h1 : v.bits_.length - 1 = v.num_bits_ / 64 := by omega
  have h2 : v.num_bits_ / 64 < v.bits_.length := by omega
  rw [h1]
  simp [List.getElem?_eq_getElem h2]

theorem trimmed_of_facts (v : bitvector)
    (hlen : v.bits_.length = (v.num_bits_ + 63) / 64)
    (hblocks : ∀ x ∈ v.bits_, x < 2 ^ 64)
    (hlast : v.num_bits_ % 64 ≠ 0 →
      v.bits_.getD (v.num_bits_ / 64) 0 < 2 ^ (v.num_bits_ % 64)) : v.trimmed := by
  refine ⟨hlen, hblocks, ?_⟩
  intro hr x hx
  simp only [block_width] at hr ⊢
  have h := hlast hr
  rw [List.getLast?_eq_getElem?] at hx
  have h1 : v.bits_.length - 1 = v.num_bits_ / 64 := by omega
  rw [h1] at hx
  rw [List.getD_eq_getElem?_getD, hx] at h
  exact h

theorem mem_map_last (f : Nat → Nat) (l : List Nat) (x : Nat)
    (h : x ∈ bitvector.map_last f l) : x ∈ l ∨ ∃ y ∈ l, x = f y := by
  rcases list_nil_or_snoc l with h1 | ⟨init, y, h1⟩
  · subst h1
    simp [bitvector.map_last] at h
  · subst h1
    rw [map_last_concat] at h
    simp only [List.mem_append, List.mem_singleton] at h ⊢
    rcases h with h2 | h2
    · exact Or.inl (Or.inl h2)
    · exact Or.inr ⟨y, Or.inr rfl, h2⟩

/-! ## Bit vector: `append(block, nbits)` -/

theorem bitvector_append_size (v : bitvector) (b nbits : Nat) :
    (bitvector.append v b nbits).num_bits_ = v.num_bits_ + nbits := by
  unfold bitvector.append
  simp only
  split <;> rfl

theorem bitvector_append_get_old (v : bitvector) (h : v.trimmed) (b nbits : Nat) (i : Nat)
    (hi : i < v.num_bits_) :
    bitvector.get (bitvector.append v b nbits) i = bitvector.get v i := by
  obtain ⟨hlen, _, _⟩ := trimmed_facts v h
  unfold bitvector.append bitvector.get
  simp only [block_width]
  have hj : i / 64 < v.bits_.length := by omega
  by_cases he : v.num_bits_ % 64 = 0
  · simp only [he, if_true, getD_snoc, hj]
  · simp only [he, if_false]
    rw [List.getD_append _ _ _ _ (by rw [map_last_length]; exact hj), getD_map_last]
    by_cases hl : i / 64 + 1 = v.bits_.length
    · simp only [hl, if_true, Nat.testBit_or, Nat.testBit_mod_two_pow, Nat.testBit_shiftLeft]
      have : ¬ v.num_bits_ % 64 ≤ i % 64 := by omega
      simp [this]
    · simp only [hl, if_false]

theorem bitvector_append_get_new (v : bitvector) (h : v.trimmed) (b nbits : Nat)
    (hn : nbits ≤ 64) (i : Nat) (hi : i < nbits) :
    bitvector.get (bitvector.append v b nbits) (v.num_bits_ + i) = b.testBit i := by
  obtain ⟨hlen, _, hlast⟩ := trimmed_facts v h
  unfold bitvector.append bitvector.get
  simp only [block_width]
  by_cases he : v.num_bits_ % 64 = 0
  · simp only [he, if_true, getD_snoc]
    have h1 : ¬ (v.num_bits_ + i) / 64 < v.bits_.length := by omega
    have h2 : (v.num_bits_ + i) / 64 = v.bits_.length := by omega
    have h3 : (v.num_bits_ + i) % 64 = i := by omega
    simp [h1, h2, h3, Nat.testBit_mod_two_pow, hi]
  · simp only [he, if_false]
    have hx := hlast he
    by_cases hfit : i < 64 - v.num_bits_ % 64
    · have hj : (v.num_bits_ + i) / 64 = v.num_bits_ / 64 := by omega
      have hj2 : v.num_bits_ / 64 + 1 = v.bits_.length := by omega
      have ht : (v.num_bits_ + i) % 64 = v.num_bits_ % 64 + i := by omega
      rw [List.getD_append _ _ _ _ (by rw [map_last_length]; omega), getD_map_last, hj]
      simp only [hj2, if_true, ht, Nat.testBit_or, Nat.testBit_mod_two_pow,
        Nat.testBit_shiftLeft]
      rw [testBit_false_of_lt_two_pow _ _ _ hx (by omega)]
      have h4 : v.num_bits_ % 64 + i < 64 := by omega
      simp [h4, hi]
    · have hext : 64 - v.num_bits_ % 64 < nbits := by omega
      have hj : (v.num_bits_ + i) / 64 = v.bits_.length := by omega
      have ht : (v.num_bits_ + i) % 64 = i - (64 - v.num_bits_ % 64) := by omega
      simp only [hext, if_true]
      rw [getD_snoc, map_last_length]
      simp only [hj, Nat.lt_irrefl, if_false, if_true, ht, Nat.testBit_shiftRight,
        Nat.testBit_mod_two_pow]
      have h5 : 64 - v.num_bits_ % 64 + (i - (64 - v.num_bits_ % 64)) = i := by omega
      simp [h5, hi]

theorem bitvector_append_trimmed (v : bitvector) (h : v.trimmed) (b nbits : Nat)
    (h0 : 0 < nbits) (hn : nbits ≤ 64) : (bitvector.append v b nbits).trimmed := by
  obtain ⟨hlen, hblocks, hlast⟩ := trimmed_facts v h
  have hmem := h.2.1
  simp only [block_width] at hmem
  have hlow : b % 2 ^ nbits < 2 ^ nbits := Nat.mod_lt _ (Nat.two_pow_pos _)
  have hlow64 : b % 2 ^ nbits < 2 ^ 64 :=
    Nat.lt_of_lt_of_le hlow (Nat.pow_le_pow_right (by decide) hn)
  unfold bitvector.append
  simp only [block_width]
  by_cases he : v.num_bits_ % 64 = 0
  · simp only [he, if_true]
    apply trimmed_of_facts
    · simp only [List.length_append, List.length_singleton]
      omega
    · intro x hx
      simp only [List.mem_append, List.mem_singleton] at hx
      rcases hx with h1 | h1
      · exact hmem x h1
      · rw [h1]; exact hlow64
    · intro hr
      simp only at hr ⊢
      have h1 : (v.num_bits_ + nbits) / 64 = v.bits_.length := by omega
      have h2 : (v.num_bits_ + nbits) % 64 = nbits := by omega
      rw [getD_snoc, h1, h2]
      simpa using hlow
  · simp only [he, if_false]
    have hx := hlast he
    apply trimmed_of_facts
    · simp only [List.length_append, map_last_length]
      split
      · simp only [List.length_singleton]
        omega
      · simp only [List.length_nil]
        omega
    · intro x hx
      simp only [List.mem_append] at hx
      rcases hx with h1 | h1
      · rcases mem_map_last _ _ _ h1 with h2 | ⟨y, hy, h2⟩
        · exact hmem x h2
        · rw [h2]
          exact Nat.or_lt_two_pow (hmem y hy) (Nat.mod_lt _ (Nat.two_pow_pos _))
      · split at h1
        · simp only [List.mem_singleton] at h1
          rw [h1, Nat.shiftRight_eq_div_pow]
          exact Nat.lt_of_le_of_lt (Nat.div_le_self _ _) hlow64
        · simp at h1
    · intro hr
      simp only at hr ⊢
      apply Nat.lt_pow_two_of_testBit
      intro t ht
      by_cases hfit : 64 - v.num_bits_ % 64 < nbits
      · simp only [hfit, if_true]
        have h1 : (v.num_bits_ + nbits) / 64 = v.bits_.length := by omega
        have h2 : (v.num_bits_ + nbits) % 64 = nbits - (64 - v.num_bits_ % 64) := by omega
        rw [h2] at ht
        rw [getD_snoc, map_last_length, h1]
        simp only [Nat.lt_irrefl, if_false, if_true, Nat.testBit_shiftRight,
          Nat.testBit_mod_two_pow]
        have : ¬ 64 - v.num_bits_ % 64 + t < nbits := by omega
        simp [this]
      · simp only [hfit, if_false, List.append_nil]
        have h1 : (v.num_bits_ + nbits) / 64 + 1 = v.bits_.length := by omega
        have h2 : (v.num_bits_ + nbits) % 64 = v.num_bits_ % 64 + nbits := by omega
        have h3 : (v.num_bits_ + nbits) / 64 = v.num_bits_ / 64 := by omega
        rw [h2] at ht
        rw [h3] at h1 ⊢
        rw [getD_map_last]
        simp only [h1, if_true, Nat.testBit_or, Nat.testBit_mod_two_pow,
          Nat.testBit_shiftLeft]
        rw [testBit_false_of_lt_two_pow _ _ _ hx (by omega)]
        have : ¬ t - v.num_bits_ % 64 < nbits := by omega
        simp [this]

theorem trimmed_of_get_beyond (v : bitvector)
    (hlen : v.bits_.length = (v.num_bits_ + 63) / 64)
    (hblocks : ∀ x ∈ v.bits_, x < 2 ^ 64)
    (hzero : ∀ i, v.num_bits_ ≤ i → i < 64 * v.bits_.length → bitvector.get v i = false) :
    v.trimmed := by
  apply trimmed_of_facts v hlen hblocks
  intro hr
  apply Nat.lt_pow_two_of_testBit
  intro t ht
  by_cases h64 : t < 64
  · have h := hzero (64 * (v.num_bits_ / 64) + t) (by omega) (by omega)
    unfold bitvector.get at h
    simp only [block_width] at h
    have h1 : (64 * (v.num_bits_ / 64) + t) / 64 = v.num_bits_ / 64 := by omega
    have h2 : (64 * (v.num_bits_ / 64) + t) % 64 = t := by omega
    rw [h1, h2] at h
    exact h
  · exact testBit_false_of_lt_two_pow _ 64 t
      (getD_lt_of_forall _ _ (Nat.two_pow_pos _) hblocks _) (by omega)

/-! ## Bit vector: shifts -/

theorem bitvector_shift_left_size (v : bitvector) (n : Nat) :
    (bitvector.shift_left v n).num_bits_ = v.num_bits_ := by
  unfold bitvector.shift_left bitvector.zero_unused_bits
  simp only
  split <;> rfl

theorem bitvector_shift_left_trimmed (v : bitvector) (h : v.trimmed) (n : Nat) :
    (bitvector.shift_left v n).trimmed := by
  obtain ⟨hlen, hblocks, _⟩ := trimmed_facts v h
  unfold bitvector.shift_left
  apply zero_unused_bits_trimmed
  · simp only [List.length_map, List.length_range, block_width]
    omega
  · intro x hx
    simp only [List.mem_map, List.mem_range, block_width] at hx ⊢
    obtain ⟨j, _, hjx⟩ := hx
    rw [← hjx]
    split
    · exact Nat.two_pow_pos _
    · split
      · exact hblocks _
      · apply Nat.or_lt_two_pow (Nat.mod_lt _ (Nat.two_pow_pos _))
        split
        · exact Nat.two_pow_pos _
        · rw [Nat.shiftRight_eq_div_pow]
          exact Nat.lt_of_le_of_lt (Nat.div_le_self _ _) (hblocks _)

theorem bitvector_shift_left_get (v : bitvector) (h : v.trimmed) (n i : Nat)
    (hi : i < v.num_bits_) :
    bitvector.get (bitvector.shift_left v n) i
      = (decide (n ≤ i) && bitvector.get v (i - n)) := by
  obtain ⟨hlen, hblocks, _⟩ := trimmed_facts v h
  unfold bitvector.shift_left
  simp only
  refine Eq.trans (get_zero_unused_bits _ ?_ i hi) ?_
  · simp only [List.length_map, List.length_range, block_width]
    omega
  unfold bitvector.get
  simp only [block_width]
  have hJ : i / 64 < v.bits_.length := by omega
  rw [getD_map_range]
  simp only [hJ, if_true]
  by_cases h1 : i / 64 < n / 64
  · have h2 : ¬ n ≤ i := by omega
    simp [h1, h2]
  · simp only [h1, if_false]
    by_cases hr : n % 64 = 0
    · have h2 : n ≤ i := by omega
      have h3 : (i - n) / 64 = i / 64 - n / 64 := by omega
      have h4 : (i - n) % 64 = i % 64 := by omega
      simp [hr, h2, h3, h4]
    · simp only [hr, if_false, Nat.testBit_or, Nat.testBit_mod_two_pow,
        Nat.testBit_shiftLeft]
      have ht : i % 64 < 64 := Nat.mod_lt _ (by decide)
      by_cases h5 : n % 64 ≤ i % 64
      · have h2 : n ≤ i := by omega
        have h3 : (i - n) / 64 = i / 64 - n / 64 := by omega
        have h4 : (i - n) % 64 = i % 64 - n % 64 := by omega
        have h6 : (if i / 64 - n / 64 = 0 then 0
            else v.bits_.getD (i / 64 - n / 64 - 1) 0 >>> (64 - n % 64)).testBit (i % 64)
              = false := by
          split
          · simp
          · rw [Nat.testBit_shiftRight]
            exact testBit_false_of_lt_two_pow _ 64 _ (hblocks _) (by omega)
        rw [h6]
        simp [ht, h5, h2, h3, h4]
      · by_cases h7 : i / 64 - n / 64 = 0
        · have h2 : ¬ n ≤ i := by omega
          simp [h5, h7, h2]
        · have h2 : n ≤ i := by omega
          have h3 : (i - n) / 64 = i / 64 - n / 64 - 1 := by omega
          have h4 : (i - n) % 64 = 64 - n % 64 + i % 64 := by omega
          simp [h5, h7, h2, h3, h4, Nat.testBit_shiftRight]

theorem bitvector_shift_right_get (v : bitvector) (h : v.trimmed) (n i : Nat)
    (hi : i < 64 * v.bits_.length) :
    bitvector.get (bitvector.shift_right v n) i = bitvector.get v (i + n) := by
  obtain ⟨hlen, hblocks, _⟩ := trimmed_facts v h
  unfold bitvector.shift_right bitvector.get
  simp only [block_width]
  have hJ : i / 64 < v.bits_.length := by omega
  rw [getD_map_range]
  simp only [hJ, if_true]
  by_cases hr : n % 64 = 0
  · have h3 : (i + n) / 64 = i / 64 + n / 64 := by omega
    have h4 : (i + n) % 64 = i % 64 := by omega
    simp [hr, h3, h4]
  · simp only [hr, if_false, Nat.testBit_or, Nat.testBit_mod_two_pow,
      Nat.testBit_shiftLeft, Nat.testBit_shiftRight]
    have ht : i % 64 < 64 := Nat.mod_lt _ (by decide)
    by_cases h5 : i % 64 + n % 64 < 64
    · have h3 : (i + n) / 64 = i / 64 + n / 64 := by omega
      have h4 : (i + n) % 64 = n % 64 + i % 64 := by omega
      have h6 : ¬ 64 - n % 64 ≤ i % 64 := by omega
      simp [h3, h4, h6]
    · have h3 : (i + n) / 64 = i / 64 + n / 64 + 1 := by omega
      have h4 : (i + n) % 64 = i % 64 - (64 - n % 64) := by omega
      have h6 : 64 - n % 64 ≤ i % 64 := by omega
      rw [testBit_false_of_lt_two_pow _ 64 _ (hblocks _) (by omega)]
      simp [ht, h3, h4, h6]

theorem bitvector_shift_right_trimmed (v : bitvector) (h : v.trimmed) (n : Nat) :
    (bitvector.shift_right v n).trimmed := by
  obtain ⟨hlen, hblocks, _⟩ := trimmed_facts v h
  have hlen2 : (bitvector.shift_right v n).bits_.length = v.bits_.length := by
    simp [bitvector.shift_right]
  apply trimmed_of_get_beyond
  · rw [hlen2]
    exact hlen
  · intro x hx
    simp only [bitvector.shift_right, List.mem_map, List.mem_range, block_width] at hx
    obtain ⟨j, _, hjx⟩ := hx
    rw [← hjx]
    split
    · exact hblocks _
    · apply Nat.or_lt_two_pow _ (Nat.mod_lt _ (Nat.two_pow_pos _))
      rw [Nat.shiftRight_eq_div_pow]
      exact Nat.lt_of_le_of_lt (Nat.div_le_self _ _) (hblocks _)
  · intro i hi1 hi2
    rw [hlen2] at hi2
    rw [bitvector_shift_right_get v h n i hi2]
    exact bitvector_get_beyond v h (i + n) (by
      have : (bitvector.shift_right v n).num_bits_ = v.num_bits_ := rfl
      omega)

/-! ## Bit vector: single bits -/

theorem bitvector_flip_bit_get (v : bitvector) (i j : Nat)
    (hi : i / 64 < v.bits_.length) :
    bitvector.get (bitvector.flip_bit v i) j
      = if j = i then !bitvector.get v j else bitvector.get v j := by
  unfold bitvector.flip_bit bitvector.get
  simp only [block_width, getD_set]
  by_cases h1 : j / 64 = i / 64
  · simp only [h1, hi, and_self, if_true, Nat.testBit_xor, Nat.testBit_two_pow]
    by_cases h2 : j = i
    · subst h2
      simp
    · have h3 : ¬ i % 64 = j % 64 := by omega
      simp [h2, h3]
  · have h2 : ¬ j = i := fun h => h1 (by rw [h])
    simp [h1, h2]

theorem testBit_block_not_two_pow (t m : Nat) (ht : t < 64) :
    (bitvector.block_not (2 ^ t)).testBit m = (decide (m < 64) && !decide (t = m)) := by
  have hm : 2 ^ t < 2 ^ 64 := Nat.pow_lt_pow_right (by decide) ht
  have hnot : bitvector.block_not (2 ^ t) = 2 ^ 64 - (2 ^ t + 1) := by
    unfold bitvector.block_not
    simp only [block_width]
    omega
  rw [hnot, Nat.testBit_two_pow_sub_succ hm, Nat.testBit_two_pow]

theorem bitvector_assign_get (v : bitvector) (i j : Nat) (bit : Bool)
    (hi : i / 64 < v.bits_.length) :
    bitvector.get (bitvector.assign v i bit) j
      = if j = i then bit else bitvector.get v j := by
  unfold bitvector.assign bitvector.get
  simp only [block_width, getD_set]
  have hi64 : i % 64 < 64 := Nat.mod_lt _ (by decide)
  by_cases h1 : j / 64 = i / 64
  · simp only [h1, hi, and_self, if_true]
    have ht : j % 64 < 64 := Nat.mod_lt _ (by decide)
    by_cases h2 : j = i
    · subst h2
      cases bit
      · simp [Nat.testBit_and, testBit_block_not_two_pow _ _ hi64]
      · simp [Nat.testBit_or, Nat.testBit_two_pow]
    · have h3 : ¬ i % 64 = j % 64 := by omega
      cases bit
      · simp [h2, h3, ht, Nat.testBit_and, testBit_block_not_two_pow _ _ hi64]
      · simp [h2, h3, Nat.testBit_or, Nat.testBit_two_pow]
  · have h2 : ¬ j = i := fun h => h1 (by rw [h])
    simp [h1, h2]

theorem bitvector_flip_bit_trimmed (v : bitvector) (h : v.trimmed) (i : Nat)
    (hi : i < v.num_bits_) : (bitvector.flip_bit v i).trimmed := by
  obtain ⟨hlen, hblocks, _⟩ := trimmed_facts v h
  have hmem := h.2.1
  simp only [block_width] at hmem
  have hJ : i / 64 < v.bits_.length := by omega
  have hlen2 : (bitvector.flip_bit v i).bits_.length = v.bits_.length := by
    simp [bitvector.flip_bit]
  apply trimmed_of_get_beyond
  · rw [hlen2]
    exact hlen
  · intro x hx
    simp only [bitvector.flip_bit, block_width] at hx
    rcases List.mem_or_eq_of_mem_set hx with h1 | h1
    · exact hmem x h1
    · rw [h1]
      exact Nat.xor_lt_two_pow (hblocks _)
        (Nat.pow_lt_pow_right (by decide) (Nat.mod_lt _ (by decide)))
  · intro j hj1 _
    have hs : (bitvector.flip_bit v i).num_bits_ = v.num_bits_ := rfl
    have hne : ¬ j = i := by omega
    rw [bitvector_flip_bit_get v i j hJ]
    simp only [hne, if_false]
    exact bitvector_get_beyond v h j (by omega)

theorem bitvector_assign_trimmed (v : bitvector) (h : v.trimmed) (i : Nat) (bit : Bool)
    (hi : i < v.num_bits_) : (bitvector.assign v i bit).trimmed := by
  obtain ⟨hlen, hblocks, _⟩ := trimmed_facts v h
  have hmem := h.2.1
  simp only [block_width] at hmem
  have hJ : i / 64 < v.bits_.length := by omega
  have hlen2 : (bitvector.assign v i bit).bits_.length = v.bits_.length := by
    simp [bitvector.assign]
  apply trimmed_of_get_beyond
  · rw [hlen2]
    exact hlen
  · intro x hx
    simp only [bitvector.assign, block_width] at hx
    rcases List.mem_or_eq_of_mem_set hx with h1 | h1
    · exact hmem x h1
    · rw [h1]
      split
      · exact Nat.or_lt_two_pow (hblocks _)
          (Nat.pow_lt_pow_right (by decide) (Nat.mod_lt _ (by decide)))
      · exact Nat.lt_of_le_of_lt Nat.and_le_left (hblocks _)
  · intro j hj1 _
    have hs : (bitvector.assign v i bit).num_bits_ = v.num_bits_ := rfl
    have hne : ¬ j = i := by omega
    rw [bitvector_assign_get v i j bit hJ]
    simp only [hne, if_false]
    exact bitvector_get_beyond v h j (by omega)

/-! ## Bit vector: the invariant under every operation -/

theorem bitvector_push_back_trimmed (v : bitvector) (h : v.trimmed) (bit : Bool) :
    (bitvector.push_back v bit).trimmed :=
  bitvector_append_trimmed v h _ 1 (by decide) (by decide)

theorem bitvector_append_n_trimmed (v : bitvector) (h : v.trimmed) (bit : Bool) :
    ∀ n, (bitvector.append_n v n bit).trimmed
  | 0 => h
  | n + 1 => bitvector_push_back_trimmed _ (bitvector_append_n_trimmed v h bit n) bit

theorem bitvector_init_trimmed : bitvector.init.trimmed := by
  refine ⟨rfl, ?_, ?_⟩
  · intro x hx
    simp [bitvector.init] at hx
  · intro hr
    exact absurd rfl hr

theorem bitvector_apply_trimmed (v : bitvector) (h : v.trimmed) (c : bitvector.call)
    (hc : c.valid v = true) : (bitvector.apply v c).trimmed := by
  cases c with
  | push_back bit => exact bitvector_push_back_trimmed v h bit
  | append block nbits =>
    simp only [bitvector.call.valid, decide_eq_true_eq, block_width] at hc
    exact bitvector_append_trimmed v h block nbits hc.1 hc.2
  | append_n n bit => exact bitvector_append_n_trimmed v h bit n
  | flip_bit i =>
    simp only [bitvector.call.valid, decide_eq_true_eq] at hc
    exact bitvector_flip_bit_trimmed v h i hc
  | assign i bit =>
    simp only [bitvector.call.valid, decide_eq_true_eq] at hc
    exact bitvector_assign_trimmed v h i bit hc
  | flip => exact bitvector_flip_trimmed v h
  | shift_left n => exact bitvector_shift_left_trimmed v h n
  | shift_right n => exact bitvector_shift_right_trimmed v h n

theorem bitvector_fold_trimmed (calls : List bitvector.call) :
    ∀ v : bitvector, v.trimmed → bitvector.valid_run v calls = true →
      (calls.foldl bitvector.apply v).trimmed := by
  induction calls with
  | nil => intro v h _; exact h
  | cons c rest ih =>
    intro v h hv
    simp only [bitvector.valid_run, Bool.and_eq_true] at hv
    exact ih _ (bitvector_apply_trimmed v h c hv.1) hv.2

theorem bitvector_run_trimmed (calls : List bitvector.call)
    (hv : bitvector.valid_run bitvector.init calls = true) : (bitvector.run calls).trimmed :=
  bitvector_fold_trimmed calls bitvector.init bitvector_init_trimmed hv

/-! ## Bit vector: counting -/

theorem popcount_bits_eq_countP :
    ∀ (w x : Nat), bitvector.popcount_bits w x = (List.range w).countP (fun t => x.testBit t)
  | 0, _ => rfl
  | w + 1, x => by
    rw [bitvector.popcount_bits, popcount_bits_eq_countP w (x / 2), List.range_succ_eq_map,
      List.countP_cons, List.countP_map]
    have h1 : ((fun t => x.testBit t) ∘ Nat.succ) = (fun t => (x / 2).testBit t) := by
      funext t
      simp [Nat.testBit_succ]
    rw [h1, Nat.testBit_zero]
    rcases Nat.mod_two_eq_zero_or_one x with h | h <;> (simp [h]; try omega)

theorem blocks_count_eq_countP :
    ∀ bs : List Nat, (bs.map bitvector.popcount).sum
      = (List.range (64 * bs.length)).countP (fun i => (bs.getD (i / 64) 0).testBit (i % 64))
  | [] => rfl
  | x :: rest => by
    have e : 64 * (x :: rest).length = 64 + 64 * rest.length := by
      simp only [List.length_cons]
      omega
    have hA : List.countP (fun i => ((x :: rest).getD (i / 64) 0).testBit (i % 64))
        (List.range 64) = bitvector.popcount x := by
      unfold bitvector.popcount
      rw [popcount_bits_eq_countP]
      simp only [block_width]
      apply List.countP_congr
      intro i hi
      have hi2 : i < 64 := List.mem_range.mp hi
      have h1 : i / 64 = 0 := by omega
      have h2 : i % 64 = i := by omega
      simp [h1, h2]
    have hB : List.countP ((fun i => ((x :: rest).getD (i / 64) 0).testBit (i % 64))
          ∘ fun j => 64 + j) (List.range (64 * rest.length))
        = List.countP (fun i => (rest.getD (i / 64) 0).testBit (i % 64))
          (List.range (64 * rest.length)) := by
      apply List.countP_congr
      intro i _
      have h1 : (64 + i) / 64 = i / 64 + 1 := by omega
      have h2 : (64 + i) % 64 = i % 64 := by omega
      simp [h1, h2]
    rw [e, List.range_add, List.countP_append, List.countP_map, List.map_cons, List.sum_cons,
      blocks_count_eq_countP rest, hA, hB]

/-- The population count of a trimmed vector is the number of positions below
its size holding a set bit. -/
theorem bitvector_count_eq_countP (v : bitvector) (h : v.trimmed) :
    bitvector.count v = (List.range v.num_bits_).countP (fun i => bitvector.get v i) := by
  obtain ⟨hlen, _, _⟩ := trimmed_facts v h
  unfold bitvector.count
  rw [blocks_count_eq_countP]
  have e : 64 * v.bits_.length = v.num_bits_ + (64 * v.bits_.length - v.num_bits_) := by omega
  rw [e, List.range_add, List.countP_append]
  have h0 : List.countP (fun i => (v.bits_.getD (i / 64) 0).testBit (i % 64))
      (List.map (fun x => v.num_bits_ + x)
        (List.range (64 * v.bits_.length - v.num_bits_))) = 0 := by
    rw [List.countP_eq_zero]
    intro i hi
    obtain ⟨j, _, rfl⟩ := List.mem_map.mp hi
    have := bitvector_get_beyond v h (v.num_bits_ + j) (by omega)
    unfold bitvector.get at this
    simp only [block_width] at this
    simpa using this
  rw [h0]
  rfl

theorem bitvector_flip_get (v : bitvector) (h : v.trimmed) (i : Nat)
    (hi : i < v.num_bits_) :
    bitvector.get (bitvector.flip v) i = !bitvector.get v i := by
  obtain ⟨hlen, hblocks, _⟩ := trimmed_facts v h
  unfold bitvector.flip
  refine Eq.trans (get_zero_unused_bits _ ?_ i hi) ?_
  · simp only [List.length_map, block_width]
    omega
  unfold bitvector.get
  simp only [block_width]
  have hJ : i / 64 < v.bits_.length := by omega
  have ht : i % 64 < 64 := Nat.mod_lt _ (by decide)
  have e : bitvector.block_not (v.bits_.getD (i / 64) 0)
      = 2 ^ 64 - (v.bits_.getD (i / 64) 0 + 1) := by
    unfold bitvector.block_not
    simp only [block_width]
    omega
  have hget : (List.map bitvector.block_not v.bits_).getD (i / 64) 0
      = bitvector.block_not (v.bits_.getD (i / 64) 0) := by
    simp [List.getD_eq_getElem?_getD, List.getElem?_eq_getElem hJ]
  rw [hget, e, Nat.testBit_two_pow_sub_succ (hblocks _)]
  simp [ht]

theorem bitvector_count_flip (v : bitvector) (h : v.trimmed) :
    bitvector.count (bitvector.flip v) = v.num_bits_ - bitvector.count v := by
  have hs : (bitvector.flip v).num_bits_ = v.num_bits_ := by
    unfold bitvector.flip bitvector.zero_unused_bits
    simp only
    split <;> rfl
  rw [bitvector_count_eq_countP _ (bitvector_flip_trimmed v h), bitvector_count_eq_countP v h, hs]
  have h1 : List.countP (fun i => bitvector.get (bitvector.flip v) i) (List.range v.num_bits_)
      = List.countP (fun i => !bitvector.get v i) (List.range v.num_bits_) := by
    apply List.countP_congr
    intro i hi
    rw [bitvector_flip_get v h i (List.mem_range.mp hi)]
  have h2 := @List.length_eq_countP_add_countP _ (fun i => bitvector.get v i)
    (List.range v.num_bits_)
  rw [List.length_range] at h2
  have h3 : List.countP (fun a => decide ¬ (bitvector.get v a = true)) (List.range v.num_bits_)
      = List.countP (fun i => !bitvector.get v i) (List.range v.num_bits_) := by
    apply List.countP_congr
    intro i _
    cases bitvector.get v i <;> simp
  rw [h1]
  omega

/-! ## Bit vector: searching and iterating -/

theorem find_backward_none (v : bitvector) :
    ∀ i, (∀ j, j < i → bitvector.get v j = false) → bitvector.find_backward v i = bitvector.npos
  | 0, _ => rfl
  | i + 1, h => by
    rw [bitvector.find_backward, h i (Nat.lt_succ_self i)]
    simp only [Bool.false_eq_true, if_false]
    exact find_backward_none v i (fun j hj => h j (Nat.lt_succ_of_lt hj))

theorem find_backward_some (v : bitvector) :
    ∀ i, (∃ j, j < i ∧ bitvector.get v j = true) →
      bitvector.find_backward v i < i
        ∧ bitvector.get v (bitvector.find_backward v i) = true
        ∧ ∀ j, j < i → bitvector.get v j = true → j ≤ bitvector.find_backward v i
  | 0, h => by
    obtain ⟨j, hj, _⟩ := h
    exact absurd hj (Nat.not_lt_zero j)
  | i + 1, h => by
    rw [bitvector.find_backward]
    by_cases hi : bitvector.get v i = true
    · rw [if_pos hi]
      exact ⟨Nat.lt_succ_self i, hi, fun j hj _ => Nat.le_of_lt_succ hj⟩
    · rw [if_neg hi]
      obtain ⟨j, hj, hjv⟩ := h
      have hji : j < i := by
        rcases Nat.lt_or_ge j i with h1 | h1
        · exact h1
        · have : j = i := by omega
          rw [this] at hjv
          exact absurd hjv hi
      obtain ⟨h1, h2, h3⟩ := find_backward_some v i ⟨j, hji, hjv⟩
      refine ⟨Nat.lt_succ_of_lt h1, h2, ?_⟩
      intro k hk hkv
      have hki : k < i := by
        rcases Nat.lt_or_ge k i with h4 | h4
        · exact h4
        · have : k = i := by omega
          rw [this] at hkv
          exact absurd hkv hi
      exact h3 k hki hkv

theorem find_backward_npos_iff (v : bitvector) (i : Nat) (hi : i ≤ bitvector.npos) :
    bitvector.find_backward v i = bitvector.npos
      ↔ ¬ ∃ j, j < i ∧ bitvector.get v j = true := by
  constructor
  · intro h hex
    have := (find_backward_some v i hex).1
    omega
  · intro h
    apply find_backward_none
    intro j hj
    cases hv : bitvector.get v j
    · rfl
    · exact absurd ⟨j, hj, hv⟩ h

theorem ones_visit_forward (v : bitvector) (hsize : v.num_bits_ ≤ bitvector.npos) :
    ∀ (m i fuel : Nat), i + m = v.num_bits_ → m < fuel →
      bitvector.ones_iterator.visit bitvector.ones_iterator.increment fuel
          { bits := v, position := bitvector.find_forward v m i }
        = ((List.range' i m).filter (fun j => bitvector.get v j),
            bitvector.ones_iterator.end_ v)
  | 0, i, fuel, _, hf => by
    obtain ⟨f, rfl⟩ : ∃ f, fuel = f + 1 := ⟨fuel - 1, by omega⟩
    simp [bitvector.find_forward, bitvector.ones_iterator.visit, bitvector.ones_iterator.end_]
  | m + 1, i, fuel, hm, hf => by
    obtain ⟨f, rfl⟩ : ∃ f, fuel = f + 1 := ⟨fuel - 1, by omega⟩
    rw [bitvector.find_forward]
    by_cases hi : bitvector.get v i = true
    · have hne : ¬ i = bitvector.npos := by omega
      have hnext : bitvector.ones_iterator.increment { bits := v, position := i }
          = { bits := v, position := bitvector.find_forward v m (i + 1) } := by
        simp only [bitvector.ones_iterator.increment, bitvector.find_next]
        have : v.num_bits_ - (i + 1) = m := by omega
        rw [this]
      rw [if_pos hi]
      simp only [bitvector.ones_iterator.visit, hne, if_false, hnext]
      rw [ones_visit_forward v hsize m (i + 1) f (by omega) (by omega)]
      simp [List.range'_succ, hi]
    · rw [if_neg hi]
      rw [ones_visit_forward v hsize m (i + 1) (f + 1) (by omega) (by omega)]
      simp [List.range'_succ, hi]

theorem bitvector_ones_eq (v : bitvector) (hsize : v.num_bits_ ≤ bitvector.npos) :
    bitvector.ones v
      = ((List.range v.num_bits_).filter (fun j => bitvector.get v j),
          bitvector.ones_iterator.end_ v) := by
  unfold bitvector.ones bitvector.ones_iterator.begin bitvector.find_first
  rw [ones_visit_forward v hsize v.num_bits_ 0 (v.num_bits_ + 1) (by omega) (by omega),
    List.range_eq_range']

theorem set_positions_ascending (v : bitvector) :
    ((List.range v.num_bits_).filter (fun j => bitvector.get v j)).Pairwise (fun a b => a < b) :=
  List.Pairwise.sublist (List.filter_sublist _) (List.pairwise_lt_range _)

theorem set_positions_length (v : bitvector) (h : v.trimmed) :
    ((List.range v.num_bits_).filter (fun j => bitvector.get v j)).length = bitvector.count v := by
  rw [bitvector_count_eq_countP v h, List.countP_eq_length_filter]

/-! ## Bit vector: the claims -/

/-- C26: for every BitVector `v` of size `s` that satisfies the invariant, every
block value `b` and every `nbits` with `0 < nbits ≤ block_width`, after
`v.append(b, nbits)` the size is `s + nbits`, every bit at a position below `s`
is unchanged, and the bit at position `s + i` is bit `i` of `b`, least
significant bit first, for all `i < nbits` (whether or not the appended bits
straddle a block boundary); the result satisfies the invariant again. -/
theorem bitvector_append_block (v : bitvector) (h : v.trimmed) (b nbits : Nat)
    (h0 : 0 < nbits) (hn : nbits ≤ block_width) :
    (bitvector.append v b nbits).size = v.size + nbits
      ∧ (∀ i, i < v.size → bitvector.get (bitvector.append v b nbits) i = bitvector.get v i)
      ∧ (∀ i, i < nbits →
          bitvector.get (bitvector.append v b nbits) (v.size + i) = b.testBit i)
      ∧ (bitvector.append v b nbits).trimmed :=
  ⟨bitvector_append_size v b nbits,
    fun i hi => bitvector_append_get_old v h b nbits i hi,
    fun i hi => bitvector_append_get_new v h b nbits hn i hi,
    bitvector_append_trimmed v h b nbits h0 hn⟩

/-- C26, at a concrete input: sixteen bits appended to a vector of sixty bits
straddle the boundary between the first and the second block. -/
theorem bitvector_append_block_witness :
    (bitvector.run [bitvector.call.append 0xfffffffffffffff 60]).trimmed
      ∧ 0 < 16 ∧ 16 ≤ block_width
      ∧ (bitvector.append (bitvector.run [bitvector.call.append 0xfffffffffffffff 60])
          0xf00f 16).size
          = (bitvector.run [bitvector.call.append 0xfffffffffffffff 60]).size + 16
      ∧ (bitvector.append (bitvector.run [bitvector.call.append 0xfffffffffffffff 60])
          0xf00f 16).blocks = 2
      ∧ (∀ i, i < 16 →
          bitvector.get (bitvector.append
              (bitvector.run [bitvector.call.append 0xfffffffffffffff 60]) 0xf00f 16)
              ((bitvector.run [bitvector.call.append 0xfffffffffffffff 60]).size + i)
            = Nat.testBit 0xf00f i) :=
  ⟨bitvector_run_trimmed [bitvector.call.append 0xfffffffffffffff 60] (by decide),
    by decide, by decide,
    (bitvector_append_block (bitvector.run [bitvector.call.append 0xfffffffffffffff 60])
      (bitvector_run_trimmed [bitvector.call.append 0xfffffffffffffff 60] (by decide))
      0xf00f 16 (by decide) (by decide)).1,
    by decide,
    (bitvector_append_block (bitvector.run [bitvector.call.append 0xfffffffffffffff 60])
      (bitvector_run_trimmed [bitvector.call.append 0xfffffffffffffff 60] (by decide))
      0xf00f 16 (by decide) (by decide)).2.2.1⟩

/-- C27: for every BitVector `v` of size `s` that satisfies the invariant and
every shift count `n`, `v << n` has size `s` and its bit `i` is set iff `i ≥ n`
and bit `i - n` of `v` is set; `v >> n` has size `s` and its bit `i` is set iff
`i + n < s` and bit `i + n` of `v` is set; with `n ≥ s` both are all zeros. -/
theorem bitvector_shift_semantics (v : bitvector) (h : v.trimmed) (n : Nat) :
    (bitvector.shift_left v n).size = v.size
      ∧ (∀ i, i < v.size →
          (bitvector.get (bitvector.shift_left v n) i = true
            ↔ n ≤ i ∧ bitvector.get v (i - n) = true))
      ∧ (bitvector.shift_right v n).size = v.size
      ∧ (∀ i, i < v.size →
          (bitvector.get (bitvector.shift_right v n) i = true
            ↔ i + n < v.size ∧ bitvector.get v (i + n) = true))
      ∧ (v.size ≤ n → ∀ i, i < v.size →
          bitvector.get (bitvector.shift_left v n) i = false
            ∧ bitvector.get (bitvector.shift_right v n) i = false) := by
  have hlen := (trimmed_facts v h).1
  have hright : ∀ i, i < v.size →
      bitvector.get (bitvector.shift_right v n) i = bitvector.get v (i + n) := by
    intro i hi
    have hi2 : i < v.num_bits_ := hi
    exact bitvector_shift_right_get v h n i (by omega)
  refine ⟨bitvector_shift_left_size v n, ?_, rfl, ?_, ?_⟩
  · intro i hi
    rw [bitvector_shift_left_get v h n i hi]
    simp
  · intro i hi
    rw [hright i hi]
    constructor
    · intro hv
      refine ⟨?_, hv⟩
      rcases Nat.lt_or_ge (i + n) v.size with h1 | h1
      · exact h1
      · rw [bitvector_get_beyond v h (i + n) h1] at hv
        exact absurd hv (by decide)
    · intro hv
      exact hv.2
  · intro hn i hi
    have hi2 : i < v.num_bits_ := hi
    have hn2 : v.num_bits_ ≤ n := hn
    refine ⟨?_, ?_⟩
    · rw [bitvector_shift_left_get v h n i hi]
      have : ¬ n ≤ i := by omega
      simp [this]
    · rw [hright i hi]
      exact bitvector_get_beyond v h (i + n) (by omega)

/-- C27, at a concrete input: the vector `001000` of the unit test, shifted by
one, by three and by four places. -/
theorem bitvector_shift_semantics_witness :
    (bitvector.run [bitvector.call.append_n 6 false, bitvector.call.flip_bit 3]).trimmed
      ∧ (∀ i, i < (bitvector.run
            [bitvector.call.append_n 6 false, bitvector.call.flip_bit 3]).size →
          (bitvector.get (bitvector.shift_left
              (bitvector.run [bitvector.call.append_n 6 false, bitvector.call.flip_bit 3]) 1) i
              = true
            ↔ 1 ≤ i ∧ bitvector.get
              (bitvector.run [bitvector.call.append_n 6 false, bitvector.call.flip_bit 3])
              (i - 1) = true))
      ∧ bitvector.get (bitvector.shift_left
          (bitvector.run [bitvector.call.append_n 6 false, bitvector.call.flip_bit 3]) 1) 4
          = true
      ∧ bitvector.get (bitvector.shift_right
          (bitvector.run [bitvector.call.append_n 6 false, bitvector.call.flip_bit 3]) 3) 0
          = true
      ∧ bitvector.shift_right
          (bitvector.run [bitvector.call.append_n 6 false, bitvector.call.flip_bit 3]) 4
          = bitvector.run [bitvector.call.append_n 6 false] :=
  ⟨bitvector_run_trimmed [bitvector.call.append_n 6 false, bitvector.call.flip_bit 3]
      (by decide),
    (bitvector_shift_semantics
      (bitvector.run [bitvector.call.append_n 6 false, bitvector.call.flip_bit 3])
      (bitvector_run_trimmed [bitvector.call.append_n 6 false, bitvector.call.flip_bit 3]
        (by decide)) 1).2.1,
    by decide, by decide, by decide⟩

/-- C28: for every BitVector `v` whose size the size type can hold, `find_last()`
is the greatest position holding a set bit and `find_prev(i)`, for `i` up to the
size, is the greatest position strictly less than `i` holding a set bit, whether
or not bit `i` is set; each is the sentinel `npos` exactly when there is no such
set bit, and `npos` is no valid position.  The `find_last_impl` and
`find_prev_impl` of the polymorphic bitstream over this vector give the same. -/
theorem bitvector_backward_search (v : bitvector) (hsize : v.size ≤ bitvector.npos)
    (i : Nat) (hi : i ≤ v.size) :
    ((∃ j, j < v.size ∧ bitvector.get v j = true) →
        bitvector.find_last v < v.size
          ∧ bitvector.get v (bitvector.find_last v) = true
          ∧ ∀ j, j < v.size → bitvector.get v j = true → j ≤ bitvector.find_last v)
      ∧ (bitvector.find_last v = bitvector.npos
          ↔ ¬ ∃ j, j < v.size ∧ bitvector.get v j = true)
      ∧ ((∃ j, j < i ∧ bitvector.get v j = true) →
          bitvector.find_prev v i < i
            ∧ bitvector.get v (bitvector.find_prev v i) = true
            ∧ ∀ j, j < i → bitvector.get v j = true → j ≤ bitvector.find_prev v i)
      ∧ (bitvector.find_prev v i = bitvector.npos
          ↔ ¬ ∃ j, j < i ∧ bitvector.get v j = true)
      ∧ (∀ j, j < v.size → j ≠ bitvector.npos)
      ∧ bitstream_model.find_last_impl (fun _ : Unit => bitvector_search)
          { tag := (), bitstream_ := v } = bitvector.find_last v
      ∧ bitstream_model.find_prev_impl (fun _ : Unit => bitvector_search)
          { tag := (), bitstream_ := v } i = bitvector.find_prev v i := by
  have hs : v.size = v.num_bits_ := rfl
  refine ⟨find_backward_some v v.num_bits_, find_backward_npos_iff v v.num_bits_ hsize,
    find_backward_some v i, find_backward_npos_iff v i (by omega), ?_, rfl, rfl⟩
  intro j hj
  omega

/-- C28, at a concrete input: the 128-bit vector of the unit test, searched
backward from its last set bit. -/
theorem bitvector_backward_search_witness :
    (bitvector.run [bitvector.call.append 0xffff 64,
        bitvector.call.append 0x30abffff7000ffff 64]).size ≤ bitvector.npos
      ∧ 125 ≤ (bitvector.run [bitvector.call.append 0xffff 64,
        bitvector.call.append 0x30abffff7000ffff 64]).size
      ∧ (bitvector.find_prev (bitvector.run [bitvector.call.append 0xffff 64,
          bitvector.call.append 0x30abffff7000ffff 64]) 125 = bitvector.npos
        ↔ ¬ ∃ j, j < 125 ∧ bitvector.get (bitvector.run [bitvector.call.append 0xffff 64,
          bitvector.call.append 0x30abffff7000ffff 64]) j = true)
      ∧ bitvector.find_last (bitvector.run [bitvector.call.append 0xffff 64,
          bitvector.call.append 0x30abffff7000ffff 64]) = 125
      ∧ bitvector.find_prev (bitvector.run [bitvector.call.append 0xffff 64,
          bitvector.call.append 0x30abffff7000ffff 64]) 125 = 124
      ∧ bitvector.find_prev (bitvector.run [bitvector.call.append 0xffff 64,
          bitvector.call.append 0x30abffff7000ffff 64]) 124 = 119 :=
  ⟨by decide, by decide,
    (bitvector_backward_search (bitvector.run [bitvector.call.append 0xffff 64,
      bitvector.call.append 0x30abffff7000ffff 64]) (by decide) 125 (by decide)).2.2.2.1,
    by decide, by decide, by decide⟩

/-- Forward iteration over the set bits: for every BitVector `v` that satisfies
the invariant and whose size the size type can hold, the iteration from `begin`
to `end` visits exactly the positions `i` below the size with bit `i` set, in
strictly ascending order, hence each once; the number of positions visited is
`count()`, also through the `count_impl` of the polymorphic bitstream; and the
iteration stops at the end iterator of the same, unchanged vector. -/
theorem ones_forward_iteration (v : bitvector) (h : v.trimmed)
    (hsize : v.size ≤ bitvector.npos) :
    (∀ i, i ∈ (bitvector.ones v).1 ↔ i < v.size ∧ bitvector.get v i = true)
      ∧ (bitvector.ones v).1.Pairwise (fun a b => a < b)
      ∧ (bitvector.ones v).1.length = bitvector.count v
      ∧ (bitvector.ones v).2 = bitvector.ones_iterator.end_ v
      ∧ bitstream_model.count_impl (fun _ : Unit => bitvector_search)
          { tag := (), bitstream_ := v } = (bitvector.ones v).1.length := by
  have hs : v.size = v.num_bits_ := rfl
  rw [hs] at hsize ⊢
  rw [bitvector_ones_eq v hsize]
  refine ⟨?_, set_positions_ascending v, set_positions_length v h, rfl, ?_⟩
  · intro i
    simp [List.mem_filter]
  · exact (set_positions_length v h).symm

/-- Forward iteration at a concrete input: the vector `101010` of the unit test
has its set bits at the positions 1, 3 and 5. -/
theorem ones_forward_iteration_example :
    (bitvector.ones (bitvector.run [bitvector.call.append 42 6])).1 = [1, 3, 5] := by
  decide

/-- C30: starting from an empty BitVector, after any sequence of `push_back`,
`append(block, nbits)`, `append(n, bit)`, `flip(i)`, bit assignment, bitwise NOT
and shift operations, each within its precondition, the vector satisfies the
invariant: it has the blocks its size needs and every bit at a position at or
beyond `size()` is zero; and the count of its complement is its size less its
count. -/
theorem bitvector_trimmed_invariant (calls : List bitvector.call)
    (hv : bitvector.valid_run bitvector.init calls = true) :
    (bitvector.run calls).trimmed
      ∧ (∀ i, (bitvector.run calls).size ≤ i → bitvector.get (bitvector.run calls) i = false)
      ∧ bitvector.count (bitvector.flip (bitvector.run calls))
          = (bitvector.run calls).size - bitvector.count (bitvector.run calls) :=
  ⟨bitvector_run_trimmed calls hv,
    fun i hi => bitvector_get_beyond _ (bitvector_run_trimmed calls hv) i hi,
    bitvector_count_flip _ (bitvector_run_trimmed calls hv)⟩

/-- C30, at a concrete input: the operations of the unit test, which build
`101010`, followed by a complement, shifts and appends. -/
theorem bitvector_trimmed_invariant_witness :
    bitvector.valid_run bitvector.init
        [bitvector.call.append_n 6 false, bitvector.call.flip_bit 3,
          bitvector.call.assign 1 true, bitvector.call.assign 5 true,
          bitvector.call.flip, bitvector.call.shift_left 2, bitvector.call.push_back true,
          bitvector.call.append 0xf00f 16, bitvector.call.shift_right 1] = true
      ∧ (bitvector.run
        [bitvector.call.append_n 6 false, bitvector.call.flip_bit 3,
          bitvector.call.assign 1 true, bitvector.call.assign 5 true,
          bitvector.call.flip, bitvector.call.shift_left 2, bitvector.call.push_back true,
          bitvector.call.append 0xf00f 16, bitvector.call.shift_right 1]).trimmed
      ∧ bitvector.run
        [bitvector.call.append_n 6 false, bitvector.call.flip_bit 3,
          bitvector.call.assign 1 true, bitvector.call.assign 5 true,
          bitvector.call.flip, bitvector.call.shift_left 2, bitvector.call.push_back true,
          bitvector.call.append 0xf00f 16, bitvector.call.shift_right 1]
        = { bits_ := [3933162], num_bits_ := 23 } :=
  ⟨by decide,
    (bitvector_trimmed_invariant
      [bitvector.call.append_n 6 false, bitvector.call.flip_bit 3,
        bitvector.call.assign 1 true, bitvector.call.assign 5 true,
        bitvector.call.flip, bitvector.call.shift_left 2, bitvector.call.push_back true,
        bitvector.call.append 0xf00f 16, bitvector.call.shift_right 1] (by decide)).1,
    by decide⟩

/-! ## Bit vector: block count -/

theorem bitvector_append_n_size (v : bitvector) (bit : Bool) :
    ∀ n, (bitvector.append_n v n bit).num_bits_ = v.num_bits_ + n
  | 0 => rfl
  | n + 1 => by
    rw [bitvector.append_n, bitvector.push_back, bitvector_append_size,
      bitvector_append_n_size v bit n]
    omega

theorem bitvector_apply_append_size (v : bitvector) (c : bitvector.call)
    (hc : c.is_append = true) :
    (bitvector.apply v c).num_bits_ = v.num_bits_ + c.appended := by
  cases c with
  | push_back bit => exact bitvector_append_size v _ 1
  | append block nbits => exact bitvector_append_size v block nbits
  | append_n n bit => exact bitvector_append_n_size v bit n
  | flip_bit i => exact Bool.noConfusion hc
  | assign i bit => exact Bool.noConfusion hc
  | flip => exact Bool.noConfusion hc
  | shift_left n => exact Bool.noConfusion hc
  | shift_right n => exact Bool.noConfusion hc

theorem bitvector_fold_append_size (calls : List bitvector.call) :
    ∀ v : bitvector, (∀ c ∈ calls, c.is_append = true) →
      (calls.foldl bitvector.apply v).num_bits_
        = v.num_bits_ + (calls.map bitvector.call.appended).sum := by
  induction calls with
  | nil => intro v _; rfl
  | cons c rest ih =>
    intro v h
    simp only [List.foldl_cons, List.map_cons, List.sum_cons]
    rw [ih _ (fun x hx => h x (List.mem_cons_of_mem _ hx)),
      bitvector_apply_append_size v c (h c (List.mem_cons_self _ _))]
    omega

/-- C31: after any sequence of `push_back`, `append(block, nbits)` and
`append(n, bit)` operations on the empty BitVector, each within its
precondition, `blocks()` is the ceiling of `size()` divided by `block_width`,
and `size()` is the total number of bits appended. -/
theorem bitvector_block_count (calls : List bitvector.call)
    (happ : ∀ c ∈ calls, c.is_append = true)
    (hv : bitvector.valid_run bitvector.init calls = true) :
    (bitvector.run calls).blocks
        = ((bitvector.run calls).size + block_width - 1) / block_width
      ∧ (bitvector.run calls).size = (calls.map bitvector.call.appended).sum := by
  refine ⟨(bitvector_run_trimmed calls hv).1, ?_⟩
  have h := bitvector_fold_append_size calls bitvector.init happ
  have h0 : bitvector.init.num_bits_ = 0 := rfl
  rw [h0, Nat.zero_add] at h
  exact h

/-- C31, at a concrete input: the operations of the unit test, 27 bits in one
block and then `27 + block_width + 8` bits in two blocks. -/
theorem bitvector_block_count_witness :
    ((∀ c ∈ [bitvector.call.push_back true, bitvector.call.push_back false,
          bitvector.call.push_back true, bitvector.call.append 0xf00f 16,
          bitvector.call.append 0xf0 8, bitvector.call.append 0 64,
          bitvector.call.append 0xff 8], c.is_append = true)
        ∧ bitvector.valid_run bitvector.init
          [bitvector.call.push_back true, bitvector.call.push_back false,
            bitvector.call.push_back true, bitvector.call.append 0xf00f 16,
            bitvector.call.append 0xf0 8, bitvector.call.append 0 64,
            bitvector.call.append 0xff 8] = true)
      ∧ (bitvector.run [bitvector.call.push_back true, bitvector.call.push_back false,
          bitvector.call.push_back true, bitvector.call.append 0xf00f 16,
          bitvector.call.append 0xf0 8, bitvector.call.append 0 64,
          bitvector.call.append 0xff 8]).size
        = ([bitvector.call.push_back true, bitvector.call.push_back false,
          bitvector.call.push_back true, bitvector.call.append 0xf00f 16,
          bitvector.call.append 0xf0 8, bitvector.call.append 0 64,
          bitvector.call.append 0xff 8].map bitvector.call.appended).sum
      ∧ (bitvector.run [bitvector.call.push_back true, bitvector.call.push_back false,
          bitvector.call.push_back true, bitvector.call.append 0xf00f 16,
          bitvector.call.append 0xf0 8, bitvector.call.append 0 64,
          bitvector.call.append 0xff 8]).size = 27 + block_width + 8
      ∧ (bitvector.run [bitvector.call.push_back true, bitvector.call.push_back false,
          bitvector.call.push_back true, bitvector.call.append 0xf00f 16,
          bitvector.call.append 0xf0 8, bitvector.call.append 0 64,
          bitvector.call.append 0xff 8]).blocks = 2
      ∧ (bitvector.run [bitvector.call.push_back true, bitvector.call.push_back false,
          bitvector.call.push_back true, bitvector.call.append 0xf00f 16,
          bitvector.call.append 0xf0 8]).blocks = 1 :=
  ⟨⟨by decide, by decide⟩,
    (bitvector_block_count [bitvector.call.push_back true, bitvector.call.push_back false,
      bitvector.call.push_back true, bitvector.call.append 0xf00f 16,
      bitvector.call.append 0xf0 8, bitvector.call.append 0 64,
      bitvector.call.append 0xff 8] (by decide) (by decide)).2,
    by decide, by decide, by decide⟩

/-! ## Look-ahead parser -/

/-- C32: for every wrapped parser `p`, input range `[f, l)` and attribute,
`and_parser(p).parse(f, l, attr)`, also when built by `operator&`, returns the
success value `p` returns when called on the same range with the attribute
`unused`, leaves the position `f` where it was whether `p` succeeds or fails,
and leaves `attr` as it was. -/
theorem and_parser_parse {Iterator Attribute : Type}
    (p : Iterator → Iterator → unused_type → parse_result Iterator unused_type)
    (f l : Iterator) (attr : Attribute) :
    (and_parser_class.parse (and_parser_class.operator_and p) f l attr).success
        = (p f l unused_type.unused).success
      ∧ (and_parser_class.parse (and_parser_class.operator_and p) f l attr).f = f
      ∧ (and_parser_class.parse (and_parser_class.operator_and p) f l attr).a = attr
      ∧ (and_parser_class.parse (and_parser_class.mk p) f l attr).success
        = (p f l unused_type.unused).success
      ∧ (and_parser_class.parse (and_parser_class.mk p) f l attr).f = f
      ∧ (and_parser_class.parse (and_parser_class.mk p) f l attr).a = attr :=
  ⟨rfl, rfl, rfl, rfl, rfl, rfl⟩

/-! ## Variant -/

theorem variant_get_if_same {Tag : Type} [DecidableEq Tag] {Ts : List Tag} {Rep : Tag → Type}
    (T : Tag) (v : variant Ts Rep) (h : Ts.get v.index_ = T) :
    variant.get_if T v = some (h ▸ v.storage_) := by
  unfold variant.get_if variant.visit variant.apply variant.getter
  rw [dif_pos h]

theorem variant_get_if_other {Tag : Type} [DecidableEq Tag] {Ts : List Tag}
    {Rep : Tag → Type} (T : Tag) (v : variant Ts Rep) (h : Ts.get v.index_ ≠ T) :
    variant.get_if T v = none := by
  unfold variant.get_if variant.visit variant.apply variant.getter
  rw [dif_neg h]

/-- C33: for every variant `v` and alternative type `T`, `get<T>(v)` returns the
value held by `v` when the active alternative has type `T`, and throws
`bad_variant_access` if and only if the active alternative has a different
type; `get_if<T>(v)` is non-null exactly in the first case, and then points to
the value held. -/
theorem variant_get {Tag : Type} [DecidableEq Tag] {Ts : List Tag} {Rep : Tag → Type}
    (T : Tag) (v : variant Ts Rep) :
    (∀ h : Ts.get v.index_ = T, variant.get T v = Except.ok (h ▸ v.storage_))
      ∧ (variant.get T v = Except.error bad_variant_access.mk ↔ Ts.get v.index_ ≠ T)
      ∧ ((variant.get_if T v).isSome = true ↔ Ts.get v.index_ = T)
      ∧ (∀ h : Ts.get v.index_ = T, variant.get_if T v = some (h ▸ v.storage_)) := by
  refine ⟨?_, ?_, ?_, variant_get_if_same T v⟩
  · intro h
    unfold variant.get
    rw [variant_get_if_same T v h]
  · by_cases h : Ts.get v.index_ = T
    · unfold variant.get
      rw [variant_get_if_same T v h]
      constructor
      · intro hx
        exact Except.noConfusion hx
      · intro hx
        exact absurd h hx
    · unfold variant.get
      rw [variant_get_if_other T v h]
      exact ⟨fun _ => h, fun _ => rfl⟩
  · by_cases h : Ts.get v.index_ = T
    · rw [variant_get_if_same T v h]
      exact ⟨fun _ => h, fun _ => rfl⟩
    · rw [variant_get_if_other T v h]
      constructor
      · intro hx
        exact Bool.noConfusion hx
      · intro hx
        exact absurd hx h

/-- C33, at concrete inputs: a `variant` of an integer and a string type that
holds the string `a`. -/
theorem variant_get_witness :
    variant.get true
        (⟨⟨1, by decide⟩, "a"⟩ : variant [false, true] (fun b => cond b String Int))
        = Except.ok "a"
      ∧ variant.get false
        (⟨⟨1, by decide⟩, "a"⟩ : variant [false, true] (fun b => cond b String Int))
        = Except.error bad_variant_access.mk
      ∧ (variant.get_if true
        (⟨⟨1, by decide⟩, "a"⟩ : variant [false, true] (fun b => cond b String Int))).isSome
        = true :=
  ⟨(variant_get true
      (⟨⟨1, by decide⟩, "a"⟩ : variant [false, true] (fun b => cond b String Int))).1 rfl,
    (variant_get false
      (⟨⟨1, by decide⟩, "a"⟩ : variant [false, true] (fun b => cond b String Int))).2.1.mpr
      (by decide),
    rfl⟩

/-- C34, at a concrete input: on a `variant` of an integer and a string type
that holds the string `a`, `is<string>` is `true` while the expression
`get_if<string>(v) == nullptr` is `false`, and `is<int>` is `false` while
`get_if<int>(v) == nullptr` is `true`; in general `is<T>(v)` is the negation of
that expression. -/
theorem variant_is_negates_documented_shortcut :
    variant.is true
        (⟨⟨1, by decide⟩, "a"⟩ : variant [false, true] (fun b => cond b String Int)) = true
      ∧ variant.get_if_is_nullptr true
        (⟨⟨1, by decide⟩, "a"⟩ : variant [false, true] (fun b => cond b String Int)) = false
      ∧ variant.is false
        (⟨⟨1, by decide⟩, "a"⟩ : variant [false, true] (fun b => cond b String Int)) = false
      ∧ variant.get_if_is_nullptr false
        (⟨⟨1, by decide⟩, "a"⟩ : variant [false, true] (fun b => cond b String Int)) = true
      ∧ ∀ (Tag : Type) [DecidableEq Tag] (Ts : List Tag) (Rep : Tag → Type) (T : Tag)
          (v : variant Ts Rep), variant.is T v = !variant.get_if_is_nullptr T v := by
  refine ⟨rfl, rfl, rfl, rfl, ?_⟩
  intro Tag _ Ts Rep T v
  unfold variant.is variant.get_if_is_nullptr
  cases variant.get_if T v <;> rfl

theorem variant_operator_eq_iff {Tag : Type} {Ts : List Tag} {Rep : Tag → Type}
    (eq : ∀ t, Rep t → Rep t → Bool) (x y : variant Ts Rep) :
    variant.operator_eq eq x y = true
      ↔ ∃ h : x.index_ = y.index_, eq (Ts.get y.index_) (h ▸ x.storage_) y.storage_ = true := by
  unfold variant.operator_eq
  by_cases h : x.index_ = y.index_
  · rw [dif_pos h]
    exact ⟨fun hx => ⟨h, hx⟩, fun ⟨_, hx⟩ => hx⟩
  · rw [dif_neg h]
    constructor
    · intro hx
      exact Bool.noConfusion hx
    · intro ⟨h1, _⟩
      exact absurd h1 h

theorem variant_operator_lt_iff {Tag : Type} {Ts : List Tag} {Rep : Tag → Type}
    (lt : ∀ t, Rep t → Rep t → Bool) (x y : variant Ts Rep) :
    variant.operator_lt lt x y = true
      ↔ x.index_ < y.index_
        ∨ ∃ h : x.index_ = y.index_,
            lt (Ts.get y.index_) (h ▸ x.storage_) y.storage_ = true := by
  unfold variant.operator_lt
  by_cases h : x.index_ = y.index_
  · rw [dif_pos h]
    constructor
    · intro hx
      exact Or.inr ⟨h, hx⟩
    · intro hx
      rcases hx with h1 | ⟨_, h1⟩
      · rw [h] at h1
        exact absurd h1 (lt_irrefl _)
      · exact h1
  · rw [dif_neg h]
    constructor
    · intro hx
      exact Or.inl (of_decide_eq_true hx)
    · intro hx
      rcases hx with h1 | ⟨h1, _⟩
      · exact decide_eq_true h1
      · exact absurd h1 h

theorem variant_strict_total_order {Tag : Type} {Ts : List Tag} {Rep : Tag → Type}
    (eq lt : ∀ t, Rep t → Rep t → Bool)
    (h : ∀ t, strict_total_order (eq t) (lt t)) :
    strict_total_order (@variant.operator_eq Tag Ts Rep eq) (variant.operator_lt lt) := by
  constructor
  · intro x y
    obtain ⟨i, a⟩ := x
    obtain ⟨j, b⟩ := y
    by_cases hij : i = j
    · subst hij
      simp only [variant.operator_eq, variant.operator_lt, dif_pos]
      exact (h _).1 a b
    · have hji : ¬ j = i := fun e => hij e.symm
      simp only [variant.operator_eq, variant.operator_lt, hij, hji, dif_neg,
        not_false_eq_true]
      rcases lt_or_gt_of_ne hij with h1 | h1
      · have h2 : ¬ j < i := not_lt_of_gt h1
        simp [exactly_one, h1, h2]
      · have h2 : ¬ i < j := not_lt_of_gt h1
        simp [exactly_one, h1, h2]
  · intro x y z hxy hyz
    obtain ⟨i, a⟩ := x
    obtain ⟨j, b⟩ := y
    obtain ⟨k, c⟩ := z
    rw [variant_operator_lt_iff] at hxy hyz ⊢
    simp only at hxy hyz ⊢
    rcases hxy with h1 | ⟨h1, h1v⟩
    · rcases hyz with h2 | ⟨h2, _⟩
      · exact Or.inl (lt_trans h1 h2)
      · subst h2
        exact Or.inl h1
    · subst h1
      rcases hyz with h2 | ⟨h2, h2v⟩
      · exact Or.inl h2
      · subst h2
        exact Or.inr ⟨rfl, (h _).2 a b c h1v h2v⟩

/-- C37: `operator==` on variants holds iff both have the same active index and
their held values are equal by the `==` of that alternative type; `operator<`
holds iff the index of the left one is smaller, or the indices are equal and the
held values are in `<` by the alternative type; hence, when the `<` of every
alternative type is a strict total order consistent with its `==`, exactly one
of `x < y`, `x == y`, `y < x` holds for any two variants and `<` is
transitive. -/
theorem variant_comparison {Tag : Type} {Ts : List Tag} {Rep : Tag → Type}
    (eq lt : ∀ t, Rep t → Rep t → Bool) :
    (∀ x y : variant Ts Rep, variant.operator_eq eq x y = true
        ↔ ∃ h : x.index_ = y.index_,
            eq (Ts.get y.index_) (h ▸ x.storage_) y.storage_ = true)
      ∧ (∀ x y : variant Ts Rep, variant.operator_lt lt x y = true
        ↔ x.index_ < y.index_
          ∨ ∃ h : x.index_ = y.index_,
              lt (Ts.get y.index_) (h ▸ x.storage_) y.storage_ = true)
      ∧ ((∀ t, strict_total_order (eq t) (lt t)) →
          (∀ x y : variant Ts Rep,
            exactly_one (variant.operator_lt lt x y) (variant.operator_eq eq x y)
              (variant.operator_lt lt y x) = true)
            ∧ ∀ x y z : variant Ts Rep, variant.operator_lt lt x y = true →
                variant.operator_lt lt y z = true → variant.operator_lt lt x z = true) :=
  ⟨variant_operator_eq_iff eq, variant_operator_lt_iff lt,
    fun h => variant_strict_total_order eq lt h⟩

/-- C37, at concrete inputs: variants of two integer types under the integer
`==` and `<`; a value of the first alternative is below every value of the
second. -/
theorem variant_comparison_witness :
    (∀ _ : Bool, strict_total_order (fun a b : Int => decide (a = b))
        (fun a b : Int => decide (a < b)))
      ∧ (∀ x y : variant [false, true] (fun _ => Int),
          exactly_one
            (variant.operator_lt (fun _ (a b : Int) => decide (a < b)) x y)
            (variant.operator_eq (fun _ (a b : Int) => decide (a = b)) x y)
            (variant.operator_lt (fun _ (a b : Int) => decide (a < b)) y x) = true)
      ∧ variant.operator_lt (fun _ (a b : Int) => decide (a < b))
          (⟨⟨0, by decide⟩, (7 : Int)⟩ : variant [false, true] (fun _ => Int))
          (⟨⟨1, by decide⟩, (3 : Int)⟩ : variant [false, true] (fun _ => Int)) = true
      ∧ variant.operator_eq (fun _ (a b : Int) => decide (a = b))
          (⟨⟨0, by decide⟩, (3 : Int)⟩ : variant [false, true] (fun _ => Int))
          (⟨⟨1, by decide⟩, (3 : Int)⟩ : variant [false, true] (fun _ => Int)) = false :=
  have hord : ∀ _ : Bool, strict_total_order (fun a b : Int => decide (a = b))
      (fun a b : Int => decide (a < b)) := by
    intro _
    constructor
    · intro a b
      rcases Int.lt_trichotomy a b with h | h | h
      · have h1 : ¬ a = b := by omega
        have h2 : ¬ b < a := by omega
        simp [exactly_one, h, h1, h2]
      · subst h
        simp [exactly_one]
      · have h1 : ¬ a = b := by omega
        have h2 : ¬ a < b := by omega
        simp [exactly_one, h, h1, h2]
    · intro a b c hab hbc
      simp only [decide_eq_true_eq] at hab hbc ⊢
      omega
  ⟨hord,
    ((variant_comparison (fun _ (a b : Int) => decide (a = b))
      (fun _ (a b : Int) => decide (a < b))).2.2 hord).1,
    by decide, by decide⟩

/-! ## Command line -/

theorem take_eq_iff_isPrefixOf (l t : List Char) :
    decide (l.take t.length = t) = t.isPrefixOf l := by
  rw [Bool.eq_iff_iff, decide_eq_true_eq, List.isPrefixOf_iff_prefix, List.prefix_iff_eq_take]
  exact eq_comm

theorem compare_eq_long_option (s : String) : compare_eq s 2 "--" = begins_with s "--" :=
  take_eq_iff_isPrefixOf s.toList "--".toList

theorem compare_eq_short_option (s : String) : compare_eq s 1 "-" = begins_with s "-" :=
  take_eq_iff_isPrefixOf s.toList "-".toList

theorem begins_with_dash_of_dashes (s : String) (h : begins_with s "--" = true) :
    begins_with s "-" = true := by
  unfold begins_with at h ⊢
  rw [List.isPrefixOf_iff_prefix] at h ⊢
  exact List.IsPrefix.trans (List.prefix_append ['-'] ['-']) h

theorem subcommand_position_cons (a : String) (l : List String) :
    command.subcommand_position (a :: l)
      = if begins_with a "--" then (command.subcommand_position l).map (fun p => p + 1)
        else if begins_with a "-" then
          (command.subcommand_position (l.drop 1)).map (fun p => p + 2)
        else some 0 := by
  cases l with
  | nil =>
    simp only [command.subcommand_position, List.drop_nil, Option.map_none']
    by_cases h2 : begins_with a "--" = true
    · simp [h2, begins_with_dash_of_dashes a h2]
    · simp [h2]
  | cons b rest =>
    simp only [command.subcommand_position, List.drop_succ_cons, List.drop_zero]

theorem subcommand_position_spec :
    ∀ (n : Nat) (l : List String) (p : Nat), l.length ≤ n →
      command.subcommand_position l = some p →
      p < l.length ∧ begins_with (l.getD p "") "-" = false
  | _, [], p, _, h => by simp [command.subcommand_position] at h
  | 0, _ :: _, _, hn, _ => by simp at hn
  | n + 1, a :: l, p, hn, h => by
    rw [subcommand_position_cons] at h
    have hlen : l.length ≤ n := by simpa using hn
    by_cases h2 : begins_with a "--" = true
    · rw [if_pos h2] at h
      obtain ⟨q, hq, hqp⟩ := Option.map_eq_some'.mp h
      obtain ⟨h3, h4⟩ := subcommand_position_spec n l q hlen hq
      subst hqp
      exact ⟨by simp only [List.length_cons]; omega, by simpa using h4⟩
    · rw [if_neg h2] at h
      by_cases h1 : begins_with a "-" = true
      · rw [if_pos h1] at h
        obtain ⟨q, hq, hqp⟩ := Option.map_eq_some'.mp h
        obtain ⟨h3, h4⟩ := subcommand_position_spec n (l.drop 1) q
          (by simp only [List.length_drop]; omega) hq
        subst hqp
        simp only [List.length_drop] at h3
        refine ⟨by simp only [List.length_cons]; omega, ?_⟩
        have e : (a :: l).getD (q + 2) "" = (l.drop 1).getD q "" := by
          simp only [List.getD_eq_getElem?_getD, List.getElem?_cons_succ, List.getElem?_drop]
          rw [Nat.add_comm 1 q]
        rw [e]
        exact h4
      · rw [if_neg h1] at h
        simp only [Option.some.injEq] at h
        subst h
        refine ⟨by simp, ?_⟩
        simpa using h1

theorem separate_args_loop_scan (args : List String) :
    ∀ (fuel pos : Nat), 0 < fuel → args.length < fuel + pos →
      command.separate_args_loop args fuel pos
        = some ((command.subcommand_position (args.drop pos)).elim (args, "", [])
            (fun p => (args.take (pos + p), args.getD (pos + p) "", args.drop (pos + p + 1))))
  | 0, _, h, _ => absurd h (Nat.lt_irrefl 0)
  | fuel + 1, pos, _, hlen => by
    rw [command.separate_args_loop]
    by_cases hpos : pos < args.length
    · rw [if_pos hpos]
      have hfuel : 0 < fuel := by omega
      have hdrop : args.drop pos = args.getD pos "" :: args.drop (pos + 1) := by
        rw [List.drop_eq_getElem_cons hpos, List.getD_eq_getElem?_getD,
          List.getElem?_eq_getElem hpos]
        rfl
      rw [hdrop, subcommand_position_cons, compare_eq_long_option, compare_eq_short_option,
        List.drop_drop]
      by_cases h2 : begins_with (args.getD pos "") "--" = true
      · rw [if_pos h2, if_pos h2, separate_args_loop_scan args fuel (pos + 1) hfuel (by omega)]
        cases command.subcommand_position (args.drop (pos + 1)) with
        | none => rfl
        | some p =>
          simp only [Option.map_some', Option.elim_some]
          have e : pos + (p + 1) = pos + 1 + p := by omega
          rw [e]
      · rw [if_neg h2, if_neg h2]
        by_cases h1 : begins_with (args.getD pos "") "-" = true
        · rw [if_pos h1, if_pos h1,
            separate_args_loop_scan args fuel (pos + 2) hfuel (by omega)]
          have e0 : pos + 1 + 1 = pos + 2 := rfl
          rw [e0]
          cases command.subcommand_position (args.drop (pos + 2)) with
          | none => rfl
          | some p =>
            simp only [Option.map_some', Option.elim_some]
            have e : pos + (p + 2) = pos + 2 + p := by omega
            rw [e]
        · rw [if_neg h1, if_neg h1]
          simp only [Option.elim_some, Nat.add_zero]
    · rw [if_neg hpos, List.drop_eq_nil_of_le (by omega)]
      rfl

theorem separate_args_eq (args : List String) :
    command.separate_args args
      = some ((command.subcommand_position args).elim (args, "", [])
          (fun p => (args.take p, args.getD p "", args.drop (p + 1)))) := by
  have h := separate_args_loop_scan args (args.length + 1) 0 (by omega) (by omega)
  simp only [List.drop_zero, Nat.zero_add] at h
  exact h

theorem take_getD_drop (args : List String) (p : Nat) (hp : p < args.length) :
    args.take p ++ [args.getD p ""] ++ args.drop (p + 1) = args := by
  rw [List.append_assoc, List.singleton_append, List.getD_eq_getElem?_getD,
    List.getElem?_eq_getElem hp]
  simp only [Option.getD_some]
  rw [← List.drop_eq_getElem_cons hp, List.take_append_drop]

/-- C35: for every list of string arguments, `separate_args` returns: when the
scan from the left, which skips one argument for each argument beginning with
`--` and two for each other argument beginning with `-`, reaches an argument
that does not begin with `-`, that argument as the subcommand, the arguments
before it as local arguments and the arguments after it as subcommand
arguments, so that `local ++ [subcommand] ++ rest` is the input; and when the
scan runs past the end, `(all arguments, "", empty)`. -/
theorem separate_args_scan (args : List String) :
    (∀ p, command.subcommand_position args = some p →
        command.separate_args args = some (args.take p, args.getD p "", args.drop (p + 1))
          ∧ p < args.length
          ∧ begins_with (args.getD p "") "-" = false
          ∧ args.take p ++ [args.getD p ""] ++ args.drop (p + 1) = args)
      ∧ (command.subcommand_position args = none →
          command.separate_args args = some (args, "", [])) := by
  constructor
  · intro p hp
    obtain ⟨h1, h2⟩ := subcommand_position_spec args.length args p (Nat.le_refl _) hp
    refine ⟨?_, h1, h2, take_getD_drop args p h1⟩
    rw [separate_args_eq, hp]
    rfl
  · intro hp
    rw [separate_args_eq, hp]
    rfl

/-- C35, at concrete inputs: a long option, a short option with its value, the
subcommand `start` and its arguments; and a lone short option, after which the
scan runs past the end. -/
theorem separate_args_scan_witness :
    command.subcommand_position ["--foo", "-x", "1", "start", "a", "b"] = some 3
      ∧ command.separate_args ["--foo", "-x", "1", "start", "a", "b"]
        = some (["--foo", "-x", "1"], "start", ["a", "b"])
      ∧ command.subcommand_position ["-x"] = none
      ∧ command.separate_args ["-x"] = some (["-x"], "", []) :=
  ⟨by decide,
    ((separate_args_scan ["--foo", "-x", "1", "start", "a", "b"]).1 3 (by decide)).1,
    by decide,
    (separate_args_scan ["-x"]).2 (by decide)⟩

/-- C36, at a concrete input: for the arguments `""` and `x`, `separate_args`
returns the empty subcommand name together with the non-empty subcommand
arguments `x`, and `command::run`, when no help is asked for and `proceed`
returns `proceed_ok`, arrives at `VAST_ASSERT(subcmd_args.empty())` with a
non-empty `subcmd_args`. -/
theorem run_assertion_fails_on_empty_argument :
    command.separate_args ["", "x"] = some ([], "", ["x"])
      ∧ ∀ nested_ : List String,
          command.run (fun _ => false) (fun _ => proceed_result.proceed_ok) nested_ ["", "x"]
            = some run_result.assertion_failed := by
  refine ⟨by decide, ?_⟩
  intro nested_
  have h : command.separate_args ["", "x"] = some ([], "", ["x"]) := by decide
  unfold command.run
  rw [h]
  rfl

end vast
